import Mathlib

set_option maxHeartbeats 1000000
set_option linter.unusedSectionVars false

/- Verification development for the redis-comments repository.

   The repository ships three source files: src/adlist.c and src/adlist.h (a
   generic doubly linked list, fully present) and src/dict.h (the interface,
   macros and data structures of an incrementally-rehashed chaining hash
   table).  The hash-table implementation file itself is not part of the
   repository, so every dict *operation* below is modelled from the
   specification; the dict *data structures and macros* are embedded from
   src/dict.h directly.

   Embedding conventions:
   - C pointers to opaque key/value data become values of type parameters
     `K`/`V` with decidable equality; pointer identity becomes equality.
   - A coherent doubly linked chain is represented by the head-to-tail
     sequence of its node values; `prev`/`next` coherence is implicit in the
     representation.  Stored length counters are kept as separate fields
     because the C code maintains them independently of the links.
   - malloc/zmalloc failure is modelled by explicit allocation oracles
     (`Bool` per allocation); functions that mutate in place return the
     updated structure, and a failed path returns the input unchanged,
     mirroring "on error no operation is performed".
   - Effectful caller-supplied destructors carry no information in a pure
     model; only their presence matters, plus the log of values they would
     be invoked on. -/

/-! ## The doubly linked list of src/adlist.c -/

/-- The `list` structure of src/adlist.h lines 49-56, under the sequence
abstraction: `nodes` is the head-to-tail sequence of node values reachable
from `head` via `next`; `len` is the stored `len` field.  The `dup` method
may return NULL (hence `V → Option V`), `free` is an effectful destructor,
and the C field `match` is renamed `matchFn` (`match` is a Lean keyword). -/
structure AdList (V : Type) where
  nodes : List V
  len : Nat
  dup : Option (V → Option V)
  free : Option (V → Unit)
  matchFn : Option (V → V → Bool)

/-- `listCreate` (src/adlist.c lines 42-54): allocates an empty list with all
methods unset; returns NULL (`none`) if the allocation fails. -/
def listCreate (V : Type) (allocOk : Bool) : Option (AdList V) :=
  if allocOk then some ⟨[], 0, none, none, none⟩ else none

/-- `listAddNodeHead` (src/adlist.c lines 92-113).  `allocOk` is the outcome
of the node allocation; on failure the result is `(false, l)`: NULL is
returned and the list is unaltered.  The empty/non-empty branch mirrors the
C code's `if (list->len == 0)` test on the stored length field. -/
def listAddNodeHead {V : Type} (l : AdList V) (value : V) (allocOk : Bool) :
    Bool × AdList V :=
  if allocOk = false then (false, l)
  else if l.len = 0 then
    (true, { l with nodes := [value], len := l.len + 1 })
  else
    (true, { l with nodes := value :: l.nodes, len := l.len + 1 })

/-- `listAddNodeTail` (src/adlist.c lines 122-140), same conventions as
`listAddNodeHead`. -/
def listAddNodeTail {V : Type} (l : AdList V) (value : V) (allocOk : Bool) :
    Bool × AdList V :=
  if allocOk = false then (false, l)
  else if l.len = 0 then
    (true, { l with nodes := [value], len := l.len + 1 })
  else
    (true, { l with nodes := l.nodes ++ [value], len := l.len + 1 })

/-- `listFirst` macro (src/adlist.h line 60): the head node's value. -/
def listFirst {V : Type} (l : AdList V) : Option V := l.nodes.head?

/-- `listLast` macro (src/adlist.h line 61): the tail node's value. -/
def listLast {V : Type} (l : AdList V) : Option V := l.nodes.getLast?

/-- The value a node receives in `listDup` (src/adlist.c lines 285-295):
apply the copy's `dup` method when set (it may fail, returning `none`),
otherwise reuse the original value pointer. -/
def listDupValue {V : Type} (dup : Option (V → Option V)) (v : V) : Option V :=
  match dup with
  | some f => f v
  | none => some v

/-- The iteration loop of `listDup` (src/adlist.c lines 284-300): walk the
original's nodes from head to tail, duplicate each value, append it at the
copy's tail.  `alloc i` is the outcome of the i-th allocation after the one
for the copy's header; a failed dup or node allocation releases the copy and
returns NULL (`none`). -/
def listDupGo {V : Type} (dup : Option (V → Option V)) (alloc : Nat → Bool) :
    List V → AdList V → Nat → Option (AdList V)
  | [], copy, _ => some copy
  | v :: rest, copy, i =>
    match listDupValue dup v with
    | none => none
    | some value =>
      match listAddNodeTail copy value (alloc i) with
      | (false, _) => none
      | (true, copy') => listDupGo dup alloc rest copy' (i + 1)

/-- `listDup` (src/adlist.c lines 273-302): create an empty copy (allocation
0), take over the original's three methods, then append a duplicate of every
node value in head-to-tail order; NULL on any allocation or dup failure.
The original list is never written to — immediate in this pure embedding. -/
def listDup {V : Type} (orig : AdList V) (alloc : Nat → Bool) :
    Option (AdList V) :=
  match listCreate V (alloc 0) with
  | none => none
  | some copy0 =>
    let copy := { copy0 with dup := orig.dup, free := orig.free,
                             matchFn := orig.matchFn }
    listDupGo orig.dup alloc orig.nodes copy 1

/-- `listJoin` (src/adlist.c lines 376-391): splice all of `o`'s nodes after
`l`'s tail and reset `o` to a valid empty list.  The branch on `l.nodes`
mirrors the C test `if (l->tail) l->tail->next = o->head; else l->head =
o->head;`; the length is updated by `l->len += o->len` on the stored
counters.  Returns the updated `(l, o)` pair. -/
def listJoin {V : Type} (l o : AdList V) : AdList V × AdList V :=
  ({ l with nodes := if l.nodes.isEmpty then o.nodes else l.nodes ++ o.nodes,
            len := l.len + o.len },
   { o with nodes := [], len := 0 })

/-- C8: a successful `listAddNodeHead` (resp. `listAddNodeTail`) on a
well-formed list increments the length by exactly one and prepends (resp.
appends) a node with exactly the given value, preserving the relative order
of all previously present nodes; on allocation failure both return NULL and
leave the list completely unchanged. -/
theorem listAddNode_spec {V : Type} (l : AdList V) (v : V)
    (hwf : l.len = l.nodes.length) :
    listAddNodeHead l v false = (false, l) ∧
    listAddNodeTail l v false = (false, l) ∧
    (listAddNodeHead l v true).1 = true ∧
    (listAddNodeHead l v true).2.nodes = v :: l.nodes ∧
    (listAddNodeHead l v true).2.len = l.len + 1 ∧
    (listAddNodeTail l v true).1 = true ∧
    (listAddNodeTail l v true).2.nodes = l.nodes ++ [v] ∧
    (listAddNodeTail l v true).2.len = l.len + 1 := by
  by_cases h : l.len = 0
  · have hnil : l.nodes = [] := by
      have := hwf.symm.trans h
      exact List.eq_nil_of_length_eq_zero this
    simp [listAddNodeHead, listAddNodeTail, h, hnil]
  · simp [listAddNodeHead, listAddNodeTail, h]

theorem listAddNode_spec_witness :
    (⟨[10], 1, none, none, none⟩ : AdList Nat).len
      = (⟨[10], 1, none, none, none⟩ : AdList Nat).nodes.length ∧
    (listAddNodeHead (⟨[10], 1, none, none, none⟩ : AdList Nat) 7 true).2.nodes
      = [7, 10] :=
  ⟨rfl, (listAddNode_spec (⟨[10], 1, none, none, none⟩ : AdList Nat) 7
      rfl).2.2.2.1⟩

theorem listDupGo_spec {V : Type} (dup : Option (V → Option V))
    (alloc : Nat → Bool) :
    ∀ (rest : List V) (copy : AdList V) (i : Nat),
      copy.len = copy.nodes.length →
      (listDupGo dup alloc rest copy i = none ∨
       ∃ copy', listDupGo dup alloc rest copy i = some copy' ∧
         copy'.len = copy'.nodes.length ∧
         copy'.dup = copy.dup ∧ copy'.free = copy.free ∧
         copy'.matchFn = copy.matchFn ∧
         ∃ app, copy'.nodes = copy.nodes ++ app ∧
           List.Forall₂ (fun a b => listDupValue dup a = some b) rest app) := by
  intro rest
  induction rest with
  | nil =>
    intro copy i hwf
    exact Or.inr ⟨copy, rfl, hwf, rfl, rfl, rfl, [], by simp, List.Forall₂.nil⟩
  | cons v rest ih =>
    intro copy i hwf
    cases hdv : listDupValue dup v with
    | none => exact Or.inl (by simp [listDupGo, hdv])
    | some value =>
      cases hal : alloc i with
      | false => exact Or.inl (by simp [listDupGo, hdv, listAddNodeTail, hal])
      | true =>
        have hstep : listAddNodeTail copy value (alloc i) =
            (true, { copy with nodes := copy.nodes ++ [value],
                               len := copy.len + 1 }) := by
          by_cases h0 : copy.len = 0
          · have : copy.nodes = [] :=
              List.eq_nil_of_length_eq_zero (hwf.symm.trans h0)
            simp [listAddNodeTail, hal, h0, this]
          · simp [listAddNodeTail, hal, h0]
        have hgo : listDupGo dup alloc (v :: rest) copy i =
            listDupGo dup alloc rest
              { copy with nodes := copy.nodes ++ [value], len := copy.len + 1 }
              (i + 1) := by
          simp [listDupGo, hdv, hstep]
        rcases ih { copy with nodes := copy.nodes ++ [value], len := copy.len + 1 }
            (i + 1) (by simp [hwf]) with h | h
        · exact Or.inl (hgo.trans h)
        · rcases h with ⟨copy', heq, hlen, hdup, hfree, hmatch, app, happ, hfa⟩
          refine Or.inr ⟨copy', hgo.trans heq, hlen, hdup, hfree, hmatch,
            value :: app, ?_, List.Forall₂.cons hdv hfa⟩
          simpa using happ

/-- C9: for every list, `listDup` either returns NULL or returns a fresh
list with the same stored length, the same dup/free/match methods, and node
values that are the dup-images of the original's in head-to-tail order
(the identical value pointers when no dup method is set); the original is
never modified (in this pure embedding `orig` is untouched by construction). -/
theorem listDup_spec {V : Type} (orig : AdList V) (alloc : Nat → Bool)
    (hwf : orig.len = orig.nodes.length) :
    listDup orig alloc = none ∨
    ∃ copy, listDup orig alloc = some copy ∧
      copy.len = orig.len ∧
      copy.dup = orig.dup ∧ copy.free = orig.free ∧
      copy.matchFn = orig.matchFn ∧
      List.Forall₂ (fun a b => listDupValue orig.dup a = some b)
        orig.nodes copy.nodes ∧
      (orig.dup = none → copy.nodes = orig.nodes) := by
  cases hal : alloc 0 with
  | false => exact Or.inl (by simp [listDup, listCreate, hal])
  | true =>
    have hunf : listDup orig alloc =
        listDupGo orig.dup alloc orig.nodes
          ⟨[], 0, orig.dup, orig.free, orig.matchFn⟩ 1 := by
      simp [listDup, listCreate, hal]
    rcases listDupGo_spec orig.dup alloc orig.nodes
        ⟨[], 0, orig.dup, orig.free, orig.matchFn⟩ 1 rfl with h | h
    · exact Or.inl (hunf.trans h)
    · rcases h with ⟨copy, heq, hlen, hdup, hfree, hmatch, app, happ, hfa⟩
      have hnodes : copy.nodes = app := by simpa using happ
      have hfa' : List.Forall₂ (fun a b => listDupValue orig.dup a = some b)
          orig.nodes copy.nodes := hnodes ▸ hfa
      refine Or.inr ⟨copy, hunf.trans heq, ?_, hdup, hfree, hmatch, hfa', ?_⟩
      · rw [hlen, hwf]
        exact (List.Forall₂.length_eq hfa').symm
      · intro hnone
        have : List.Forall₂ (fun a b => a = b) orig.nodes copy.nodes := by
          refine hfa'.imp ?_
          intro a b hab
          simpa [listDupValue, hnone] using hab
        rw [List.forall₂_eq_eq_eq] at this
        exact this.symm

theorem listDup_spec_witness :
    (⟨[1, 2], 2, none, none, none⟩ : AdList Nat).len
      = (⟨[1, 2], 2, none, none, none⟩ : AdList Nat).nodes.length ∧
    (listDup (⟨[1, 2], 2, none, none, none⟩ : AdList Nat) (fun _ => true)
        = none ∨
     ∃ copy, listDup (⟨[1, 2], 2, none, none, none⟩ : AdList Nat)
          (fun _ => true) = some copy ∧
        copy.len = (⟨[1, 2], 2, none, none, none⟩ : AdList Nat).len ∧
        copy.dup = none ∧ copy.free = none ∧ copy.matchFn = none ∧
        List.Forall₂ (fun a b => listDupValue none a = some b)
          [1, 2] copy.nodes ∧
        ((none : Option (Nat → Option Nat)) = none → copy.nodes = [1, 2])) :=
  ⟨rfl, listDup_spec (⟨[1, 2], 2, none, none, none⟩ : AdList Nat)
    (fun _ => true) rfl⟩

/-- C10: `listJoin l o` makes `l`'s head-to-tail value sequence the
concatenation of `l`'s previous sequence with `o`'s previous sequence, sets
`l`'s length to the sum of the two previous lengths, and leaves `o` a valid
empty list (head and tail NULL, length 0) with its methods unchanged. -/
theorem listJoin_spec {V : Type} (l o : AdList V) :
    (listJoin l o).1.nodes = l.nodes ++ o.nodes ∧
    (listJoin l o).1.len = l.len + o.len ∧
    listFirst (listJoin l o).2 = none ∧
    listLast (listJoin l o).2 = none ∧
    (listJoin l o).2.nodes = [] ∧
    (listJoin l o).2.len = 0 ∧
    (listJoin l o).2.dup = o.dup ∧
    (listJoin l o).2.free = o.free ∧
    (listJoin l o).2.matchFn = o.matchFn := by
  refine ⟨?_, rfl, rfl, rfl, rfl, rfl, rfl, rfl, rfl⟩
  by_cases h : l.nodes.isEmpty
  · have : l.nodes = [] := List.isEmpty_iff.mp h
    simp [listJoin, this]
  · simp [listJoin, h]

/-! ## The hash table of src/dict.h

The data structures, macros and constants below are embedded from src/dict.h
directly.  The operations (`dictCreate` aside) are declared in dict.h but
implemented in a file that is not part of the repository; each such
definition is therefore modelled from the specification and marked so. -/

/-- `struct dictEntry` (src/dict.h lines 48-57): one key/value pair of a
bucket chain.  The chain's `next` links are represented by the enclosing
bucket list.  The value union is modelled as the opaque-handle arm `v.val`;
`none` marks an entry whose value has not been set yet (dictAddRaw creates
the entry and leaves setting the value to the caller). -/
structure DEntry (K V : Type) where
  key : K
  v : Option V
deriving DecidableEq

/-- `struct dictType` (src/dict.h lines 60-67): the injected behaviors.  The
`privdata` context pointer threaded to every callback carries no information
in a pure model and is dropped.  The destructors are effectful callbacks;
only their presence is observable here (`dictFreeVal` returns the log of
values the destructor would receive). -/
structure DictType (K V : Type) where
  hashFunction : K → Nat
  keyDup : Option (K → K)
  valDup : Option (V → V)
  keyCompare : Option (K → K → Bool)
  keyDestructor : Bool
  valDestructor : Bool

/-- `struct dictht` (src/dict.h lines 72-77): one slot array.  `table` is the
array of bucket chain heads (each bucket a list, newest first), `size` its
length, `sizemask = size - 1`, `used` the number of stored entries.  An
unallocated table is `size = 0`, `table = []`. -/
structure Dictht (K V : Type) where
  table : List (List (DEntry K V))
  size : Nat
  sizemask : Nat
  used : Nat
deriving DecidableEq

/-- `struct dict` (src/dict.h lines 82-88).  `rehashidx = -1` means no
rehash is in progress; `iterators` counts the live safe iterators.  The
process-wide resize-enable switch (`dictEnableResize`/`dictDisableResize`)
is modelled as the field `canResize`, as the specification's design notes
direct. -/
structure Dict (K V : Type) where
  type : DictType K V
  ht0 : Dictht K V
  ht1 : Dictht K V
  rehashidx : Int
  iterators : Nat
  canResize : Bool

/-- `DICT_HT_INITIAL_SIZE` (src/dict.h line 109). -/
def DICT_HT_INITIAL_SIZE : Nat := 4

/-- Modelled from the spec: the high-water growth factor of §4.3 ("after an
insertion, if used/size exceeds a high-water ratio").  The exact constant is
left tunable by the spec's design notes; 1 is the chosen default. -/
def dictGrowFactor : Nat := 1

/-- Modelled from the spec: the fail-safe factor that forces growth even
while resizing is administratively disabled (§4.3); 5 is the chosen
default. -/
def dictForceGrowFactor : Nat := 5

section DictModel

variable {K V : Type} [DecidableEq K] [DecidableEq V]

/-- `dictCompareKeys` macro (src/dict.h lines 151-154): use the type's
`keyCompare` behavior when set, otherwise compare the key handles
directly (pointer identity). -/
def dictCompareKeys (t : DictType K V) (key1 key2 : K) : Bool :=
  match t.keyCompare with
  | some cmp => cmp key1 key2
  | none => key1 == key2

/-- The key duplication of the `dictSetKey` macro (src/dict.h lines
143-148): the key handle actually stored in a new entry. -/
def dictDupKey (t : DictType K V) (k : K) : K :=
  match t.keyDup with
  | some d => d k
  | none => k

/-- The value duplication inside the `dictSetVal` macro (src/dict.h lines
118-123). -/
def dictDupVal (t : DictType K V) (v : V) : V :=
  match t.valDup with
  | some d => d v
  | none => v

/-- `dictSetVal` macro (src/dict.h lines 118-123): store `valDup(privdata,
val)` when a value-duplication behavior is configured, else the given value
handle itself. -/
def dictSetVal (t : DictType K V) (entry : DEntry K V) (val : V) :
    DEntry K V :=
  { entry with v := some (dictDupVal t val) }

/-- `dictFreeVal` macro (src/dict.h lines 113-115): invoke the value
destructor on the entry's value if one is configured.  The result is the
log of values passed to the destructor: empty exactly when nothing is
invoked. -/
def dictFreeVal (t : DictType K V) (entry : DEntry K V) : List (Option V) :=
  if t.valDestructor then [entry.v] else []

/-- `dictIsRehashing` macro (src/dict.h line 164). -/
def dictIsRehashing (d : Dict K V) : Bool := d.rehashidx != -1

/-- `dictSize` macro (src/dict.h line 163): total number of stored
entries as tracked by the two `used` counters. -/
def dictSize (d : Dict K V) : Nat := d.ht0.used + d.ht1.used

/-- An unallocated slot array (a NULL `table` pointer in C). -/
def emptyHt (K V : Type) : Dictht K V := ⟨[], 0, 0, 0⟩

/-- A freshly allocated slot array of `n` buckets, all empty. -/
def freshHt (K V : Type) (n : Nat) : Dictht K V :=
  ⟨List.replicate n [], n, n - 1, 0⟩

/-- `dictCreate` (spec §4.2): both slot arrays unallocated, not rehashing,
no iterators; resizing starts enabled. -/
def dictCreate (t : DictType K V) : Dict K V :=
  ⟨t, emptyHt K V, emptyHt K V, -1, 0, true⟩

/-- The chain stored at bucket `i` (out-of-range reads give the empty
chain). -/
def htBucket (ht : Dictht K V) (i : Nat) : List (DEntry K V) :=
  ht.table.getD i []

/-- The bucket index a key probes in a slot array: `hash(key) & sizemask`
(src/dict.h: `sizemask` "与size配合决定键应该存在哪个表中"). -/
def keyIndex (t : DictType K V) (ht : Dictht K V) (k : K) : Nat :=
  t.hashFunction k &&& ht.sizemask

/-- All entries of a slot array, in bucket order, chain order. -/
def htEntries (ht : Dictht K V) : List (DEntry K V) := ht.table.flatten

/-- All entries of the dict: table 0 then table 1. -/
def entriesOf (d : Dict K V) : List (DEntry K V) :=
  htEntries d.ht0 ++ htEntries d.ht1

/-- The key/value pairs currently stored. -/
def pairsOf (d : Dict K V) : List (K × Option V) :=
  (entriesOf d).map (fun e => (e.key, e.v))

/-- The probe of one bucket chain: first entry whose key compares equal
under `dictCompareKeys`. -/
def chainFind (t : DictType K V) (k : K) :
    List (DEntry K V) → Option (DEntry K V)
  | [] => none
  | e :: rest =>
    if dictCompareKeys t k e.key then some e else chainFind t k rest

/-- Modelled from the spec (§4.2 `find`, side effect excluded): if the dict
is empty report a miss; otherwise probe `table[0]`'s bucket `hash & mask`,
then — only while rehashing — `table[1]`'s.  The implementation file
defining `dictFind` is not in the repository. -/
def dictFindPure (d : Dict K V) (k : K) : Option (DEntry K V) :=
  if dictSize d = 0 then none
  else if (chainFind d.type k (htBucket d.ht0 (keyIndex d.type d.ht0 k))).isSome
  then chainFind d.type k (htBucket d.ht0 (keyIndex d.type d.ht0 k))
  else if dictIsRehashing d then
    chainFind d.type k (htBucket d.ht1 (keyIndex d.type d.ht1 k))
  else none

/-- Relink one migrated entry at the head of its recomputed bucket in the
rehash target (spec §4.3 migration step). -/
def htInsertEntry (t : DictType K V) (ht : Dictht K V) (e : DEntry K V) :
    Dictht K V :=
  let i := t.hashFunction e.key &&& ht.sizemask
  { ht with table := ht.table.set i (e :: htBucket ht i),
            used := ht.used + 1 }

/-- Empty bucket `idx` after its chain was migrated, discounting the moved
entries from `used`. -/
def htClearBucket (ht : Dictht K V) (idx : Nat) : Dictht K V :=
  { ht with table := ht.table.set idx [],
            used := ht.used - (htBucket ht idx).length }

/-- Modelled from the spec (§4.3 migration step): advance the cursor over
empty buckets, giving up after `empties` consecutive empty visits; migrate
the first non-empty bucket met, relinking each of its entries at the head of
its recomputed chain in the target table.  Returns the updated tables and
the new cursor.  `fuel` bounds the structural recursion; the wrapper below
passes the number of buckets left, which the cursor can never overrun. -/
def rehashLoopGo (t : DictType K V) (ht0 ht1 : Dictht K V) :
    Nat → Nat → Nat → Dictht K V × Dictht K V × Nat
  | 0, idx, _ => (ht0, ht1, idx)
  | fuel + 1, idx, empties =>
    if idx < ht0.size then
      if htBucket ht0 idx = [] then
        if empties ≤ 1 then (ht0, ht1, idx + 1)
        else rehashLoopGo t ht0 ht1 fuel (idx + 1) (empties - 1)
      else
        (htClearBucket ht0 idx,
         (htBucket ht0 idx).foldl (htInsertEntry t) ht1,
         idx + 1)
    else (ht0, ht1, idx)

/-- The migration-step loop with its fuel instantiated: at most
`size - idx` buckets remain to visit. -/
def rehashLoop (t : DictType K V) (ht0 ht1 : Dictht K V)
    (idx empties : Nat) : Dictht K V × Dictht K V × Nat :=
  rehashLoopGo t ht0 ht1 (ht0.size - idx) idx empties

/-- Modelled from the spec (§4.3): one bounded migration step (empty-visit
budget 10).  When the cursor reaches `table[0].size`, rehashing completes:
`table[1]` becomes the new `table[0]`, `table[1]` is reset to unallocated
and the cursor returns to the sentinel. -/
def dictRehashStep (d : Dict K V) : Dict K V :=
  if d.rehashidx = -1 then d
  else
    let r := rehashLoop d.type d.ht0 d.ht1 d.rehashidx.toNat 10
    if r.2.2 = d.ht0.size then
      { d with ht0 := r.2.1, ht1 := emptyHt K V, rehashidx := -1 }
    else
      { d with ht0 := r.1, ht1 := r.2.1, rehashidx := (r.2.2 : Int) }

/-- Modelled from the spec (§4.3 pause condition): the migration step that
ordinary operations interleave runs only while no safe iterator is live. -/
def dictRehashStepChecked (d : Dict K V) : Dict K V :=
  if d.iterators = 0 then dictRehashStep d else d

/-- The doubling loop of `_dictNextPower`: starting from the candidate `i`,
double until the requested capacity fits.  `fuel` bounds the structural
recursion; the wrapper passes `n`, which the doubling from 4 can never
exhaust before reaching `n`. -/
def dictNextPowerGo (n : Nat) : Nat → Nat → Nat
  | 0, i => i
  | fuel + 1, i => if n ≤ i then i else dictNextPowerGo n fuel (i * 2)

/-- `_dictNextPower` modelled from the spec (§4.3): the next power of two
at least `max n 4`, computed as in C by doubling from
`DICT_HT_INITIAL_SIZE`. -/
def dictNextPower (n : Nat) : Nat := dictNextPowerGo n n DICT_HT_INITIAL_SIZE

/-- Modelled from the spec (§4.3, dict.h `dictExpand`): refuse while a
rehash is in progress, when the requested capacity is below the current
entry count, or when the rounded size equals the current one; otherwise
allocate the new slot array — directly as `table[0]` if none was allocated
yet, else as the rehash target `table[1]` with the cursor set to 0. -/
def dictExpand (d : Dict K V) (n : Nat) : Bool × Dict K V :=
  if dictIsRehashing d ∨ d.ht0.used > n then (false, d)
  else
    let realsize := dictNextPower n
    if realsize = d.ht0.size then (false, d)
    else if d.ht0.size = 0 then
      (true, { d with ht0 := freshHt K V realsize })
    else
      (true, { d with ht1 := freshHt K V realsize, rehashidx := 0 })

/-- Modelled from the spec (§4.3 triggering growth): the capacity check an
insertion triggers — no new rehash while one is in progress; grow to
`next power of two ≥ used * 2` once `used/size` exceeds the high-water
factor (or the fail-safe factor when resizing is disabled). -/
def dictExpandIfNeeded (d : Dict K V) : Dict K V :=
  if dictIsRehashing d then d
  else if d.ht0.used > dictGrowFactor * d.ht0.size ∧
          (d.canResize ∨ d.ht0.used > dictForceGrowFactor * d.ht0.size) then
    (dictExpand d (d.ht0.used * 2)).2
  else d

/-- Modelled from the spec: the very first insertion must allocate
`table[0]` (initial size 4) before anything can be linked into it. -/
def dictEnsureAllocated (d : Dict K V) : Dict K V :=
  if d.ht0.size = 0 then (dictExpand d DICT_HT_INITIAL_SIZE).2 else d

/-- Link a brand-new entry for key `k` at the head of `k`'s bucket in the
given slot array (the bucket index is computed from the caller's key, the
stored key is the possibly duplicated one). -/
def htAddEntry (t : DictType K V) (ht : Dictht K V) (k : K)
    (e : DEntry K V) : Dictht K V :=
  let i := t.hashFunction k &&& ht.sizemask
  { ht with table := ht.table.set i (e :: htBucket ht i),
            used := ht.used + 1 }

/-- Result of the entry-creating core: either a freshly created entry or the
already-present one (`dictAddRaw`'s return value / `existing` out
parameter). -/
inductive AddRawResult (K V : Type) where
  | created (e : DEntry K V)
  | found (e : DEntry K V)
deriving DecidableEq

/-- Modelled from the spec (§4.2 `add`): the shared core of `dictAdd`,
`dictAddRaw`, `dictAddOrFind` and `dictReplace`.  A migration step is
interleaved first (§4.3), `table[0]` is allocated if this is the very first
insertion, then: if the key is findable, return the existing entry and
change nothing else; otherwise create an entry (duplicating the key via the
`keyDup` behavior when configured, with initial value `v0`), link it at the
chain head of the currently active table — `table[1]` while rehashing, else
`table[0]` — and run the capacity check. -/
def dictAddCore (d : Dict K V) (k : K) (v0 : Option V) :
    AddRawResult K V × Dict K V :=
  let d1 := dictEnsureAllocated (dictRehashStepChecked d)
  match dictFindPure d1 k with
  | some e => (.found e, d1)
  | none =>
    let e : DEntry K V := ⟨dictDupKey d1.type k, v0⟩
    let d2 :=
      if dictIsRehashing d1 then
        { d1 with ht1 := htAddEntry d1.type d1.ht1 k e }
      else
        { d1 with ht0 := htAddEntry d1.type d1.ht0 k e }
    (.created e, dictExpandIfNeeded d2)

/-- Modelled from the spec: `dictAdd` — insert-only add.  `false` is
`DICT_ERR` (`KeyExists`); the stored value is the `dictSetVal` image of the
given one. -/
def dictAdd (d : Dict K V) (k : K) (v : V) : Bool × Dict K V :=
  match dictAddCore d k (some (dictDupVal d.type v)) with
  | (.found _, d') => (false, d')
  | (.created _, d') => (true, d')

/-- Modelled from the spec: `dictAddRaw` — create the entry without setting
a value, or report the existing one. -/
def dictAddRaw (d : Dict K V) (k : K) : AddRawResult K V × Dict K V :=
  dictAddCore d k none

/-- Modelled from the spec (§4.2): `dictAddOrFind` — the existing entry if
present, else the newly added one. -/
def dictAddOrFind (d : Dict K V) (k : K) : DEntry K V × Dict K V :=
  match dictAddCore d k none with
  | (.created e, d') => (e, d')
  | (.found e, d') => (e, d')

/-- Remove the first entry of a chain whose key compares equal; return it
and the remaining chain. -/
def chainRemove (t : DictType K V) (k : K) :
    List (DEntry K V) → Option (DEntry K V × List (DEntry K V))
  | [] => none
  | e :: rest =>
    if dictCompareKeys t k e.key then some (e, rest)
    else
      match chainRemove t k rest with
      | none => none
      | some (e', rest') => some (e', e :: rest')

/-- Store the remaining chain after an unlink and decrement `used`. -/
def htRemoveAt (ht : Dictht K V) (i : Nat) (g : List (DEntry K V)) :
    Dictht K V :=
  { ht with table := ht.table.set i g, used := ht.used - 1 }

/-- Modelled from the spec (§4.2 `delete`): unlink the entry from whichever
table it lives in (probing `table[0]` first, `table[1]` only while
rehashing), decrement `used`; `false` is `KeyNotFound`.  A migration step is
interleaved first.  Destructor side effects carry no information here. -/
def dictDelete (d : Dict K V) (k : K) : Bool × Dict K V :=
  if dictSize d = 0 then (false, d)
  else
    let d1 := dictRehashStepChecked d
    let i0 := keyIndex d1.type d1.ht0 k
    match chainRemove d1.type k (htBucket d1.ht0 i0) with
    | some r => (true, { d1 with ht0 := htRemoveAt d1.ht0 i0 r.2 })
    | none =>
      if dictIsRehashing d1 then
        let i1 := keyIndex d1.type d1.ht1 k
        match chainRemove d1.type k (htBucket d1.ht1 i1) with
        | some r => (true, { d1 with ht1 := htRemoveAt d1.ht1 i1 r.2 })
        | none => (false, d1)
      else (false, d1)

/-- Overwrite in place the value of the first findable entry for `k`,
probing as `find` does (used by `dictReplace`'s existing-key path). -/
def chainSetVal (t : DictType K V) (k : K) (v : V) :
    List (DEntry K V) → List (DEntry K V)
  | [] => []
  | e :: rest =>
    if dictCompareKeys t k e.key then dictSetVal t e v :: rest
    else e :: chainSetVal t k v rest

/-- Value-overwrite step of `dictReplace` on the table holding the key. -/
def dictSetValAt (d : Dict K V) (k : K) (v : V) : Dict K V :=
  let i0 := keyIndex d.type d.ht0 k
  if (chainFind d.type k (htBucket d.ht0 i0)).isSome then
    { d with ht0 := { d.ht0 with
      table := d.ht0.table.set i0 (chainSetVal d.type k v (htBucket d.ht0 i0)) } }
  else if dictIsRehashing d then
    let i1 := keyIndex d.type d.ht1 k
    { d with ht1 := { d.ht1 with
      table := d.ht1.table.set i1 (chainSetVal d.type k v (htBucket d.ht1 i1)) } }
  else d

/-- Modelled from the spec (§4.2 `replace`): add the key with the value if
absent (`true`), else destroy and overwrite the existing entry's value in
place, preserving entry identity (`false`). -/
def dictReplace (d : Dict K V) (k : K) (v : V) : Bool × Dict K V :=
  match dictAddCore d k (some (dictDupVal d.type v)) with
  | (.created _, d') => (true, d')
  | (.found _, d') => (false, dictSetValAt d' k v)

/-- Modelled from the spec: `dictFind` — a migration step is performed
first as a side effect (unless paused), then the dual-table probe. -/
def dictFind (d : Dict K V) (k : K) : Option (DEntry K V) × Dict K V :=
  if dictSize d = 0 then (none, d)
  else
    let d1 := dictRehashStepChecked d
    (dictFindPure d1 k, d1)

/-- Iterated migration steps. -/
def dictRehashSteps : Nat → Dict K V → Dict K V
  | 0, d => d
  | n + 1, d => dictRehashSteps n (dictRehashStep d)

/-- Modelled from the spec: `dictRehash(d, n)` — the explicit "do N steps"
entry point; per §4.3's pause condition no migration step runs while a safe
iterator is live. -/
def dictRehash (d : Dict K V) (n : Nat) : Dict K V :=
  if d.iterators ≠ 0 then d else dictRehashSteps n d

/-- Modelled from the spec: `dictResize` — an explicit shrink request to
`next power of two ≥ max(used, 4)`, refused while resizing is disabled or a
rehash is in progress. -/
def dictResize (d : Dict K V) : Bool × Dict K V :=
  if ¬ d.canResize ∨ dictIsRehashing d then (false, d)
  else dictExpand d (max d.ht0.used DICT_HT_INITIAL_SIZE)

/-- Modelled from the spec (§4.4): creating a safe iterator increments the
live-safe-iterator count. -/
def dictGetSafeIterator (d : Dict K V) : Dict K V :=
  { d with iterators := d.iterators + 1 }

/-- Modelled from the spec (§4.4): releasing a safe iterator decrements the
count. -/
def dictReleaseIterator (d : Dict K V) : Dict K V :=
  { d with iterators := d.iterators - 1 }

/-- Modelled from the spec (§4.3 administrative override): enable starting
new growth. -/
def dictEnableResize (d : Dict K V) : Dict K V := { d with canResize := true }

/-- Modelled from the spec (§4.3 administrative override): suppress starting
new growth (never an in-progress one). -/
def dictDisableResize (d : Dict K V) : Dict K V := { d with canResize := false }

/-- The public operations of the dict surface, as state transformers. -/
inductive DictOp (K V : Type) where
  | add (k : K) (v : V)
  | delete (k : K)
  | find (k : K)
  | addOrFind (k : K)
  | replace (k : K) (v : V)
  | rehash (n : Nat)
  | expand (n : Nat)
  | resize
  | getSafeIterator
  | releaseIterator
  | enableResize
  | disableResize

/-- The state effect of one public operation. -/
def applyOp (d : Dict K V) : DictOp K V → Dict K V
  | .add k v => (dictAdd d k v).2
  | .delete k => (dictDelete d k).2
  | .find k => (dictFind d k).2
  | .addOrFind k => (dictAddOrFind d k).2
  | .replace k v => (dictReplace d k v).2
  | .rehash n => dictRehash d n
  | .expand n => (dictExpand d n).2
  | .resize => (dictResize d).2
  | .getSafeIterator => dictGetSafeIterator d
  | .releaseIterator => dictReleaseIterator d
  | .enableResize => dictEnableResize d
  | .disableResize => dictDisableResize d

/-- Run a sequence of public operations from a fresh dict. -/
def dictRunOps (t : DictType K V) (ops : List (DictOp K V)) : Dict K V :=
  ops.foldl applyOp (dictCreate t)

/-- A dict state reachable by some sequence of public operations. -/
def DictReachable (d : Dict K V) : Prop :=
  ∃ t ops, d = dictRunOps t ops

end DictModel

/-! ## Default behaviors (C7) -/

/-- A concrete behavior set used by concrete instances below: identity hash,
no optional behaviors configured. -/
def natDictType : DictType Nat Nat := ⟨id, none, none, none, false, false⟩

/-- C7: for a dict type leaving a behavior unset the default is identity or
no-op — with no `keyCompare`, `dictCompareKeys` holds exactly when the two
key handles are the same pointer; with no `valDup`, `dictSetVal` stores the
given value handle unchanged; with no `valDestructor`, `dictFreeVal`
performs no action (its destructor-call log is empty). -/
theorem dict_default_behaviors {K V : Type} [DecidableEq K] [DecidableEq V]
    (t : DictType K V) (key1 key2 : K) (entry : DEntry K V) (val : V) :
    (t.keyCompare = none → (dictCompareKeys t key1 key2 = true ↔ key1 = key2)) ∧
    (t.valDup = none → dictSetVal t entry val = { entry with v := some val }) ∧
    (t.valDestructor = false → dictFreeVal t entry = []) := by
  refine ⟨fun h => ?_, fun h => ?_, fun h => ?_⟩
  · simp [dictCompareKeys, h]
  · simp [dictSetVal, dictDupVal, h]
  · simp [dictFreeVal, h]

theorem dict_default_behaviors_witness :
    natDictType.keyCompare = none ∧
    (dictCompareKeys natDictType 2 3 = true ↔ (2 : Nat) = 3) ∧
    dictSetVal natDictType ⟨1, none⟩ 5 = ⟨1, some 5⟩ ∧
    dictFreeVal natDictType ⟨1, some 5⟩ = [] :=
  ⟨rfl, (dict_default_behaviors natDictType 2 3 ⟨1, some 5⟩ 5).1 rfl,
   (dict_default_behaviors natDictType 2 3 ⟨1, none⟩ 5).2.1 rfl,
   (dict_default_behaviors natDictType 2 3 ⟨1, some 5⟩ 5).2.2 rfl⟩

/-! ## The capacity invariant (C3) -/

section SizeInv

variable {K V : Type} [DecidableEq K] [DecidableEq V]

/-- The size half of the spec's capacity invariant: an allocated slot
array's size is a power of two and at least `DICT_HT_INITIAL_SIZE`. -/
def SizeOk (ht : Dictht K V) : Prop :=
  ht.size = 0 ∨ ((∃ u, ht.size = 2 ^ u) ∧ 4 ≤ ht.size)

/-- Both slot arrays satisfy the size invariant. -/
def DictSizeInv (d : Dict K V) : Prop := SizeOk d.ht0 ∧ SizeOk d.ht1

theorem dictNextPowerGo_pow (n : Nat) :
    ∀ fuel i, (∃ u, i = 2 ^ u) → 4 ≤ i →
      (∃ u, dictNextPowerGo n fuel i = 2 ^ u) ∧
        4 ≤ dictNextPowerGo n fuel i := by
  intro fuel
  induction fuel with
  | zero => intro i hp h4; exact ⟨hp, h4⟩
  | succ f ih =>
    intro i hp h4
    by_cases h : n ≤ i
    · simpa [dictNextPowerGo, h] using ⟨hp, h4⟩
    · have hp' : ∃ u, i * 2 = 2 ^ u := by
        obtain ⟨u, hu⟩ := hp
        exact ⟨u + 1, by rw [hu, pow_succ]⟩
      have h4' : 4 ≤ i * 2 := le_trans h4 (by omega)
      simpa [dictNextPowerGo, h] using ih (i * 2) hp' h4'

theorem dictNextPower_pow (n : Nat) :
    (∃ u, dictNextPower n = 2 ^ u) ∧ 4 ≤ dictNextPower n :=
  dictNextPowerGo_pow n n 4 ⟨2, rfl⟩ (le_refl 4)

theorem sizeOk_empty : SizeOk (emptyHt K V) := Or.inl rfl

theorem sizeOk_fresh (n : Nat) : SizeOk (freshHt K V (dictNextPower n)) :=
  Or.inr (by simpa [freshHt] using dictNextPower_pow n)

theorem dictExpand_sizeInv {d : Dict K V} (n : Nat) (h : DictSizeInv d) :
    DictSizeInv (dictExpand d n).2 := by
  simp only [dictExpand]
  split_ifs with h1 h2 h3
  · exact h
  · exact h
  · exact ⟨sizeOk_fresh n, h.2⟩
  · exact ⟨h.1, sizeOk_fresh n⟩

theorem foldl_htInsertEntry_size (t : DictType K V) :
    ∀ (b : List (DEntry K V)) (ht : Dictht K V),
      (b.foldl (htInsertEntry t) ht).size = ht.size := by
  intro b
  induction b with
  | nil => intro ht; rfl
  | cons e b ih => intro ht; simpa using ih (htInsertEntry t ht e)

theorem rehashLoopGo_sizes (t : DictType K V) (ht0 ht1 : Dictht K V) :
    ∀ fuel idx em,
      (rehashLoopGo t ht0 ht1 fuel idx em).1.size = ht0.size ∧
      (rehashLoopGo t ht0 ht1 fuel idx em).2.1.size = ht1.size := by
  intro fuel
  induction fuel with
  | zero => intro idx em; exact ⟨rfl, rfl⟩
  | succ f ih =>
    intro idx em
    simp only [rehashLoopGo]
    split_ifs with h1 h2 h3
    · exact ⟨rfl, rfl⟩
    · exact ih (idx + 1) (em - 1)
    · exact ⟨rfl, foldl_htInsertEntry_size t _ ht1⟩
    · exact ⟨rfl, rfl⟩

theorem rehashLoop_sizes (t : DictType K V) (ht0 ht1 : Dictht K V)
    (idx em : Nat) :
    (rehashLoop t ht0 ht1 idx em).1.size = ht0.size ∧
    (rehashLoop t ht0 ht1 idx em).2.1.size = ht1.size :=
  rehashLoopGo_sizes t ht0 ht1 _ idx em

theorem sizeOk_congr {ht ht' : Dictht K V} (he : ht.size = ht'.size)
    (h : SizeOk ht') : SizeOk ht := by
  unfold SizeOk at h ⊢
  rw [he]
  exact h

theorem dictRehashStep_sizeInv {d : Dict K V} (h : DictSizeInv d) :
    DictSizeInv (dictRehashStep d) := by
  have hs := rehashLoop_sizes d.type d.ht0 d.ht1 d.rehashidx.toNat 10
  simp only [dictRehashStep]
  split_ifs with h1 h2
  · exact h
  · exact ⟨sizeOk_congr hs.2 h.2, sizeOk_empty⟩
  · exact ⟨sizeOk_congr hs.1 h.1, sizeOk_congr hs.2 h.2⟩

theorem dictRehashStepChecked_sizeInv {d : Dict K V} (h : DictSizeInv d) :
    DictSizeInv (dictRehashStepChecked d) := by
  unfold dictRehashStepChecked
  split_ifs with h1
  · exact dictRehashStep_sizeInv h
  · exact h

theorem dictRehashSteps_sizeInv :
    ∀ (n : Nat) {d : Dict K V}, DictSizeInv d →
      DictSizeInv (dictRehashSteps n d) := by
  intro n
  induction n with
  | zero => intro d h; exact h
  | succ m ih => intro d h; exact ih (dictRehashStep_sizeInv h)

theorem dictEnsureAllocated_sizeInv {d : Dict K V} (h : DictSizeInv d) :
    DictSizeInv (dictEnsureAllocated d) := by
  unfold dictEnsureAllocated
  split_ifs with h1
  · exact dictExpand_sizeInv _ h
  · exact h

theorem dictExpandIfNeeded_sizeInv {d : Dict K V} (h : DictSizeInv d) :
    DictSizeInv (dictExpandIfNeeded d) := by
  unfold dictExpandIfNeeded
  split_ifs with h1 h2
  · exact h
  · exact dictExpand_sizeInv _ h
  · exact h

theorem htAddEntry_size (t : DictType K V) (ht : Dictht K V) (k : K)
    (e : DEntry K V) : (htAddEntry t ht k e).size = ht.size := rfl

theorem dictAddCore_sizeInv {d : Dict K V} (k : K) (v0 : Option V)
    (h : DictSizeInv d) : DictSizeInv (dictAddCore d k v0).2 := by
  have h1 : DictSizeInv (dictEnsureAllocated (dictRehashStepChecked d)) :=
    dictEnsureAllocated_sizeInv (dictRehashStepChecked_sizeInv h)
  unfold dictAddCore
  cases hf : dictFindPure (dictEnsureAllocated (dictRehashStepChecked d)) k with
  | some e => simpa [hf] using h1
  | none =>
    simp only [hf]
    split_ifs with h2
    · exact dictExpandIfNeeded_sizeInv ⟨h1.1, h1.2⟩
    · exact dictExpandIfNeeded_sizeInv ⟨h1.1, h1.2⟩

theorem dictSetValAt_sizeInv {d : Dict K V} (k : K) (v : V)
    (h : DictSizeInv d) : DictSizeInv (dictSetValAt d k v) := by
  simp only [dictSetValAt]
  split_ifs with h1 h2
  · exact ⟨h.1, h.2⟩
  · exact ⟨h.1, h.2⟩
  · exact h

theorem dictDelete_sizeInv {d : Dict K V} (k : K) (h : DictSizeInv d) :
    DictSizeInv (dictDelete d k).2 := by
  have h1 : DictSizeInv (dictRehashStepChecked d) :=
    dictRehashStepChecked_sizeInv h
  unfold dictDelete
  split_ifs with hsz
  · exact h
  · cases hr : chainRemove (dictRehashStepChecked d).type k
        (htBucket (dictRehashStepChecked d).ht0
          (keyIndex (dictRehashStepChecked d).type
            (dictRehashStepChecked d).ht0 k)) with
    | some r => simpa [hr] using ⟨h1.1, h1.2⟩
    | none =>
      simp only [hr]
      split_ifs with h2
      · cases hr1 : chainRemove (dictRehashStepChecked d).type k
            (htBucket (dictRehashStepChecked d).ht1
              (keyIndex (dictRehashStepChecked d).type
                (dictRehashStepChecked d).ht1 k)) with
        | some r => simpa [hr1] using ⟨h1.1, h1.2⟩
        | none => simpa [hr1] using h1
      · exact h1

theorem dictAdd_sizeInv {d : Dict K V} (k : K) (v : V)
    (h : DictSizeInv d) : DictSizeInv (dictAdd d k v).2 := by
  have h2 := dictAddCore_sizeInv (d := d) k (some (dictDupVal d.type v)) h
  unfold dictAdd
  cases hc : dictAddCore d k (some (dictDupVal d.type v)) with
  | mk r d' =>
    rw [hc] at h2
    cases r <;> simpa using h2

theorem dictAddOrFind_sizeInv {d : Dict K V} (k : K)
    (h : DictSizeInv d) : DictSizeInv (dictAddOrFind d k).2 := by
  have h2 := dictAddCore_sizeInv (d := d) k none h
  unfold dictAddOrFind
  cases hc : dictAddCore d k none with
  | mk r d' =>
    rw [hc] at h2
    cases r <;> simpa using h2

theorem dictReplace_sizeInv {d : Dict K V} (k : K) (v : V)
    (h : DictSizeInv d) : DictSizeInv (dictReplace d k v).2 := by
  have h2 := dictAddCore_sizeInv (d := d) k (some (dictDupVal d.type v)) h
  unfold dictReplace
  cases hc : dictAddCore d k (some (dictDupVal d.type v)) with
  | mk r d' =>
    rw [hc] at h2
    cases r with
    | created e => simpa using h2
    | found e =>
      simp only
      exact dictSetValAt_sizeInv k v (by simpa using h2)

theorem dictFind_sizeInv {d : Dict K V} (k : K)
    (h : DictSizeInv d) : DictSizeInv (dictFind d k).2 := by
  unfold dictFind
  split_ifs with h1
  · exact h
  · exact dictRehashStepChecked_sizeInv h

theorem dictRehash_sizeInv {d : Dict K V} (n : Nat)
    (h : DictSizeInv d) : DictSizeInv (dictRehash d n) := by
  unfold dictRehash
  split_ifs with h1
  · exact h
  · exact dictRehashSteps_sizeInv n h

theorem dictResize_sizeInv {d : Dict K V}
    (h : DictSizeInv d) : DictSizeInv (dictResize d).2 := by
  unfold dictResize
  split_ifs with h1
  · exact h
  · exact dictExpand_sizeInv _ h

theorem applyOp_sizeInv {d : Dict K V} (op : DictOp K V)
    (h : DictSizeInv d) : DictSizeInv (applyOp d op) := by
  cases op with
  | add k v => exact dictAdd_sizeInv k v h
  | delete k => exact dictDelete_sizeInv k h
  | find k => exact dictFind_sizeInv k h
  | addOrFind k => exact dictAddOrFind_sizeInv k h
  | replace k v => exact dictReplace_sizeInv k v h
  | rehash n => exact dictRehash_sizeInv n h
  | expand n => exact dictExpand_sizeInv n h
  | resize => exact dictResize_sizeInv h
  | getSafeIterator => exact ⟨h.1, h.2⟩
  | releaseIterator => exact ⟨h.1, h.2⟩
  | enableResize => exact ⟨h.1, h.2⟩
  | disableResize => exact ⟨h.1, h.2⟩

theorem foldl_applyOp_sizeInv :
    ∀ (ops : List (DictOp K V)) (d : Dict K V), DictSizeInv d →
      DictSizeInv (ops.foldl applyOp d) := by
  intro ops
  induction ops with
  | nil => intro d h; exact h
  | cons op ops ih => intro d h; exact ih _ (applyOp_sizeInv op h)

end SizeInv

/-- The concrete operation sequence of five inserts with identity hash. -/
def fiveAdds : List (DictOp Nat Nat) :=
  [.add 0 0, .add 1 1, .add 2 2, .add 3 3, .add 4 4]

/-- C3 counterexample: after five inserts from `dictCreate`, growth has only
just been *triggered* (the capacity check runs after the insertion and the
migration is incremental), so the still-live `table[0]` holds `used = 5`
entries in `size = 4` buckets — `used ≤ size × growth-threshold` is false in
this reachable state. -/
theorem dict_capacity_used_counterexample :
    DictReachable (dictRunOps natDictType fiveAdds) ∧
    (dictRunOps natDictType fiveAdds).ht0.size = 4 ∧
    (dictRunOps natDictType fiveAdds).ht0.used = 5 ∧
    ¬ ((dictRunOps natDictType fiveAdds).ht0.used ≤
        dictGrowFactor * (dictRunOps natDictType fiveAdds).ht0.size) :=
  ⟨⟨natDictType, fiveAdds, rfl⟩, by decide, by decide, by decide⟩

/-- C3 (amended): in every state reachable by any sequence of public dict
operations, each allocated slot array has a size that is a power of two and
at least 4 (the initial size).  The used-count bound of the original claim
is refuted by the counterexample: the growth check runs only after an
insertion and never while a rehash is in progress or paused, so `used` is
not bounded by any fixed multiple of `size` across reachable states. -/
theorem dict_capacity_size_invariant {K V : Type} [DecidableEq K]
    [DecidableEq V] (d : Dict K V) (h : DictReachable d) : DictSizeInv d := by
  obtain ⟨t, ops, rfl⟩ := h
  exact foldl_applyOp_sizeInv ops (dictCreate t) ⟨Or.inl rfl, Or.inl rfl⟩

theorem dict_capacity_size_invariant_witness :
    DictReachable (dictRunOps natDictType fiveAdds) ∧
    DictSizeInv (dictRunOps natDictType fiveAdds) :=
  ⟨⟨natDictType, fiveAdds, rfl⟩,
   dict_capacity_size_invariant _ ⟨natDictType, fiveAdds, rfl⟩⟩

/-! ## Structural invariants of the dict model -/

section DictInv

variable {K V : Type} [DecidableEq K] [DecidableEq V]

theorem flatten_set_perm {α : Type} (b : List α) :
    ∀ (l : List (List α)) (i : Nat), i < l.length →
      ((l.set i b).flatten).Perm (b ++ (l.set i []).flatten) := by
  intro l
  induction l with
  | nil => intro i h; simp at h
  | cons a l ih =>
    intro i h
    cases i with
    | zero => simp
    | succ j =>
      have hj : j < l.length := by simpa using h
      have h1 : ((a :: l).set (j + 1) b).flatten
          = a ++ (l.set j b).flatten := by simp
      have h2 : (a ++ (l.set j b).flatten).Perm
          (a ++ (b ++ (l.set j []).flatten)) :=
        List.Perm.append_left a (ih j hj)
      have h3 : (a ++ (b ++ (l.set j []).flatten)).Perm
          (b ++ (a ++ (l.set j []).flatten)) :=
        List.perm_append_comm_assoc a b _
      have h4 : b ++ (a ++ (l.set j []).flatten)
          = b ++ ((a :: l).set (j + 1) []).flatten := by simp
      rw [h1, ← h4]
      exact h2.trans h3

theorem flatten_getD_perm {α : Type} :
    ∀ (l : List (List α)) (i : Nat), i < l.length →
      (l.flatten).Perm (l.getD i [] ++ (l.set i []).flatten) := by
  intro l
  induction l with
  | nil => intro i h; simp at h
  | cons a l ih =>
    intro i h
    cases i with
    | zero => simp
    | succ j =>
      have hj : j < l.length := by simpa using h
      have h2 : (a ++ l.flatten).Perm
          (a ++ (l.getD j [] ++ (l.set j []).flatten)) :=
        List.Perm.append_left a (ih j hj)
      have h3 : (a ++ (l.getD j [] ++ (l.set j []).flatten)).Perm
          (l.getD j [] ++ (a ++ (l.set j []).flatten)) :=
        List.perm_append_comm_assoc a _ _
      have h4 : l.getD j [] ++ (a ++ (l.set j []).flatten)
          = (a :: l).getD (j + 1) [] ++ ((a :: l).set (j + 1) []).flatten := by
        simp
      have h1 : (a :: l).flatten = a ++ l.flatten := by simp
      rw [h1, ← h4]
      exact h2.trans h3

/-- Inserting at the head of bucket `i` adds exactly one element to the
flattened contents, up to permutation. -/
theorem flatten_cons_bucket_perm {α : Type} (l : List (List α)) (i : Nat)
    (h : i < l.length) (e : α) :
    ((l.set i (e :: l.getD i [])).flatten).Perm (e :: l.flatten) := by
  have h1 := flatten_set_perm (e :: l.getD i []) l i h
  have h2 : ((e :: l.getD i []) ++ (l.set i []).flatten)
      = e :: (l.getD i [] ++ (l.set i []).flatten) := by simp
  have h3 : (e :: (l.getD i [] ++ (l.set i []).flatten)).Perm
      (e :: l.flatten) :=
    List.Perm.cons e (flatten_getD_perm l i h).symm
  exact h1.trans (h2 ▸ h3)

/-- Replacing bucket `i` by a chain the old one is a cons-permutation of
removes exactly that element from the flattened contents. -/
theorem flatten_remove_bucket_perm {α : Type} (l : List (List α)) (i : Nat)
    (h : i < l.length) (e : α) (g' : List α)
    (hg : (l.getD i []).Perm (e :: g')) :
    (l.flatten).Perm (e :: (l.set i g').flatten) := by
  have h1 := flatten_getD_perm l i h
  have h2 : ((e :: g') ++ (l.set i []).flatten).Perm
      (e :: (l.set i g').flatten) := by
    simpa using List.Perm.cons e (flatten_set_perm g' l i h).symm
  exact h1.trans ((hg.append_right _).trans h2)

theorem flatten_eq_nil_of_forall {α : Type} (l : List (List α))
    (h : ∀ i, i < l.length → l.getD i [] = []) : l.flatten = [] := by
  induction l with
  | nil => rfl
  | cons a l ih =>
    have ha : a = [] := h 0 (by simp)
    have hl : l.flatten = [] := by
      refine ih ?_
      intro i hi
      have := h (i + 1) (by simpa using hi)
      simpa using this
    simp [ha, hl]

theorem chainRemove_perm (t : DictType K V) (k : K) :
    ∀ (g : List (DEntry K V)) (e : DEntry K V) (g' : List (DEntry K V)),
      chainRemove t k g = some (e, g') →
      g.Perm (e :: g') ∧ dictCompareKeys t k e.key = true := by
  intro g
  induction g with
  | nil => intro e g' h; simp [chainRemove] at h
  | cons a g ih =>
    intro e g' h
    by_cases hc : dictCompareKeys t k a.key
    · simp only [chainRemove, hc, if_pos] at h
      have h2 : a = e ∧ g = g' := by simpa using h
      obtain ⟨rfl, rfl⟩ := h2
      exact ⟨List.Perm.refl _, hc⟩
    · simp only [chainRemove, hc, Bool.false_eq_true, if_neg,
        not_false_eq_true] at h
      cases hr : chainRemove t k g with
      | none => rw [hr] at h; simp at h
      | some p =>
        obtain ⟨e', r'⟩ := p
        rw [hr] at h
        have h2 : e' = e ∧ a :: r' = g' := by simpa using h
        obtain ⟨rfl, rfl⟩ := h2
        have hih := ih e' r' hr
        exact ⟨(hih.1.cons a).trans (List.Perm.swap e' a r'), hih.2⟩

theorem chainFind_some_mem (t : DictType K V) (k : K) :
    ∀ (g : List (DEntry K V)) (e : DEntry K V),
      chainFind t k g = some e →
      e ∈ g ∧ dictCompareKeys t k e.key = true := by
  intro g
  induction g with
  | nil => intro e h; simp [chainFind] at h
  | cons a g ih =>
    intro e h
    by_cases hc : dictCompareKeys t k a.key
    · simp only [chainFind, hc, if_pos] at h
      obtain rfl := Option.some.inj h
      exact ⟨List.mem_cons_self a g, hc⟩
    · simp only [chainFind, hc, if_neg, Bool.false_eq_true,
        not_false_eq_true] at h
      obtain ⟨hm, hcmp⟩ := ih e h
      exact ⟨List.mem_cons_of_mem a hm, hcmp⟩

theorem chainFind_none_iff (t : DictType K V) (k : K) :
    ∀ (g : List (DEntry K V)),
      chainFind t k g = none ↔
        ∀ e ∈ g, dictCompareKeys t k e.key = false := by
  intro g
  induction g with
  | nil => simp [chainFind]
  | cons a g ih =>
    by_cases hc : dictCompareKeys t k a.key
    · simp [chainFind, hc]
    · have hcf : dictCompareKeys t k a.key = false := by
        simpa using hc
      simp only [chainFind, hcf, Bool.false_eq_true, if_neg,
        not_false_eq_true, ih, List.mem_cons]
      constructor
      · intro h e he
        rcases he with rfl | he
        · exact hcf
        · exact h e he
      · intro h e he
        exact h e (Or.inr he)

/-- Under the default (pointer-identity) comparison, the first matching
entry of a chain with no duplicated keys is the member itself. -/
theorem chainFind_some_of_mem (t : DictType K V) (hc : t.keyCompare = none)
    (k : K) :
    ∀ (g : List (DEntry K V)) (e : DEntry K V),
      e ∈ g → e.key = k → (g.map (fun x => x.key)).Nodup →
      chainFind t k g = some e := by
  intro g
  induction g with
  | nil => intro e hm; simp at hm
  | cons a g ih =>
    intro e hm hk hnd
    by_cases hak : a.key = k
    · have hea : e = a := by
        rcases List.mem_cons.mp hm with rfl | hmem
        · rfl
        · exfalso
          have hmk : a.key ∈ g.map (fun x => x.key) := by
            rw [hak, ← hk]
            exact List.mem_map_of_mem _ hmem
          exact (List.nodup_cons.mp hnd).1 hmk
      have hcmp : dictCompareKeys t k a.key = true := by
        simp [dictCompareKeys, hc, hak]
      rw [hea]
      simp [chainFind, hcmp]
    · have hcmp : dictCompareKeys t k a.key = false := by
        simp only [dictCompareKeys, hc, beq_eq_false_iff_ne, ne_eq]
        exact fun h => hak h.symm
      have hmem : e ∈ g := by
        rcases List.mem_cons.mp hm with rfl | hmem
        · exact absurd hk hak
        · exact hmem
      simp only [chainFind, hcmp, Bool.false_eq_true, if_neg,
        not_false_eq_true]
      exact ih e hmem hk (List.nodup_cons.mp hnd).2

end DictInv

section DictInv2

variable {K V : Type} [DecidableEq K] [DecidableEq V]

/-- Structural well-formedness of one slot array: the stored `size`,
`sizemask` and `used` fields agree with the `table` contents, and every
entry sits in the bucket its hash selects (`hash & sizemask`), the spec's
§3 slot-array invariant. -/
def HtOk (t : DictType K V) (ht : Dictht K V) : Prop :=
  ht.table.length = ht.size ∧
  ht.sizemask = ht.size - 1 ∧
  ht.used = (htEntries ht).length ∧
  ∀ i, i < ht.table.length → ∀ e ∈ htBucket ht i,
    t.hashFunction e.key &&& ht.sizemask = i

/-- Structural well-formedness of the dict (§3): both tables well formed,
the rehash cursor in range exactly while `table[1]` is allocated, and every
`table[0]` bucket below the cursor already migrated (empty). -/
def DictOk (d : Dict K V) : Prop :=
  HtOk d.type d.ht0 ∧ HtOk d.type d.ht1 ∧
  (d.rehashidx = -1 ∨
    (0 ≤ d.rehashidx ∧ d.rehashidx < (d.ht0.size : Int) ∧ d.ht1.size ≠ 0)) ∧
  (d.rehashidx = -1 → d.ht1.size = 0) ∧
  (∀ i, i < d.rehashidx.toNat → htBucket d.ht0 i = [])

/-- No key is stored twice across the two tables. -/
def KeysNodup (d : Dict K V) : Prop :=
  ((entriesOf d).map (fun e => e.key)).Nodup

theorem htBucket_mem_lt {ht : Dictht K V} {i : Nat} {e : DEntry K V}
    (h : e ∈ htBucket ht i) : i < ht.table.length := by
  by_contra hlt
  push_neg at hlt
  have hb : htBucket ht i = [] := by
    unfold htBucket
    rw [List.getD_eq_getElem?_getD, List.getElem?_eq_none hlt]
    rfl
  rw [hb] at h
  exact absurd h (List.not_mem_nil e)

theorem htBucket_eq_getElem {ht : Dictht K V} {i : Nat}
    (h : i < ht.table.length) : htBucket ht i = ht.table[i] := by
  unfold htBucket
  rw [List.getD_eq_getElem?_getD, List.getElem?_eq_getElem h]
  rfl

theorem htEntries_mem {ht : Dictht K V} {e : DEntry K V} :
    e ∈ htEntries ht ↔ ∃ i, e ∈ htBucket ht i := by
  unfold htEntries
  rw [List.mem_flatten]
  constructor
  · rintro ⟨l, hl, hel⟩
    obtain ⟨i, hi, rfl⟩ := List.mem_iff_getElem.mp hl
    exact ⟨i, by rw [htBucket_eq_getElem hi]; exact hel⟩
  · rintro ⟨i, hei⟩
    have hlt := htBucket_mem_lt hei
    refine ⟨ht.table[i], List.getElem_mem hlt, ?_⟩
    rw [← htBucket_eq_getElem hlt]
    exact hei

theorem mem_htBucket_of_mem_entries {t : DictType K V} {ht : Dictht K V}
    (hok : HtOk t ht) {e : DEntry K V} (h : e ∈ htEntries ht) :
    e ∈ htBucket ht (t.hashFunction e.key &&& ht.sizemask) := by
  obtain ⟨i, hi⟩ := htEntries_mem.mp h
  have hlt := htBucket_mem_lt hi
  have := hok.2.2.2 i hlt e hi
  rw [this]
  exact hi

theorem htBucket_sublist_entries {ht : Dictht K V} (i : Nat) :
    (htBucket ht i).Sublist (htEntries ht) := by
  by_cases hlt : i < ht.table.length
  · rw [htBucket_eq_getElem hlt]
    exact List.sublist_flatten_of_mem (List.getElem_mem hlt)
  · push_neg at hlt
    have hb : htBucket ht i = [] := by
      unfold htBucket
      rw [List.getD_eq_getElem?_getD, List.getElem?_eq_none hlt]
      rfl
    rw [hb]
    exact List.nil_sublist _

theorem dictSize_eq_length {d : Dict K V} (h0 : HtOk d.type d.ht0)
    (h1 : HtOk d.type d.ht1) : dictSize d = (entriesOf d).length := by
  unfold dictSize entriesOf
  rw [h0.2.2.1, h1.2.2.1, List.length_append]

/-- If `dictFindPure` returns an entry, the entry is stored and its key
compares equal to the probe key. -/
theorem dictFindPure_some {d : Dict K V} {k : K} {e : DEntry K V}
    (h : dictFindPure d k = some e) :
    e ∈ entriesOf d ∧ dictCompareKeys d.type k e.key = true := by
  unfold dictFindPure at h
  by_cases h1 : dictSize d = 0
  · rw [if_pos h1] at h
    exact Option.noConfusion h
  · rw [if_neg h1] at h
    by_cases h2 : (chainFind d.type k
        (htBucket d.ht0 (keyIndex d.type d.ht0 k))).isSome = true
    · rw [if_pos h2] at h
      obtain ⟨hm, hcp⟩ := chainFind_some_mem _ _ _ _ h
      exact ⟨List.mem_append_left _ ((htBucket_sublist_entries _).mem hm), hcp⟩
    · rw [if_neg h2] at h
      by_cases h3 : dictIsRehashing d = true
      · rw [if_pos h3] at h
        obtain ⟨hm, hcp⟩ := chainFind_some_mem _ _ _ _ h
        exact ⟨List.mem_append_right _ ((htBucket_sublist_entries _).mem hm),
          hcp⟩
      · rw [if_neg h3] at h
        exact Option.noConfusion h

/-- Under the default comparison, a miss means no stored entry carries the
probed key. -/
theorem dictFindPure_none {d : Dict K V} (hok : DictOk d)
    (hc : d.type.keyCompare = none) {k : K}
    (h : dictFindPure d k = none) :
    ∀ e ∈ entriesOf d, e.key ≠ k := by
  intro e hmem hkey
  have hcmp : dictCompareKeys d.type k e.key = true := by
    simp [dictCompareKeys, hc, hkey]
  unfold dictFindPure at h
  by_cases h1 : dictSize d = 0
  · have hlen := dictSize_eq_length hok.1 hok.2.1
    rw [h1] at hlen
    have hnil : entriesOf d = [] := List.eq_nil_of_length_eq_zero hlen.symm
    rw [hnil] at hmem
    exact absurd hmem (List.not_mem_nil e)
  · rw [if_neg h1] at h
    by_cases h2 : (chainFind d.type k
        (htBucket d.ht0 (keyIndex d.type d.ht0 k))).isSome = true
    · rw [if_pos h2] at h
      rw [h] at h2
      exact absurd h2 (by simp)
    · rw [if_neg h2] at h
      have hf0 : chainFind d.type k
          (htBucket d.ht0 (keyIndex d.type d.ht0 k)) = none := by
        cases hv : chainFind d.type k
            (htBucket d.ht0 (keyIndex d.type d.ht0 k)) with
        | none => rfl
        | some e0 => rw [hv] at h2; exact absurd rfl h2
      rcases List.mem_append.mp hmem with hm0 | hm1
      · have hb := mem_htBucket_of_mem_entries hok.1 hm0
        rw [hkey] at hb
        have hfalse := (chainFind_none_iff d.type k _).mp hf0 e
          (by rw [keyIndex]; exact hb)
        rw [hcmp] at hfalse
        exact absurd hfalse (by simp)
      · by_cases h3 : dictIsRehashing d = true
        · rw [if_pos h3] at h
          have hb := mem_htBucket_of_mem_entries hok.2.1 hm1
          rw [hkey] at hb
          have hfalse := (chainFind_none_iff d.type k _).mp h e
            (by rw [keyIndex]; exact hb)
          rw [hcmp] at hfalse
          exact absurd hfalse (by simp)
        · have hsz1 : d.ht1.size = 0 := by
            refine hok.2.2.2.1 ?_
            unfold dictIsRehashing at h3
            simpa using h3
          have hlen1 : d.ht1.table.length = 0 := by rw [hok.2.1.1, hsz1]
          have hnil : d.ht1.table = [] := List.eq_nil_of_length_eq_zero hlen1
          rw [htEntries, hnil] at hm1
          exact absurd hm1 (by simp)

/-- Under the default comparison with no duplicated keys, a stored entry is
found exactly. -/
theorem dictFindPure_some_of_mem {d : Dict K V} (hok : DictOk d)
    (hc : d.type.keyCompare = none) (hnd : KeysNodup d) {k : K}
    {e : DEntry K V} (hmem : e ∈ entriesOf d) (hkey : e.key = k) :
    dictFindPure d k = some e := by
  have hsz : dictSize d ≠ 0 := by
    rw [dictSize_eq_length hok.1 hok.2.1]
    have : 0 < (entriesOf d).length := List.length_pos.mpr
      (List.ne_nil_of_mem hmem)
    omega
  have hnd0 : ((htEntries d.ht0).map (fun x => x.key)).Nodup := by
    have : (htEntries d.ht0).Sublist (entriesOf d) :=
      List.sublist_append_left _ _
    exact List.Nodup.sublist (this.map _) hnd
  have hnd1 : ((htEntries d.ht1).map (fun x => x.key)).Nodup := by
    have : (htEntries d.ht1).Sublist (entriesOf d) :=
      List.sublist_append_right _ _
    exact List.Nodup.sublist (this.map _) hnd
  rcases List.mem_append.mp hmem with hm0 | hm1
  · have hb := mem_htBucket_of_mem_entries hok.1 hm0
    rw [hkey] at hb
    have hbnd : ((htBucket d.ht0 (keyIndex d.type d.ht0 k)).map
        (fun x => x.key)).Nodup :=
      List.Nodup.sublist ((htBucket_sublist_entries _).map _) hnd0
    have hfind := chainFind_some_of_mem d.type hc k _ e hb hkey hbnd
    unfold dictFindPure keyIndex
    rw [if_neg hsz, hfind]
    simp
  · -- the entry lives in table 1: table 0's probe must miss
    have hb := mem_htBucket_of_mem_entries hok.2.1 hm1
    rw [hkey] at hb
    have hlt := htBucket_mem_lt hb
    have hsz1 : d.ht1.size ≠ 0 := by
      rw [← hok.2.1.1]
      omega
    have hreh : dictIsRehashing d = true := by
      unfold dictIsRehashing
      by_contra hr
      simp only [bne_iff_ne, ne_eq, not_not] at hr
      exact hsz1 (hok.2.2.2.1 hr)
    have hdisj : ∀ e0 ∈ htEntries d.ht0, e0.key ≠ k := by
      intro e0 hm0 hk0
      have hnd2 : (((htEntries d.ht0).map (fun x => x.key)) ++
          ((htEntries d.ht1).map (fun x => x.key))).Nodup := by
        have heq : (entriesOf d).map (fun x => x.key)
            = ((htEntries d.ht0).map (fun x => x.key)) ++
              ((htEntries d.ht1).map (fun x => x.key)) := by
          unfold entriesOf
          rw [List.map_append]
        have hnd3 := hnd
        rw [KeysNodup, heq] at hnd3
        exact hnd3
      have hdis := (List.nodup_append.mp hnd2).2.2
      exact hdis (a := k)
        (by rw [← hk0]; exact List.mem_map_of_mem _ hm0)
        (by rw [← hkey]; exact List.mem_map_of_mem _ hm1)
    have hf0 : chainFind d.type k
        (htBucket d.ht0 (keyIndex d.type d.ht0 k)) = none := by
      rw [chainFind_none_iff]
      intro e0 he0
      have : e0 ∈ htEntries d.ht0 :=
        (htBucket_sublist_entries _).mem he0
      have hne := hdisj e0 this
      simp only [dictCompareKeys, hc]
      simpa using fun hkk => hne hkk.symm
    have hbnd : ((htBucket d.ht1 (keyIndex d.type d.ht1 k)).map
        (fun x => x.key)).Nodup :=
      List.Nodup.sublist ((htBucket_sublist_entries _).map _) hnd1
    have hfind := chainFind_some_of_mem d.type hc k _ e hb hkey hbnd
    rw [keyIndex] at hf0
    unfold dictFindPure keyIndex
    rw [if_neg hsz, hf0]
    simpa [hreh] using hfind

end DictInv2

section DictPreserve

variable {K V : Type} [DecidableEq K] [DecidableEq V]

theorem getD_set_self {α : Type} (l : List α) {i : Nat} (h : i < l.length)
    (b d : α) : (l.set i b).getD i d = b := by
  rw [List.getD_eq_getElem?_getD, List.getElem?_set_self h]
  rfl

theorem getD_set_ne {α : Type} (l : List α) {i j : Nat} (h : i ≠ j)
    (b d : α) : (l.set i b).getD j d = l.getD j d := by
  rw [List.getD_eq_getElem?_getD, List.getElem?_set_ne h,
    ← List.getD_eq_getElem?_getD]

theorem and_mask_lt {t : DictType K V} {ht : Dictht K V} (hok : HtOk t ht)
    (hsz : ht.size ≠ 0) (h : Nat) : h &&& ht.sizemask < ht.table.length := by
  rw [hok.1]
  have h1 : h &&& ht.sizemask ≤ ht.size - 1 :=
    le_trans Nat.and_le_right (le_of_eq hok.2.1)
  exact lt_of_le_of_lt h1 (Nat.sub_lt (Nat.pos_of_ne_zero hsz) one_pos)

theorem htOk_empty (t : DictType K V) : HtOk t (emptyHt K V) := by
  refine ⟨rfl, rfl, rfl, ?_⟩
  intro i hi e he
  simp [emptyHt] at hi

theorem flatten_replicate_nil {α : Type} (n : Nat) :
    (List.replicate n ([] : List α)).flatten = [] := by
  induction n with
  | zero => rfl
  | succ m ih => simp [List.replicate_succ, ih]

theorem getD_replicate_nil {α : Type} (n i : Nat) :
    (List.replicate n ([] : List α)).getD i [] = [] := by
  rw [List.getD_eq_getElem?_getD, List.getElem?_replicate]
  by_cases h : i < n
  · rw [if_pos h]
    rfl
  · rw [if_neg h]
    rfl

theorem htOk_fresh (t : DictType K V) (n : Nat) : HtOk t (freshHt K V n) := by
  refine ⟨by simp [freshHt], rfl, ?_, ?_⟩
  · show (0 : Nat) = (htEntries (freshHt K V n)).length
    have he : htEntries (freshHt K V n)
        = (List.replicate n ([] : List (DEntry K V))).flatten := rfl
    rw [he, flatten_replicate_nil]
    rfl
  · intro i hi e he
    exfalso
    have hb : htBucket (freshHt K V n) i = [] := getD_replicate_nil n i
    rw [hb] at he
    exact absurd he (List.not_mem_nil e)

/-- Linking a fresh entry whose key hashes like the probe key preserves
well-formedness and adds exactly that entry to the contents. -/
theorem htAddEntry_ok {t : DictType K V} {ht : Dictht K V} (hok : HtOk t ht)
    (hsz : ht.size ≠ 0) {k : K} {e : DEntry K V}
    (hh : t.hashFunction e.key = t.hashFunction k) :
    HtOk t (htAddEntry t ht k e) ∧
    (htEntries (htAddEntry t ht k e)).Perm (e :: htEntries ht) := by
  have hi : t.hashFunction k &&& ht.sizemask < ht.table.length :=
    and_mask_lt hok hsz _
  have hperm : (htEntries (htAddEntry t ht k e)).Perm (e :: htEntries ht) := by
    simpa [htAddEntry, htEntries, htBucket] using
      flatten_cons_bucket_perm ht.table _ hi e
  refine ⟨⟨?_, ?_, ?_, ?_⟩, hperm⟩
  · simpa [htAddEntry] using hok.1
  · simpa [htAddEntry] using hok.2.1
  · show ht.used + 1 = (htEntries (htAddEntry t ht k e)).length
    rw [hperm.length_eq]
    simp [hok.2.2.1]
  · intro j hj e' he'
    simp only [htAddEntry] at hj he' ⊢
    by_cases hji : j = t.hashFunction k &&& ht.sizemask
    · subst hji
      have hb : htBucket { ht with
          table := ht.table.set (t.hashFunction k &&& ht.sizemask)
            (e :: htBucket ht (t.hashFunction k &&& ht.sizemask)),
          used := ht.used + 1 } (t.hashFunction k &&& ht.sizemask)
          = e :: htBucket ht (t.hashFunction k &&& ht.sizemask) := by
        simp only [htBucket]
        exact getD_set_self _ hi _ _
      rw [hb] at he'
      rcases List.mem_cons.mp he' with rfl | he'
      · rw [hh]
      · exact hok.2.2.2 _ hi e' he'
    · have hb : htBucket { ht with
          table := ht.table.set (t.hashFunction k &&& ht.sizemask)
            (e :: htBucket ht (t.hashFunction k &&& ht.sizemask)),
          used := ht.used + 1 } j = htBucket ht j := by
        simp only [htBucket]
        exact getD_set_ne _ (fun h => hji h.symm) _ _
      rw [hb] at he'
      have hj' : j < ht.table.length := by simpa using hj
      exact hok.2.2.2 j hj' e' he'

theorem htInsertEntry_eq_addEntry (t : DictType K V) (ht : Dictht K V)
    (e : DEntry K V) : htInsertEntry t ht e = htAddEntry t ht e.key e := rfl

theorem foldl_htInsertEntry_ok {t : DictType K V} :
    ∀ (b : List (DEntry K V)) {ht1 : Dictht K V}, HtOk t ht1 →
      ht1.size ≠ 0 →
      HtOk t (b.foldl (htInsertEntry t) ht1) ∧
      (htEntries (b.foldl (htInsertEntry t) ht1)).Perm
        (b ++ htEntries ht1) := by
  intro b
  induction b with
  | nil => intro ht1 hok hsz; exact ⟨hok, by simp⟩
  | cons e b ih =>
    intro ht1 hok hsz
    have hstep := htAddEntry_ok (k := e.key) (e := e) hok hsz rfl
    have hsz' : (htInsertEntry t ht1 e).size ≠ 0 := by
      simpa [htInsertEntry_eq_addEntry, htAddEntry] using hsz
    have hih := @ih (htInsertEntry t ht1 e)
      (by rw [htInsertEntry_eq_addEntry]; exact hstep.1) hsz'
    refine ⟨hih.1, ?_⟩
    have h1 : (htEntries (htInsertEntry t ht1 e)).Perm (e :: htEntries ht1) := by
      rw [htInsertEntry_eq_addEntry]
      exact hstep.2
    have h2 := hih.2
    simp only [List.foldl_cons]
    refine h2.trans ?_
    have h3 : (b ++ htEntries (htInsertEntry t ht1 e)).Perm
        (b ++ e :: htEntries ht1) := List.Perm.append_left b h1
    refine h3.trans ?_
    have h4 : (b ++ e :: htEntries ht1).Perm (e :: (b ++ htEntries ht1)) :=
      List.perm_middle
    simpa using h4

theorem htClearBucket_ok {t : DictType K V} {ht0 : Dictht K V}
    (hok0 : HtOk t ht0) {idx : Nat} (hidx : idx < ht0.table.length) :
    HtOk t (htClearBucket ht0 idx) ∧
    (htEntries ht0).Perm
      (htBucket ht0 idx ++ htEntries (htClearBucket ht0 idx)) ∧
    (∀ i, i ≠ idx → htBucket (htClearBucket ht0 idx) i = htBucket ht0 i) ∧
    htBucket (htClearBucket ht0 idx) idx = [] ∧
    (htClearBucket ht0 idx).size = ht0.size := by
  have hperm : (htEntries ht0).Perm
      (htBucket ht0 idx ++ htEntries (htClearBucket ht0 idx)) := by
    simpa [htClearBucket, htEntries, htBucket] using
      flatten_getD_perm ht0.table idx hidx
  have hother : ∀ i, i ≠ idx →
      htBucket (htClearBucket ht0 idx) i = htBucket ht0 i := by
    intro i hne
    simp only [htClearBucket, htBucket]
    exact getD_set_ne _ (fun h => hne h.symm) _ _
  have hself : htBucket (htClearBucket ht0 idx) idx = [] := by
    simp only [htClearBucket, htBucket]
    exact getD_set_self _ hidx _ _
  refine ⟨⟨?_, ?_, ?_, ?_⟩, hperm, hother, hself, rfl⟩
  · simpa [htClearBucket] using hok0.1
  · simpa [htClearBucket] using hok0.2.1
  · show ht0.used - (htBucket ht0 idx).length
      = (htEntries (htClearBucket ht0 idx)).length
    have hlen := hperm.length_eq
    simp only [List.length_append] at hlen
    rw [hok0.2.2.1, hlen]
    omega
  · intro j hj e' he'
    by_cases hji : j = idx
    · subst hji
      rw [hself] at he'
      exact absurd he' (List.not_mem_nil e')
    · rw [hother j hji] at he'
      have hj' : j < ht0.table.length := by
        simpa [htClearBucket] using hj
      have := hok0.2.2.2 j hj' e' he'
      simpa [htClearBucket] using this

/-- Master lemma for the migration loop: it preserves well-formedness of
both tables, moves the cursor forward without overrunning the table, leaves
every bucket below the new cursor empty, and permutes — never loses — the
combined contents. -/
theorem rehashLoopGo_ok {t : DictType K V} {ht0 ht1 : Dictht K V}
    (hok0 : HtOk t ht0) (hok1 : HtOk t ht1) (hsz1 : ht1.size ≠ 0) :
    ∀ (fuel idx em : Nat),
      (∀ i, i < idx → htBucket ht0 i = []) →
      HtOk t (rehashLoopGo t ht0 ht1 fuel idx em).1 ∧
      HtOk t (rehashLoopGo t ht0 ht1 fuel idx em).2.1 ∧
      idx ≤ (rehashLoopGo t ht0 ht1 fuel idx em).2.2 ∧
      (idx ≤ ht0.size → (rehashLoopGo t ht0 ht1 fuel idx em).2.2 ≤ ht0.size) ∧
      (∀ i, i < (rehashLoopGo t ht0 ht1 fuel idx em).2.2 →
        htBucket (rehashLoopGo t ht0 ht1 fuel idx em).1 i = []) ∧
      (htEntries (rehashLoopGo t ht0 ht1 fuel idx em).1 ++
        htEntries (rehashLoopGo t ht0 ht1 fuel idx em).2.1).Perm
        (htEntries ht0 ++ htEntries ht1) ∧
      (rehashLoopGo t ht0 ht1 fuel idx em).1.size = ht0.size ∧
      (rehashLoopGo t ht0 ht1 fuel idx em).2.1.size = ht1.size := by
  intro fuel
  induction fuel with
  | zero =>
    intro idx em hpre
    exact ⟨hok0, hok1, le_refl _, fun h => h, hpre, List.Perm.refl _, rfl, rfl⟩
  | succ f ih =>
    intro idx em hpre
    simp only [rehashLoopGo]
    by_cases h1 : idx < ht0.size
    · rw [if_pos h1]
      by_cases hb : htBucket ht0 idx = []
      · rw [if_pos hb]
        by_cases hem : em ≤ 1
        · rw [if_pos hem]
          refine ⟨hok0, hok1, by show idx ≤ idx + 1; omega,
            fun _ => by show idx + 1 ≤ ht0.size; omega, ?_,
            List.Perm.refl _, rfl, rfl⟩
          intro i hi
          rcases Nat.lt_succ_iff_lt_or_eq.mp hi with hi' | rfl
          · exact hpre i hi'
          · exact hb
        · rw [if_neg hem]
          have hpre' : ∀ i, i < idx + 1 → htBucket ht0 i = [] := by
            intro i hi
            rcases Nat.lt_succ_iff_lt_or_eq.mp hi with hi' | rfl
            · exact hpre i hi'
            · exact hb
          have := ih (idx + 1) (em - 1) hpre'
          refine ⟨this.1, this.2.1, by omega, fun _ => this.2.2.2.1 (by omega),
            this.2.2.2.2.1, this.2.2.2.2.2.1, this.2.2.2.2.2.2⟩
      · rw [if_neg hb]
        have hidx : idx < ht0.table.length := by rw [hok0.1]; exact h1
        obtain ⟨hokc, hpermc, hother, hself, hsize⟩ :=
          htClearBucket_ok hok0 hidx
        have hfold := foldl_htInsertEntry_ok (htBucket ht0 idx) hok1 hsz1
        refine ⟨hokc, hfold.1, by show idx ≤ idx + 1; omega,
          fun _ => by show idx + 1 ≤ ht0.size; omega, ?_, ?_,
          hsize, foldl_htInsertEntry_size t _ ht1⟩
        · intro i hi
          have hi' : i < idx + 1 := hi
          show htBucket (htClearBucket ht0 idx) i = []
          by_cases hji : i = idx
          · subst hji
            exact hself
          · rw [hother i hji]
            exact hpre i (by omega)
        · show (htEntries (htClearBucket ht0 idx) ++
            htEntries ((htBucket ht0 idx).foldl (htInsertEntry t) ht1)).Perm
            (htEntries ht0 ++ htEntries ht1)
          have h3 : (htEntries (htClearBucket ht0 idx) ++
              htEntries ((htBucket ht0 idx).foldl (htInsertEntry t) ht1)).Perm
              (htEntries (htClearBucket ht0 idx) ++
                (htBucket ht0 idx ++ htEntries ht1)) :=
            List.Perm.append_left _ hfold.2
          refine h3.trans ?_
          have h4 := List.perm_append_comm_assoc
            (htEntries (htClearBucket ht0 idx)) (htBucket ht0 idx)
            (htEntries ht1)
          refine h4.trans ?_
          have h5 : (htBucket ht0 idx ++
              (htEntries (htClearBucket ht0 idx) ++ htEntries ht1))
              = (htBucket ht0 idx ++ htEntries (htClearBucket ht0 idx))
                ++ htEntries ht1 := by
            rw [List.append_assoc]
          rw [h5]
          exact List.Perm.append_right _ hpermc.symm
    · rw [if_neg h1]
      exact ⟨hok0, hok1, le_refl _, fun h => h, hpre, List.Perm.refl _,
        rfl, rfl⟩

end DictPreserve

section DictStep

variable {K V : Type} [DecidableEq K] [DecidableEq V]

theorem htEntries_empty : htEntries (emptyHt K V) = [] := rfl

theorem htEntries_of_size_zero {t : DictType K V} {ht : Dictht K V}
    (hok : HtOk t ht) (h : ht.size = 0) : htEntries ht = [] := by
  have hlen : ht.table.length = 0 := by rw [hok.1, h]
  have : ht.table = [] := List.eq_nil_of_length_eq_zero hlen
  rw [htEntries, this]
  rfl

/-- The interleaved migration step preserves well-formedness and permutes
the stored entries. -/
theorem dictRehashStep_ok {d : Dict K V} (hok : DictOk d) :
    DictOk (dictRehashStep d) ∧
    (entriesOf (dictRehashStep d)).Perm (entriesOf d) ∧
    (dictRehashStep d).type = d.type := by
  by_cases h1 : d.rehashidx = -1
  · simp only [dictRehashStep, if_pos h1]
    exact ⟨hok, List.Perm.refl _, by trivial⟩
  · obtain ⟨hge, hlt, hsz1⟩ := hok.2.2.1.resolve_left h1
    have hidxle : d.rehashidx.toNat ≤ d.ht0.size := by omega
    have hr : rehashLoop d.type d.ht0 d.ht1 d.rehashidx.toNat 10
        = rehashLoopGo d.type d.ht0 d.ht1 (d.ht0.size - d.rehashidx.toNat)
          d.rehashidx.toNat 10 := rfl
    have hloop := rehashLoopGo_ok hok.1 hok.2.1 hsz1
      (d.ht0.size - d.rehashidx.toNat) d.rehashidx.toNat 10 hok.2.2.2.2
    obtain ⟨hok0', hok1', hle, hub, hpre', hperm, hs0, hs1⟩ := hloop
    simp only [dictRehashStep, if_neg h1]
    rw [hr]
    by_cases hc : (rehashLoopGo d.type d.ht0 d.ht1
        (d.ht0.size - d.rehashidx.toNat) d.rehashidx.toNat 10).2.2
        = d.ht0.size
    · rw [if_pos hc]
      have hnil : htEntries (rehashLoopGo d.type d.ht0 d.ht1
          (d.ht0.size - d.rehashidx.toNat) d.rehashidx.toNat 10).1 = [] := by
        apply flatten_eq_nil_of_forall
        intro i hi
        refine hpre' i ?_
        rw [hc]
        rw [hok0'.1, hs0] at hi
        exact hi
      refine ⟨⟨hok1', htOk_empty _, Or.inl rfl, fun _ => rfl, ?_⟩, ?_, rfl⟩
      · intro i hi
        rw [show ((-1 : Int)).toNat = 0 from rfl] at hi
        omega
      · show (htEntries _ ++ htEntries (emptyHt K V)).Perm (entriesOf d)
        rw [htEntries_empty, List.append_nil]
        have := hperm
        rw [hnil] at this
        simpa using this
    · rw [if_neg hc]
      have hlt' : (rehashLoopGo d.type d.ht0 d.ht1
          (d.ht0.size - d.rehashidx.toNat) d.rehashidx.toNat 10).2.2
          < d.ht0.size := by
        have := hub hidxle
        omega
      refine ⟨⟨hok0', hok1', Or.inr ⟨?_, ?_, ?_⟩, ?_, ?_⟩, ?_, by trivial⟩
      · show (0 : Int) ≤ ((rehashLoopGo d.type d.ht0 d.ht1
            (d.ht0.size - d.rehashidx.toNat) d.rehashidx.toNat 10).2.2 : Int)
        exact Int.natCast_nonneg _
      · show ((rehashLoopGo d.type d.ht0 d.ht1
            (d.ht0.size - d.rehashidx.toNat) d.rehashidx.toNat 10).2.2 : Int)
            < ((rehashLoopGo d.type d.ht0 d.ht1
              (d.ht0.size - d.rehashidx.toNat) d.rehashidx.toNat 10).1.size : Int)
        rw [hs0]
        exact_mod_cast hlt'
      · show (rehashLoopGo d.type d.ht0 d.ht1
            (d.ht0.size - d.rehashidx.toNat) d.rehashidx.toNat 10).2.1.size ≠ 0
        rw [hs1]
        exact hsz1
      · intro habs
        exfalso
        have habs' : ((rehashLoopGo d.type d.ht0 d.ht1
            (d.ht0.size - d.rehashidx.toNat) d.rehashidx.toNat 10).2.2 : Int)
            = -1 := habs
        omega
      · intro i hi
        have hi' : i < ((rehashLoopGo d.type d.ht0 d.ht1
            (d.ht0.size - d.rehashidx.toNat) d.rehashidx.toNat 10).2.2 : Int).toNat := hi
        simp only [Int.toNat_natCast] at hi'
        show htBucket (rehashLoopGo d.type d.ht0 d.ht1
            (d.ht0.size - d.rehashidx.toNat) d.rehashidx.toNat 10).1 i = []
        exact hpre' i hi'
      · exact hperm

theorem dictRehashStep_fields (d : Dict K V) :
    (dictRehashStep d).type = d.type ∧
    (dictRehashStep d).iterators = d.iterators ∧
    (dictRehashStep d).canResize = d.canResize := by
  simp only [dictRehashStep]
  split_ifs <;> exact ⟨rfl, rfl, rfl⟩

theorem dictRehashStepChecked_ok {d : Dict K V} (hok : DictOk d) :
    DictOk (dictRehashStepChecked d) ∧
    (entriesOf (dictRehashStepChecked d)).Perm (entriesOf d) ∧
    (dictRehashStepChecked d).type = d.type := by
  unfold dictRehashStepChecked
  split_ifs with h
  · exact dictRehashStep_ok hok
  · exact ⟨hok, List.Perm.refl _, rfl⟩

theorem dictRehashStepChecked_fields (d : Dict K V) :
    (dictRehashStepChecked d).type = d.type ∧
    (dictRehashStepChecked d).iterators = d.iterators ∧
    (dictRehashStepChecked d).canResize = d.canResize := by
  unfold dictRehashStepChecked
  split_ifs with h
  · exact dictRehashStep_fields d
  · exact ⟨rfl, rfl, rfl⟩

theorem dictExpand_ok {d : Dict K V} (hok : DictOk d) (n : Nat) :
    DictOk (dictExpand d n).2 ∧
    (entriesOf (dictExpand d n).2).Perm (entriesOf d) ∧
    (dictExpand d n).2.type = d.type := by
  simp only [dictExpand]
  split_ifs with h1 h2 h3
  · exact ⟨hok, List.Perm.refl _, by trivial⟩
  · exact ⟨hok, List.Perm.refl _, by trivial⟩
  · -- first allocation: table 0 itself becomes the fresh array
    have hnr : d.rehashidx = -1 := by
      have hni := (not_or.mp h1).1
      unfold dictIsRehashing at hni
      simpa using hni
    have hsz1 : d.ht1.size = 0 := hok.2.2.2.1 hnr
    have he0 : htEntries d.ht0 = [] := htEntries_of_size_zero hok.1 h3
    have he1 : htEntries d.ht1 = [] := htEntries_of_size_zero hok.2.1 hsz1
    refine ⟨⟨htOk_fresh _ _, hok.2.1, Or.inl hnr, fun _ => hsz1, ?_⟩, ?_,
      by trivial⟩
    · intro i hi
      exact getD_replicate_nil _ _
    · show (htEntries (freshHt K V (dictNextPower n)) ++ htEntries d.ht1).Perm
        (entriesOf d)
      have hfr : htEntries (freshHt K V (dictNextPower n)) = [] :=
        flatten_replicate_nil _
      rw [hfr, entriesOf, he0, he1]
  · -- start a rehash: table 1 becomes the fresh array, cursor 0
    have hnr : d.rehashidx = -1 := by
      have hni := (not_or.mp h1).1
      unfold dictIsRehashing at hni
      simpa using hni
    have hsz1 : d.ht1.size = 0 := hok.2.2.2.1 hnr
    have he1 : htEntries d.ht1 = [] := htEntries_of_size_zero hok.2.1 hsz1
    have hfr : htEntries (freshHt K V (dictNextPower n)) = [] :=
      flatten_replicate_nil _
    refine ⟨⟨hok.1, htOk_fresh _ _, Or.inr ⟨?_, ?_, ?_⟩, ?_, ?_⟩,
      ?_, by trivial⟩
    · show (0 : Int) ≤ (0 : Int)
      exact le_refl 0
    · show (0 : Int) < (d.ht0.size : Int)
      have h3' : d.ht0.size ≠ 0 := h3
      omega
    · show (freshHt K V (dictNextPower n)).size ≠ 0
      have h5 := (dictNextPower_pow n).2
      simp only [freshHt]
      omega
    · intro habs
      exfalso
      have habs' : (0 : Int) = -1 := habs
      exact absurd habs' (by decide)
    · intro i hi
      exfalso
      have hi' : i < ((0 : Int)).toNat := hi
      rw [show ((0 : Int)).toNat = 0 from rfl] at hi'
      omega
    · show (htEntries d.ht0 ++ htEntries (freshHt K V (dictNextPower n))).Perm
        (entriesOf d)
      rw [hfr, entriesOf, he1]

theorem dictExpandIfNeeded_ok {d : Dict K V} (hok : DictOk d) :
    DictOk (dictExpandIfNeeded d) ∧
    (entriesOf (dictExpandIfNeeded d)).Perm (entriesOf d) ∧
    (dictExpandIfNeeded d).type = d.type := by
  unfold dictExpandIfNeeded
  split_ifs with h1 h2
  · exact ⟨hok, List.Perm.refl _, rfl⟩
  · exact dictExpand_ok hok _
  · exact ⟨hok, List.Perm.refl _, rfl⟩

theorem dictEnsureAllocated_ok {d : Dict K V} (hok : DictOk d) :
    DictOk (dictEnsureAllocated d) ∧
    (entriesOf (dictEnsureAllocated d)).Perm (entriesOf d) ∧
    (dictEnsureAllocated d).type = d.type := by
  unfold dictEnsureAllocated
  split_ifs with h1
  · exact dictExpand_ok hok _
  · exact ⟨hok, List.Perm.refl _, rfl⟩

theorem dictEnsureAllocated_size {d : Dict K V} (hok : DictOk d) :
    (dictEnsureAllocated d).ht0.size ≠ 0 := by
  unfold dictEnsureAllocated
  split_ifs with h1
  · have hnr : dictIsRehashing d = false := by
      unfold dictIsRehashing
      rcases hok.2.2.1 with hr | ⟨_, hlt, _⟩
      · simpa using hr
      · exfalso
        rw [h1] at hlt
        omega
    have hused : d.ht0.used = 0 := by
      rw [hok.1.2.2.1, htEntries_of_size_zero hok.1 h1]
      rfl
    have hcond : ¬(dictIsRehashing d = true ∨
        d.ht0.used > DICT_HT_INITIAL_SIZE) := by
      rw [hnr, hused]
      simp [DICT_HT_INITIAL_SIZE]
    have h4 : dictNextPower DICT_HT_INITIAL_SIZE = 4 := rfl
    rw [dictExpand, if_neg hcond, h4]
    rw [h1]
    have h40 : (4 : Nat) ≠ 0 := by decide
    rw [if_neg h40]
    rw [if_pos rfl]
    show (freshHt K V 4).size ≠ 0
    simp [freshHt]
  · exact h1

end DictStep

section DictOps

variable {K V : Type} [DecidableEq K] [DecidableEq V]

theorem dictOk_set_ht1 {d : Dict K V} (hok : DictOk d) {ht1' : Dictht K V}
    (h : HtOk d.type ht1') (hsz : ht1'.size = d.ht1.size) :
    DictOk { d with ht1 := ht1' } := by
  refine ⟨hok.1, h, ?_, ?_, ?_⟩
  · show d.rehashidx = -1 ∨
      (0 ≤ d.rehashidx ∧ d.rehashidx < (d.ht0.size : Int) ∧ ht1'.size ≠ 0)
    rcases hok.2.2.1 with hr | ⟨hge, hlt, hs⟩
    · exact Or.inl hr
    · refine Or.inr ⟨hge, hlt, ?_⟩
      rw [hsz]
      exact hs
  · intro hr
    show ht1'.size = 0
    rw [hsz]
    exact hok.2.2.2.1 hr
  · exact hok.2.2.2.2

theorem dictOk_set_ht0_norehash {d : Dict K V} (hok : DictOk d)
    (hnr : d.rehashidx = -1) {ht0' : Dictht K V} (h : HtOk d.type ht0') :
    DictOk { d with ht0 := ht0' } := by
  refine ⟨h, hok.2.1, Or.inl hnr, fun _ => hok.2.2.2.1 hnr, ?_⟩
  intro i hi
  rw [hnr] at hi
  exfalso
  rw [show ((-1 : Int)).toNat = 0 from rfl] at hi
  omega

theorem keysNodup_of_perm {d d' : Dict K V}
    (hp : (entriesOf d').Perm (entriesOf d)) (h : KeysNodup d) :
    KeysNodup d' := ((hp.map _).nodup_iff).mpr h

/-- A hit is possible exactly when the key is stored (default comparison,
no duplicate keys). -/
theorem dictFindPure_isSome_iff {d : Dict K V} (hok : DictOk d)
    (hkc : d.type.keyCompare = none) (hnd : KeysNodup d) (k : K) :
    (dictFindPure d k).isSome = true ↔ ∃ e ∈ entriesOf d, e.key = k := by
  constructor
  · intro h
    obtain ⟨e, he⟩ := Option.isSome_iff_exists.mp h
    obtain ⟨hm, hcp⟩ := dictFindPure_some he
    refine ⟨e, hm, ?_⟩
    simp only [dictCompareKeys, hkc] at hcp
    exact (beq_iff_eq.mp hcp).symm
  · rintro ⟨e, hm, hkey⟩
    rw [dictFindPure_some_of_mem hok hkc hnd hm hkey]
    rfl

theorem htRemoveAt_ok {t : DictType K V} {ht : Dictht K V} (hok : HtOk t ht)
    {k : K} {i : Nat} {er : DEntry K V} {g' : List (DEntry K V)}
    (hr : chainRemove t k (htBucket ht i) = some (er, g')) :
    HtOk t (htRemoveAt ht i g') ∧
    (htEntries ht).Perm (er :: htEntries (htRemoveAt ht i g')) ∧
    dictCompareKeys t k er.key = true ∧
    (htRemoveAt ht i g').size = ht.size := by
  obtain ⟨hbp, hcp⟩ := chainRemove_perm t k _ er g' hr
  have hermem : er ∈ htBucket ht i :=
    hbp.mem_iff.mpr (List.mem_cons_self er g')
  have hi : i < ht.table.length := htBucket_mem_lt hermem
  have hperm : (htEntries ht).Perm (er :: htEntries (htRemoveAt ht i g')) := by
    have := flatten_remove_bucket_perm ht.table i hi er g'
      (by simpa [htBucket] using hbp)
    simpa [htRemoveAt, htEntries] using this
  refine ⟨⟨?_, ?_, ?_, ?_⟩, hperm, hcp, rfl⟩
  · simpa [htRemoveAt] using hok.1
  · simpa [htRemoveAt] using hok.2.1
  · show ht.used - 1 = (htEntries (htRemoveAt ht i g')).length
    have hlen := hperm.length_eq
    rw [hok.2.2.1, hlen]
    simp
  · intro j hj e' he'
    have hj' : j < ht.table.length := by simpa [htRemoveAt] using hj
    show t.hashFunction e'.key &&& ht.sizemask = j
    by_cases hji : j = i
    · subst hji
      have hb : htBucket (htRemoveAt ht j g') j = g' := by
        simp only [htRemoveAt, htBucket]
        exact getD_set_self _ hi _ _
      rw [hb] at he'
      have hmem2 : e' ∈ htBucket ht j :=
        hbp.mem_iff.mpr (List.mem_cons_of_mem er he')
      exact hok.2.2.2 j hi e' hmem2
    · have hb : htBucket (htRemoveAt ht i g') j = htBucket ht j := by
        simp only [htRemoveAt, htBucket]
        exact getD_set_ne _ (fun hh => hji hh.symm) _ _
      rw [hb] at he'
      exact hok.2.2.2 j hj' e' he'

end DictOps

section AddCore

variable {K V : Type} [DecidableEq K] [DecidableEq V]

/-- The preamble every insert-like operation runs (interleaved migration
step, then first-time allocation) preserves everything and leaves an
allocated `table[0]`. -/
theorem dictAddPrep_ok {d : Dict K V} (hok : DictOk d) :
    DictOk (dictEnsureAllocated (dictRehashStepChecked d)) ∧
    (entriesOf (dictEnsureAllocated (dictRehashStepChecked d))).Perm
      (entriesOf d) ∧
    (dictEnsureAllocated (dictRehashStepChecked d)).type = d.type ∧
    (dictEnsureAllocated (dictRehashStepChecked d)).ht0.size ≠ 0 := by
  obtain ⟨hok1, hperm1, htype1⟩ := dictRehashStepChecked_ok hok
  obtain ⟨hok2, hperm2, htype2⟩ := dictEnsureAllocated_ok hok1
  exact ⟨hok2, hperm2.trans hperm1, htype2.trans htype1,
    dictEnsureAllocated_size hok1⟩

/-- Master lemma for the entry-creating core (default comparison, no key
duplication): the result dict stays well formed with distinct keys; a
`found` result returns a stored entry for the key and leaves the contents
unchanged; a `created` result returns the fresh entry, extends the contents
by exactly it, and can only happen when the key was absent; and `found`
happens exactly when the key was stored. -/
theorem dictAddCore_ok {d : Dict K V} (hok : DictOk d) (hnd : KeysNodup d)
    (hkc : d.type.keyCompare = none) (hkd : d.type.keyDup = none)
    (k : K) (v0 : Option V) :
    (dictAddCore d k v0).2.type = d.type ∧
    DictOk (dictAddCore d k v0).2 ∧
    KeysNodup (dictAddCore d k v0).2 ∧
    (∀ e, (dictAddCore d k v0).1 = AddRawResult.found e →
      (entriesOf (dictAddCore d k v0).2).Perm (entriesOf d) ∧
      e ∈ entriesOf d ∧ e.key = k) ∧
    (∀ e, (dictAddCore d k v0).1 = AddRawResult.created e →
      e = ⟨k, v0⟩ ∧
      (entriesOf (dictAddCore d k v0).2).Perm (⟨k, v0⟩ :: entriesOf d) ∧
      (∀ e' ∈ entriesOf d, e'.key ≠ k)) ∧
    ((∃ e, (dictAddCore d k v0).1 = AddRawResult.found e) ↔
      ∃ e ∈ entriesOf d, e.key = k) := by
  obtain ⟨hokp, hpermp, htypep, hszp⟩ := dictAddPrep_ok hok
  have hkc1 : (dictEnsureAllocated (dictRehashStepChecked d)).type.keyCompare
      = none := by rw [htypep]; exact hkc
  have hndp : KeysNodup (dictEnsureAllocated (dictRehashStepChecked d)) :=
    keysNodup_of_perm hpermp hnd
  cases hf : dictFindPure (dictEnsureAllocated (dictRehashStepChecked d)) k with
  | some e0 =>
    have hres : dictAddCore d k v0 =
        (AddRawResult.found e0,
          dictEnsureAllocated (dictRehashStepChecked d)) := by
      simp only [dictAddCore]
      rw [hf]
    obtain ⟨hm1, hcp1⟩ := dictFindPure_some hf
    have hmem : e0 ∈ entriesOf d := hpermp.mem_iff.mp hm1
    have hkey : e0.key = k := by
      simp only [dictCompareKeys, hkc1] at hcp1
      exact (beq_iff_eq.mp hcp1).symm
    rw [hres]
    refine ⟨htypep, hokp, hndp, ?_, ?_, ?_⟩
    · intro e he
      obtain rfl : e0 = e := by
        cases he
        rfl
      exact ⟨hpermp, hmem, hkey⟩
    · intro e he
      exact AddRawResult.noConfusion he
    · constructor
      · intro _
        exact ⟨e0, hmem, hkey⟩
      · intro _
        exact ⟨e0, rfl⟩
  | none =>
    have hnone := dictFindPure_none hokp hkc1 hf
    have hnoneD : ∀ e' ∈ entriesOf d, e'.key ≠ k := by
      intro e' hm
      exact hnone e' (hpermp.symm.mem_iff.mp hm)
    have hdup : dictDupKey
        (dictEnsureAllocated (dictRehashStepChecked d)).type k = k := by
      have : (dictEnsureAllocated (dictRehashStepChecked d)).type.keyDup
          = none := by rw [htypep]; exact hkd
      simp [dictDupKey, this]
    by_cases hreh : dictIsRehashing
        (dictEnsureAllocated (dictRehashStepChecked d)) = true
    · -- rehashing: the new entry is linked into table 1
      have hsz1 : (dictEnsureAllocated (dictRehashStepChecked d)).ht1.size
          ≠ 0 := by
        have hr := hokp.2.2.1.resolve_left (by
          unfold dictIsRehashing at hreh
          simpa using hreh)
        exact hr.2.2
      have hadd := htAddEntry_ok (t :=
          (dictEnsureAllocated (dictRehashStepChecked d)).type)
        hokp.2.1 hsz1 (k := k) (e := ⟨k, v0⟩) rfl
      have hres : dictAddCore d k v0 =
          (AddRawResult.created (⟨k, v0⟩ : DEntry K V),
            dictExpandIfNeeded
              { dictEnsureAllocated (dictRehashStepChecked d) with
                ht1 := htAddEntry
                  (dictEnsureAllocated (dictRehashStepChecked d)).type
                  (dictEnsureAllocated (dictRehashStepChecked d)).ht1
                  k ⟨k, v0⟩ }) := by
        simp only [dictAddCore]
        rw [hf]
        simp only [hdup, hreh, if_pos]
      have hok2 : DictOk { dictEnsureAllocated (dictRehashStepChecked d) with
          ht1 := htAddEntry
            (dictEnsureAllocated (dictRehashStepChecked d)).type
            (dictEnsureAllocated (dictRehashStepChecked d)).ht1 k ⟨k, v0⟩ } :=
        dictOk_set_ht1 hokp hadd.1 rfl
      have hperm2 : (entriesOf
          { dictEnsureAllocated (dictRehashStepChecked d) with
            ht1 := htAddEntry
              (dictEnsureAllocated (dictRehashStepChecked d)).type
              (dictEnsureAllocated (dictRehashStepChecked d)).ht1
              k ⟨k, v0⟩ }).Perm
          ((⟨k, v0⟩ : DEntry K V) ::
            entriesOf (dictEnsureAllocated (dictRehashStepChecked d))) := by
        show (htEntries (dictEnsureAllocated (dictRehashStepChecked d)).ht0 ++
          htEntries (htAddEntry
            (dictEnsureAllocated (dictRehashStepChecked d)).type
            (dictEnsureAllocated (dictRehashStepChecked d)).ht1
            k ⟨k, v0⟩)).Perm _
        refine (List.Perm.append_left _ hadd.2).trans ?_
        exact List.perm_middle
      obtain ⟨hok3, hperm3, htype3⟩ := dictExpandIfNeeded_ok hok2
      rw [hres]
      have hpermAll : (entriesOf (dictExpandIfNeeded
          { dictEnsureAllocated (dictRehashStepChecked d) with
            ht1 := htAddEntry
              (dictEnsureAllocated (dictRehashStepChecked d)).type
              (dictEnsureAllocated (dictRehashStepChecked d)).ht1
              k ⟨k, v0⟩ })).Perm
          ((⟨k, v0⟩ : DEntry K V) :: entriesOf d) :=
        hperm3.trans (hperm2.trans (hpermp.cons _))
      refine ⟨htype3.trans htypep, hok3, ?_, ?_, ?_, ?_⟩
      · unfold KeysNodup
        refine ((hpermAll.map (fun e => e.key)).nodup_iff).mpr ?_
        simp only [List.map_cons]
        refine List.nodup_cons.mpr ⟨?_, hnd⟩
        intro hkmem
        obtain ⟨e', hm, hke⟩ := List.mem_map.mp hkmem
        exact hnoneD e' hm hke
      · intro e he
        exact AddRawResult.noConfusion he
      · intro e he
        obtain rfl : (⟨k, v0⟩ : DEntry K V) = e := by
          cases he
          rfl
        exact ⟨rfl, hpermAll, hnoneD⟩
      · constructor
        · rintro ⟨e, he⟩
          exact AddRawResult.noConfusion he
        · rintro ⟨e, hm, hkey⟩
          exact absurd hkey (hnoneD e hm)
    · -- not rehashing: the new entry is linked into table 0
      have hnr : (dictEnsureAllocated (dictRehashStepChecked d)).rehashidx
          = -1 := by
        unfold dictIsRehashing at hreh
        simpa using hreh
      have hadd := htAddEntry_ok (t :=
          (dictEnsureAllocated (dictRehashStepChecked d)).type)
        hokp.1 hszp (k := k) (e := ⟨k, v0⟩) rfl
      have hres : dictAddCore d k v0 =
          (AddRawResult.created (⟨k, v0⟩ : DEntry K V),
            dictExpandIfNeeded
              { dictEnsureAllocated (dictRehashStepChecked d) with
                ht0 := htAddEntry
                  (dictEnsureAllocated (dictRehashStepChecked d)).type
                  (dictEnsureAllocated (dictRehashStepChecked d)).ht0
                  k ⟨k, v0⟩ }) := by
        simp only [dictAddCore]
        rw [hf]
        simp only [hdup, hreh, Bool.false_eq_true, if_neg, not_false_eq_true]
      have hok2 : DictOk { dictEnsureAllocated (dictRehashStepChecked d) with
          ht0 := htAddEntry
            (dictEnsureAllocated (dictRehashStepChecked d)).type
            (dictEnsureAllocated (dictRehashStepChecked d)).ht0 k ⟨k, v0⟩ } :=
        dictOk_set_ht0_norehash hokp hnr hadd.1
      have hperm2 : (entriesOf
          { dictEnsureAllocated (dictRehashStepChecked d) with
            ht0 := htAddEntry
              (dictEnsureAllocated (dictRehashStepChecked d)).type
              (dictEnsureAllocated (dictRehashStepChecked d)).ht0
              k ⟨k, v0⟩ }).Perm
          ((⟨k, v0⟩ : DEntry K V) ::
            entriesOf (dictEnsureAllocated (dictRehashStepChecked d))) := by
        show (htEntries (htAddEntry
            (dictEnsureAllocated (dictRehashStepChecked d)).type
            (dictEnsureAllocated (dictRehashStepChecked d)).ht0 k ⟨k, v0⟩) ++
          htEntries (dictEnsureAllocated (dictRehashStepChecked d)).ht1).Perm _
        refine (List.Perm.append_right _ hadd.2).trans ?_
        exact List.Perm.refl _
      obtain ⟨hok3, hperm3, htype3⟩ := dictExpandIfNeeded_ok hok2
      rw [hres]
      have hpermAll : (entriesOf (dictExpandIfNeeded
          { dictEnsureAllocated (dictRehashStepChecked d) with
            ht0 := htAddEntry
              (dictEnsureAllocated (dictRehashStepChecked d)).type
              (dictEnsureAllocated (dictRehashStepChecked d)).ht0
              k ⟨k, v0⟩ })).Perm
          ((⟨k, v0⟩ : DEntry K V) :: entriesOf d) :=
        hperm3.trans (hperm2.trans (hpermp.cons _))
      refine ⟨htype3.trans htypep, hok3, ?_, ?_, ?_, ?_⟩
      · unfold KeysNodup
        refine ((hpermAll.map (fun e => e.key)).nodup_iff).mpr ?_
        simp only [List.map_cons]
        refine List.nodup_cons.mpr ⟨?_, hnd⟩
        intro hkmem
        obtain ⟨e', hm, hke⟩ := List.mem_map.mp hkmem
        exact hnoneD e' hm hke
      · intro e he
        exact AddRawResult.noConfusion he
      · intro e he
        obtain rfl : (⟨k, v0⟩ : DEntry K V) = e := by
          cases he
          rfl
        exact ⟨rfl, hpermAll, hnoneD⟩
      · constructor
        · rintro ⟨e, he⟩
          exact AddRawResult.noConfusion he
        · rintro ⟨e, hm, hkey⟩
          exact absurd hkey (hnoneD e hm)

end AddCore

section DeleteOp

variable {K V : Type} [DecidableEq K] [DecidableEq V]

theorem chainRemove_none_iff (t : DictType K V) (k : K) :
    ∀ g : List (DEntry K V),
      chainRemove t k g = none ↔ chainFind t k g = none := by
  intro g
  induction g with
  | nil => simp [chainRemove, chainFind]
  | cons a g ih =>
    by_cases hc : dictCompareKeys t k a.key
    · simp [chainRemove, chainFind, hc]
    · have hcf : dictCompareKeys t k a.key = false := by simpa using hc
      simp only [chainRemove, chainFind, hcf, Bool.false_eq_true, if_neg,
        not_false_eq_true]
      rw [← ih]
      cases hr : chainRemove t k g with
      | none => simp
      | some p => simp

theorem dictOk_set_ht0_general {d : Dict K V} (hok : DictOk d)
    {ht0' : Dictht K V} (h : HtOk d.type ht0') (hsz : ht0'.size = d.ht0.size)
    (hpre : ∀ i, i < d.rehashidx.toNat → htBucket ht0' i = []) :
    DictOk { d with ht0 := ht0' } := by
  refine ⟨h, hok.2.1, ?_, hok.2.2.2.1, hpre⟩
  show d.rehashidx = -1 ∨
    (0 ≤ d.rehashidx ∧ d.rehashidx < (ht0'.size : Int) ∧ d.ht1.size ≠ 0)
  rcases hok.2.2.1 with hr | ⟨hge, hlt, hs⟩
  · exact Or.inl hr
  · refine Or.inr ⟨hge, ?_, hs⟩
    rw [hsz]
    exact hlt

/-- Master lemma for `dictDelete` (default comparison, distinct keys): the
result stays well formed; a successful delete removes exactly one stored
entry carrying the key; a miss leaves the contents unchanged and certifies
the key was absent. -/
theorem dictDelete_ok {d : Dict K V} (hok : DictOk d) (hnd : KeysNodup d)
    (hkc : d.type.keyCompare = none) (k : K) :
    (dictDelete d k).2.type = d.type ∧
    DictOk (dictDelete d k).2 ∧
    KeysNodup (dictDelete d k).2 ∧
    ((dictDelete d k).1 = true →
      ∃ er : DEntry K V, er.key = k ∧ er ∈ entriesOf d ∧
        (entriesOf d).Perm (er :: entriesOf (dictDelete d k).2)) ∧
    ((dictDelete d k).1 = false →
      (entriesOf (dictDelete d k).2).Perm (entriesOf d) ∧
      ∀ e ∈ entriesOf d, e.key ≠ k) := by
  by_cases hsz0 : dictSize d = 0
  · have hres : dictDelete d k = (false, d) := by
      simp only [dictDelete]
      rw [if_pos hsz0]
    rw [hres]
    refine ⟨rfl, hok, hnd, ?_, ?_⟩
    · intro habs
      exact absurd habs (by simp)
    · intro _
      refine ⟨List.Perm.refl _, ?_⟩
      intro e hm
      exfalso
      have hlen := dictSize_eq_length hok.1 hok.2.1
      rw [hsz0] at hlen
      have hnil : entriesOf d = [] := List.eq_nil_of_length_eq_zero hlen.symm
      rw [hnil] at hm
      exact absurd hm (List.not_mem_nil e)
  · obtain ⟨hokp, hpermp, htypep⟩ := dictRehashStepChecked_ok hok
    have hkc1 : (dictRehashStepChecked d).type.keyCompare = none := by
      rw [htypep]; exact hkc
    have hndp : KeysNodup (dictRehashStepChecked d) :=
      keysNodup_of_perm hpermp hnd
    cases hr0 : chainRemove (dictRehashStepChecked d).type k
        (htBucket (dictRehashStepChecked d).ht0
          (keyIndex (dictRehashStepChecked d).type
            (dictRehashStepChecked d).ht0 k)) with
    | some p =>
      obtain ⟨er, g'⟩ := p
      have hres : dictDelete d k = (true,
          { dictRehashStepChecked d with
            ht0 := htRemoveAt (dictRehashStepChecked d).ht0
              (keyIndex (dictRehashStepChecked d).type
                (dictRehashStepChecked d).ht0 k) g' }) := by
        simp only [dictDelete]
        rw [if_neg hsz0, hr0]
      obtain ⟨hokr, hpermr, hcpr, hszr⟩ := htRemoveAt_ok hokp.1 hr0
      have hkeyr : er.key = k := by
        simp only [dictCompareKeys, hkc1] at hcpr
        exact (beq_iff_eq.mp hcpr).symm
      have hermem0 : er ∈ htEntries (dictRehashStepChecked d).ht0 :=
        hpermr.mem_iff.mpr (List.mem_cons_self _ _)
      have hermem : er ∈ entriesOf d :=
        hpermp.mem_iff.mp (List.mem_append_left _ hermem0)
      have hpre' : ∀ i, i < (dictRehashStepChecked d).rehashidx.toNat →
          htBucket (htRemoveAt (dictRehashStepChecked d).ht0
            (keyIndex (dictRehashStepChecked d).type
              (dictRehashStepChecked d).ht0 k) g') i = [] := by
        intro i hi
        by_cases hji : i = keyIndex (dictRehashStepChecked d).type
            (dictRehashStepChecked d).ht0 k
        · exfalso
          have hempty := hokp.2.2.2.2 i hi
          rw [hji] at hempty
          rw [hempty] at hr0
          simp [chainRemove] at hr0
        · have hb : htBucket (htRemoveAt (dictRehashStepChecked d).ht0
              (keyIndex (dictRehashStepChecked d).type
                (dictRehashStepChecked d).ht0 k) g') i
              = htBucket (dictRehashStepChecked d).ht0 i := by
            simp only [htRemoveAt, htBucket]
            exact getD_set_ne _ (fun hh => hji hh.symm) _ _
          rw [hb]
          exact hokp.2.2.2.2 i hi
      have hokD : DictOk { dictRehashStepChecked d with
          ht0 := htRemoveAt (dictRehashStepChecked d).ht0
            (keyIndex (dictRehashStepChecked d).type
              (dictRehashStepChecked d).ht0 k) g' } :=
        dictOk_set_ht0_general hokp hokr hszr hpre'
      have hperm1 : (entriesOf (dictRehashStepChecked d)).Perm
          (er :: entriesOf { dictRehashStepChecked d with
            ht0 := htRemoveAt (dictRehashStepChecked d).ht0
              (keyIndex (dictRehashStepChecked d).type
                (dictRehashStepChecked d).ht0 k) g' }) := by
        show (htEntries (dictRehashStepChecked d).ht0 ++
          htEntries (dictRehashStepChecked d).ht1).Perm (er :: (_ ++ _))
        refine (List.Perm.append_right _ hpermr).trans ?_
        simp
      rw [hres]
      refine ⟨htypep, hokD, ?_, ?_, ?_⟩
      · unfold KeysNodup
        have hnd1 : ((entriesOf (dictRehashStepChecked d)).map
            (fun e => e.key)).Nodup := keysNodup_of_perm hpermp hnd
        have hh := (hperm1.map (fun (e : DEntry K V) => e.key)).nodup_iff.mp hnd1
        simp only [List.map_cons] at hh
        exact (List.nodup_cons.mp hh).2
      · intro _
        exact ⟨er, hkeyr, hermem, hpermp.symm.trans hperm1⟩
      · intro habs
        exact absurd habs (by simp)
    | none =>
      have hcf0 : chainFind (dictRehashStepChecked d).type k
          (htBucket (dictRehashStepChecked d).ht0
            (keyIndex (dictRehashStepChecked d).type
              (dictRehashStepChecked d).ht0 k)) = none :=
        (chainRemove_none_iff _ _ _).mp hr0
      by_cases hreh : dictIsRehashing (dictRehashStepChecked d) = true
      · cases hr1 : chainRemove (dictRehashStepChecked d).type k
            (htBucket (dictRehashStepChecked d).ht1
              (keyIndex (dictRehashStepChecked d).type
                (dictRehashStepChecked d).ht1 k)) with
        | some p =>
          obtain ⟨er, g'⟩ := p
          have hres : dictDelete d k = (true,
              { dictRehashStepChecked d with
                ht1 := htRemoveAt (dictRehashStepChecked d).ht1
                  (keyIndex (dictRehashStepChecked d).type
                    (dictRehashStepChecked d).ht1 k) g' }) := by
            simp only [dictDelete]
            rw [if_neg hsz0, hr0]
            simp only [hreh, if_pos]
            rw [hr1]
          obtain ⟨hokr, hpermr, hcpr, hszr⟩ := htRemoveAt_ok hokp.2.1 hr1
          have hkeyr : er.key = k := by
            simp only [dictCompareKeys, hkc1] at hcpr
            exact (beq_iff_eq.mp hcpr).symm
          have hermem1 : er ∈ htEntries (dictRehashStepChecked d).ht1 :=
            hpermr.mem_iff.mpr (List.mem_cons_self _ _)
          have hermem : er ∈ entriesOf d :=
            hpermp.mem_iff.mp (List.mem_append_right _ hermem1)
          have hokD : DictOk { dictRehashStepChecked d with
              ht1 := htRemoveAt (dictRehashStepChecked d).ht1
                (keyIndex (dictRehashStepChecked d).type
                  (dictRehashStepChecked d).ht1 k) g' } :=
            dictOk_set_ht1 hokp hokr hszr
          have hperm1 : (entriesOf (dictRehashStepChecked d)).Perm
              (er :: entriesOf { dictRehashStepChecked d with
                ht1 := htRemoveAt (dictRehashStepChecked d).ht1
                  (keyIndex (dictRehashStepChecked d).type
                    (dictRehashStepChecked d).ht1 k) g' }) := by
            show (htEntries (dictRehashStepChecked d).ht0 ++
              htEntries (dictRehashStepChecked d).ht1).Perm
              (er :: (_ ++ _))
            refine (List.Perm.append_left _ hpermr).trans ?_
            exact List.perm_middle
          rw [hres]
          refine ⟨htypep, hokD, ?_, ?_, ?_⟩
          · unfold KeysNodup
            have hnd1 : ((entriesOf (dictRehashStepChecked d)).map
                (fun e => e.key)).Nodup := keysNodup_of_perm hpermp hnd
            have hh := (hperm1.map
              (fun (e : DEntry K V) => e.key)).nodup_iff.mp hnd1
            simp only [List.map_cons] at hh
            exact (List.nodup_cons.mp hh).2
          · intro _
            exact ⟨er, hkeyr, hermem, hpermp.symm.trans hperm1⟩
          · intro habs
            exact absurd habs (by simp)
        | none =>
          have hres : dictDelete d k = (false, dictRehashStepChecked d) := by
            simp only [dictDelete]
            rw [if_neg hsz0, hr0]
            simp only [hreh, if_pos]
            rw [hr1]
          have hfp : dictFindPure (dictRehashStepChecked d) k = none := by
            unfold dictFindPure
            by_cases hsz : dictSize (dictRehashStepChecked d) = 0
            · rw [if_pos hsz]
            · rw [if_neg hsz, hcf0]
              simp only [Option.isSome_none, Bool.false_eq_true, if_neg,
                not_false_eq_true, hreh, if_pos]
              exact (chainRemove_none_iff _ _ _).mp hr1
          have hnone := dictFindPure_none hokp hkc1 hfp
          rw [hres]
          refine ⟨htypep, hokp, hndp, ?_, ?_⟩
          · intro habs
            exact absurd habs (by simp)
          · intro _
            refine ⟨hpermp, ?_⟩
            intro e hm
            exact hnone e (hpermp.symm.mem_iff.mp hm)
      · have hres : dictDelete d k = (false, dictRehashStepChecked d) := by
          simp only [dictDelete]
          rw [if_neg hsz0, hr0]
          simp only [hreh, Bool.false_eq_true, if_neg, not_false_eq_true]
        have hfp : dictFindPure (dictRehashStepChecked d) k = none := by
          unfold dictFindPure
          by_cases hsz : dictSize (dictRehashStepChecked d) = 0
          · rw [if_pos hsz]
          · rw [if_neg hsz, hcf0]
            simp only [Option.isSome_none, Bool.false_eq_true, if_neg,
              not_false_eq_true, hreh]
        have hnone := dictFindPure_none hokp hkc1 hfp
        rw [hres]
        refine ⟨htypep, hokp, hndp, ?_, ?_⟩
        · intro habs
          exact absurd habs (by simp)
        · intro _
          refine ⟨hpermp, ?_⟩
          intro e hm
          exact hnone e (hpermp.symm.mem_iff.mp hm)

end DeleteOp

section AddOrFind

variable {K V : Type} [DecidableEq K] [DecidableEq V]

theorem entries_key_unique {l : List (DEntry K V)}
    (hnd : (l.map (fun e => e.key)).Nodup) {e1 e2 : DEntry K V}
    (h1 : e1 ∈ l) (h2 : e2 ∈ l) (hk : e1.key = e2.key) : e1 = e2 :=
  List.inj_on_of_nodup_map hnd h1 h2 hk

theorem dictAddOrFind_hits {d : Dict K V} (hok : DictOk d)
    (hnd : KeysNodup d) (hkc : d.type.keyCompare = none)
    (hkd : d.type.keyDup = none) {k : K} {e : DEntry K V}
    (hmem : e ∈ entriesOf d) (hkey : e.key = k) :
    (dictAddOrFind d k).1 = e := by
  obtain ⟨htype2, hok2, hnd2, hfound2, hcreated2, hiff2⟩ :=
    dictAddCore_ok hok hnd hkc hkd k (none : Option V)
  cases hres2 : dictAddCore d k (none : Option V) with
  | mk res2 d2 =>
    rw [hres2] at hfound2 hcreated2 hiff2
    cases res2 with
    | found e2 =>
      have hr : (dictAddOrFind d k).1 = e2 := by
        simp [dictAddOrFind, hres2]
      obtain ⟨_, hmem2, hkey2⟩ := hfound2 e2 rfl
      have hnd' : ((entriesOf d).map (fun e => e.key)).Nodup := hnd
      rw [hr]
      exact entries_key_unique hnd' hmem2 hmem (hkey2.trans hkey.symm)
    | created e2 =>
      exfalso
      obtain ⟨e', he'⟩ := hiff2.mpr ⟨e, hmem, hkey⟩
      simp at he'

/-- C6: `dictAddOrFind` is idempotent.  With default key comparison and no
key duplicator, on a well-formed dict with distinct keys: the returned
entry carries the queried key and is stored afterwards; if the key was
present the existing entry is returned and the key/value contents are
unchanged (up to bucket placement); if it was absent the fresh value-less
entry is inserted exactly as the insert-only add would (same resulting
dict as `dictAddRaw`) and returned; and a second call with the same key
returns that same entry. -/
theorem dict_addOrFind_idempotent {d : Dict K V} (hok : DictOk d)
    (hnd : KeysNodup d) (hkc : d.type.keyCompare = none)
    (hkd : d.type.keyDup = none) (k : K) :
    (dictAddOrFind d k).1.key = k ∧
    (dictAddOrFind d k).1 ∈ entriesOf (dictAddOrFind d k).2 ∧
    ((∃ e ∈ entriesOf d, e.key = k) →
      (dictAddOrFind d k).1 ∈ entriesOf d ∧
      (entriesOf (dictAddOrFind d k).2).Perm (entriesOf d)) ∧
    ((∀ e ∈ entriesOf d, e.key ≠ k) →
      (dictAddOrFind d k).1 = ⟨k, none⟩ ∧
      (entriesOf (dictAddOrFind d k).2).Perm
        ((⟨k, none⟩ : DEntry K V) :: entriesOf d)) ∧
    (dictAddOrFind d k).2 = (dictAddRaw d k).2 ∧
    (dictAddOrFind (dictAddOrFind d k).2 k).1 = (dictAddOrFind d k).1 := by
  obtain ⟨htype, hokc, hndc, hfound, hcreated, hiff⟩ :=
    dictAddCore_ok hok hnd hkc hkd k (none : Option V)
  cases hres : dictAddCore d k (none : Option V) with
  | mk res d' =>
    rw [hres] at htype hokc hndc hfound hcreated hiff
    have hkc' : d'.type.keyCompare = none := by rw [htype]; exact hkc
    have hkd' : d'.type.keyDup = none := by rw [htype]; exact hkd
    cases res with
    | found e =>
      have hr : dictAddOrFind d k = (e, d') := by
        simp [dictAddOrFind, hres]
      have hraw : dictAddRaw d k = (AddRawResult.found e, d') := by
        simp [dictAddRaw, hres]
      obtain ⟨hperm', hmem, hkey⟩ := hfound e rfl
      have hmem' : e ∈ entriesOf d' := hperm'.symm.mem_iff.mp hmem
      rw [hr, hraw]
      refine ⟨hkey, hmem', ?_, ?_, rfl, ?_⟩
      · intro _
        exact ⟨hmem, hperm'⟩
      · intro habs
        exact absurd hkey (habs e hmem)
      · exact dictAddOrFind_hits hokc hndc hkc' hkd' hmem' hkey
    | created e =>
      have hr : dictAddOrFind d k = (e, d') := by
        simp [dictAddOrFind, hres]
      have hraw : dictAddRaw d k = (AddRawResult.created e, d') := by
        simp [dictAddRaw, hres]
      obtain ⟨he, hperm', hnone⟩ := hcreated e rfl
      have hkey : e.key = k := by rw [he]
      have hmem' : e ∈ entriesOf d' := by
        rw [he]
        exact hperm'.symm.mem_iff.mp (List.mem_cons_self _ _)
      rw [hr, hraw]
      refine ⟨hkey, hmem', ?_, ?_, rfl, ?_⟩
      · intro ⟨e', hm', hk'⟩
        exact absurd hk' (hnone e' hm')
      · intro _
        exact ⟨he, hperm'⟩
      · exact dictAddOrFind_hits hokc hndc hkc' hkd' hmem' hkey

/-- Witness for C6 at a concrete input: adding then re-querying key 7 in a
fresh `Nat`-keyed dict returns the same entry twice. -/
theorem dict_addOrFind_idempotent_witness :
    (dictAddOrFind
        (dictAddOrFind (dictCreate natDictType) 7).2 7).1
      = (dictAddOrFind (dictCreate natDictType) 7).1 :=
  (dict_addOrFind_idempotent (d := dictCreate natDictType)
    (by unfold DictOk HtOk; decide) (by unfold KeysNodup; decide)
    rfl rfl 7).2.2.2.2.2

end AddOrFind

section AddSpec

variable {K V : Type} [DecidableEq K] [DecidableEq V]

theorem dictExpandIfNeeded_rehashing {d : Dict K V}
    (h : dictIsRehashing d = true) : dictExpandIfNeeded d = d := by
  unfold dictExpandIfNeeded
  rw [if_pos h]

theorem dictExpandIfNeeded_ht0 {d : Dict K V} (h : d.ht0.size ≠ 0) :
    (dictExpandIfNeeded d).ht0 = d.ht0 := by
  unfold dictExpandIfNeeded
  split_ifs with h1 h2
  · rfl
  · simp only [dictExpand]
    split_ifs with h3 h4 h5 <;> first | rfl | exact absurd (by assumption) h
  · rfl

/-- C2 (amended): with the default key comparison and no key duplicator, on
a well-formed dict with distinct keys, `dictAdd` fails with `KeyExists`
exactly when the key is already stored.  On the failure path the resulting
dict is exactly the state after `dictAdd`'s interleaved migration step and
initial-allocation preamble — the key/value contents are unchanged, but not
necessarily the physical table, since the preamble may migrate a bucket.
On the success path a fresh entry holding the (`keyDup`-image of the) key
and the `valDup`-image of the value is linked at the head of the key's
bucket chain of `table[1]` of the prepared state if a rehash is in
progress, else of `table[0]`. -/
theorem dict_add_keyExists_behavior {d : Dict K V} (hok : DictOk d)
    (hnd : KeysNodup d) (hkc : d.type.keyCompare = none)
    (hkd : d.type.keyDup = none) (k : K) (v : V)
    (d1 : Dict K V) (hd1 : d1 = dictEnsureAllocated (dictRehashStepChecked d)) :
    ((dictAdd d k v).1 = false ↔ ∃ e ∈ entriesOf d, e.key = k) ∧
    ((dictAdd d k v).1 = false →
      (dictAdd d k v).2 = d1 ∧
      (entriesOf (dictAdd d k v).2).Perm (entriesOf d)) ∧
    ((dictAdd d k v).1 = true →
      (∀ e ∈ entriesOf d, e.key ≠ k) ∧
      (entriesOf (dictAdd d k v).2).Perm
        ((⟨dictDupKey d.type k, some (dictDupVal d.type v)⟩ : DEntry K V) ::
          entriesOf d) ∧
      (if dictIsRehashing d1 = true then
        (dictAdd d k v).2.ht1.table
          = d1.ht1.table.set (keyIndex d1.type d1.ht1 k)
              ((⟨dictDupKey d.type k, some (dictDupVal d.type v)⟩ :
                  DEntry K V) ::
                htBucket d1.ht1 (keyIndex d1.type d1.ht1 k))
      else
        (dictAdd d k v).2.ht0.table
          = d1.ht0.table.set (keyIndex d1.type d1.ht0 k)
              ((⟨dictDupKey d.type k, some (dictDupVal d.type v)⟩ :
                  DEntry K V) ::
                htBucket d1.ht0 (keyIndex d1.type d1.ht0 k)))) := by
  subst hd1
  obtain ⟨hokp, hpermp, htypep, hszp⟩ := dictAddPrep_ok hok
  have hkc1 : (dictEnsureAllocated (dictRehashStepChecked d)).type.keyCompare
      = none := by rw [htypep]; exact hkc
  have hdk : dictDupKey d.type k = k := by
    simp [dictDupKey, hkd]
  cases hf : dictFindPure (dictEnsureAllocated (dictRehashStepChecked d)) k with
  | some e0 =>
    have hcore : dictAddCore d k (some (dictDupVal d.type v)) =
        (AddRawResult.found e0,
          dictEnsureAllocated (dictRehashStepChecked d)) := by
      simp only [dictAddCore]
      rw [hf]
    have hadd : dictAdd d k v =
        (false, dictEnsureAllocated (dictRehashStepChecked d)) := by
      simp [dictAdd, hcore]
    obtain ⟨hm1, hcp1⟩ := dictFindPure_some hf
    have hmem : e0 ∈ entriesOf d := hpermp.mem_iff.mp hm1
    have hkey : e0.key = k := by
      simp only [dictCompareKeys, hkc1] at hcp1
      exact (beq_iff_eq.mp hcp1).symm
    rw [hadd]
    refine ⟨?_, ?_, ?_⟩
    · simp only [true_iff]
      exact ⟨e0, hmem, hkey⟩
    · intro _
      exact ⟨rfl, hpermp⟩
    · intro habs
      exact absurd habs (by simp)
  | none =>
    have hnone := dictFindPure_none hokp hkc1 hf
    have hnoneD : ∀ e ∈ entriesOf d, e.key ≠ k := by
      intro e hm
      exact hnone e (hpermp.symm.mem_iff.mp hm)
    by_cases hreh : dictIsRehashing
        (dictEnsureAllocated (dictRehashStepChecked d)) = true
    · have hcore : dictAddCore d k (some (dictDupVal d.type v)) =
          (AddRawResult.created
            ⟨dictDupKey (dictEnsureAllocated (dictRehashStepChecked d)).type k,
              some (dictDupVal d.type v)⟩,
           dictExpandIfNeeded
            { dictEnsureAllocated (dictRehashStepChecked d) with
              ht1 := htAddEntry
                (dictEnsureAllocated (dictRehashStepChecked d)).type
                (dictEnsureAllocated (dictRehashStepChecked d)).ht1 k
                ⟨dictDupKey
                  (dictEnsureAllocated (dictRehashStepChecked d)).type k,
                  some (dictDupVal d.type v)⟩ }) := by
        simp only [dictAddCore]
        rw [hf, if_pos hreh]
      have hadd : dictAdd d k v = (true,
          dictExpandIfNeeded
            { dictEnsureAllocated (dictRehashStepChecked d) with
              ht1 := htAddEntry
                (dictEnsureAllocated (dictRehashStepChecked d)).type
                (dictEnsureAllocated (dictRehashStepChecked d)).ht1 k
                ⟨dictDupKey
                  (dictEnsureAllocated (dictRehashStepChecked d)).type k,
                  some (dictDupVal d.type v)⟩ }) := by
        simp [dictAdd, hcore]
      have hreh2 : dictIsRehashing
          { dictEnsureAllocated (dictRehashStepChecked d) with
            ht1 := htAddEntry
              (dictEnsureAllocated (dictRehashStepChecked d)).type
              (dictEnsureAllocated (dictRehashStepChecked d)).ht1 k
              ⟨dictDupKey
                (dictEnsureAllocated (dictRehashStepChecked d)).type k,
                some (dictDupVal d.type v)⟩ } = true := hreh
      have hexp := dictExpandIfNeeded_rehashing hreh2
      rw [hadd, hexp]
      have hsz1 : (dictEnsureAllocated (dictRehashStepChecked d)).ht1.size
          ≠ 0 := by
        have hr := hokp.2.2.1
        rcases hr with hr | ⟨_, _, hs⟩
        · exfalso
          unfold dictIsRehashing at hreh
          rw [hr] at hreh
          simp at hreh
        · exact hs
      have hperm2 := (htAddEntry_ok hokp.2.1 hsz1
        (k := k)
        (e := ⟨dictDupKey
          (dictEnsureAllocated (dictRehashStepChecked d)).type k,
          some (dictDupVal d.type v)⟩)
        (by rw [htypep, hdk])).2
      refine ⟨?_, ?_, ?_⟩
      · constructor
        · intro habs
          exact absurd habs (by simp)
        · intro hexi
          obtain ⟨e, hm, hkeq⟩ := hexi
          exact absurd hkeq (hnoneD e hm)
      · intro habs
        exact absurd habs (by simp)
      · intro _
        refine ⟨hnoneD, ?_, ?_⟩
        · show (htEntries _ ++ htEntries _).Perm _
          have hstep := (List.Perm.append_left
            (htEntries (dictEnsureAllocated (dictRehashStepChecked d)).ht0)
            hperm2).trans List.perm_middle
          refine hstep.trans ?_
          rw [htypep]
          exact hpermp.cons _
        · rw [if_pos hreh]
          show (htAddEntry _ _ k _).table = _
          simp only [htAddEntry, keyIndex, htypep]
    · have hrehF : dictIsRehashing
          (dictEnsureAllocated (dictRehashStepChecked d)) = false := by
        simpa using hreh
      have hcore : dictAddCore d k (some (dictDupVal d.type v)) =
          (AddRawResult.created
            ⟨dictDupKey (dictEnsureAllocated (dictRehashStepChecked d)).type k,
              some (dictDupVal d.type v)⟩,
           dictExpandIfNeeded
            { dictEnsureAllocated (dictRehashStepChecked d) with
              ht0 := htAddEntry
                (dictEnsureAllocated (dictRehashStepChecked d)).type
                (dictEnsureAllocated (dictRehashStepChecked d)).ht0 k
                ⟨dictDupKey
                  (dictEnsureAllocated (dictRehashStepChecked d)).type k,
                  some (dictDupVal d.type v)⟩ }) := by
        simp only [dictAddCore]
        rw [hf, if_neg hreh]
      have hadd : dictAdd d k v = (true,
          dictExpandIfNeeded
            { dictEnsureAllocated (dictRehashStepChecked d) with
              ht0 := htAddEntry
                (dictEnsureAllocated (dictRehashStepChecked d)).type
                (dictEnsureAllocated (dictRehashStepChecked d)).ht0 k
                ⟨dictDupKey
                  (dictEnsureAllocated (dictRehashStepChecked d)).type k,
                  some (dictDupVal d.type v)⟩ }) := by
        simp [dictAdd, hcore]
      have hne : (dictEnsureAllocated (dictRehashStepChecked d)).rehashidx
          = -1 := by
        unfold dictIsRehashing at hrehF
        simpa using hrehF
      obtain ⟨hokAdd, hperm2⟩ := htAddEntry_ok hokp.1 hszp
        (k := k)
        (e := ⟨dictDupKey
          (dictEnsureAllocated (dictRehashStepChecked d)).type k,
          some (dictDupVal d.type v)⟩)
        (by rw [htypep, hdk])
      have hokD2 : DictOk
          { dictEnsureAllocated (dictRehashStepChecked d) with
            ht0 := htAddEntry
              (dictEnsureAllocated (dictRehashStepChecked d)).type
              (dictEnsureAllocated (dictRehashStepChecked d)).ht0 k
              ⟨dictDupKey
                (dictEnsureAllocated (dictRehashStepChecked d)).type k,
                some (dictDupVal d.type v)⟩ } :=
        dictOk_set_ht0_norehash hokp hne hokAdd
      obtain ⟨_, hpermE, _⟩ := dictExpandIfNeeded_ok hokD2
      have hszAdd : (htAddEntry
          (dictEnsureAllocated (dictRehashStepChecked d)).type
          (dictEnsureAllocated (dictRehashStepChecked d)).ht0 k
          ⟨dictDupKey
            (dictEnsureAllocated (dictRehashStepChecked d)).type k,
            some (dictDupVal d.type v)⟩).size
          = (dictEnsureAllocated (dictRehashStepChecked d)).ht0.size := rfl
      have htable := dictExpandIfNeeded_ht0
        (d := { dictEnsureAllocated (dictRehashStepChecked d) with
          ht0 := htAddEntry
            (dictEnsureAllocated (dictRehashStepChecked d)).type
            (dictEnsureAllocated (dictRehashStepChecked d)).ht0 k
            ⟨dictDupKey
              (dictEnsureAllocated (dictRehashStepChecked d)).type k,
              some (dictDupVal d.type v)⟩ })
        (by show (htAddEntry _ _ _ _).size ≠ 0
            rw [hszAdd]
            exact hszp)
      rw [hadd]
      refine ⟨?_, ?_, ?_⟩
      · constructor
        · intro habs
          exact absurd habs (by simp)
        · intro hexi
          obtain ⟨e, hm, hkeq⟩ := hexi
          exact absurd hkeq (hnoneD e hm)
      · intro habs
        exact absurd habs (by simp)
      · intro _
        refine ⟨hnoneD, ?_, ?_⟩
        · refine hpermE.trans ?_
          show (htEntries _ ++ htEntries _).Perm _
          have hstep := (List.Perm.append_right
            (htEntries (dictEnsureAllocated (dictRehashStepChecked d)).ht1)
            hperm2)
          refine hstep.trans ?_
          rw [htypep]
          exact hpermp.cons _
        · rw [if_neg hreh, htable]
          show (htAddEntry _ _ k _).table = _
          simp only [htAddEntry, keyIndex, htypep]

/-- Witness for C2 at a concrete input: adding key 3 to a fresh `Nat`-keyed
dict succeeds and conses the entry `(3, 9)` onto the contents. -/
theorem dict_add_keyExists_behavior_witness :
    (dictAdd (dictCreate natDictType) 3 9).1 = true ∧
    (entriesOf (dictAdd (dictCreate natDictType) 3 9).2).Perm
      ((⟨3, some 9⟩ : DEntry Nat Nat) ::
        entriesOf (dictCreate natDictType)) := by
  have h := dict_add_keyExists_behavior (d := dictCreate natDictType)
    (by unfold DictOk HtOk; decide) (by unfold KeysNodup; decide)
    rfl rfl 3 9 _ rfl
  have h1 : (dictAdd (dictCreate natDictType) 3 9).1 = true := by decide
  exact ⟨h1, (h.2.2 h1).2.1⟩

/-- Counterexample to C2 as stated: on a rehashing dict holding key 0,
`dictAdd` with key 0 does return the `KeyExists` error, but the table is
NOT left unchanged — dict mutators interleave one migration step first
(spec §4.3), which here empties `table[0]`'s bucket 0 into `table[1]`. -/
theorem dict_add_table_changed_counterexample :
    (dictAdd
      (⟨natDictType, ⟨[[⟨0, some 5⟩], [], [], []], 4, 3, 1⟩,
        freshHt Nat Nat 8, 0, 0, true⟩ : Dict Nat Nat) 0 99).1 = false ∧
    (dictAdd
      (⟨natDictType, ⟨[[⟨0, some 5⟩], [], [], []], 4, 3, 1⟩,
        freshHt Nat Nat 8, 0, 0, true⟩ : Dict Nat Nat) 0 99).2.ht0
      ≠ (⟨natDictType, ⟨[[⟨0, some 5⟩], [], [], []], 4, 3, 1⟩,
        freshHt Nat Nat 8, 0, 0, true⟩ : Dict Nat Nat).ht0 := by
  decide

end AddSpec

section Roundtrip

variable {K V : Type} [DecidableEq K] [DecidableEq V]

/-- The add/delete operations C1's sequence ranges over. -/
inductive ADOp (K V : Type) where
  | add (k : K) (v : V)
  | del (k : K)

/-- Run one add/delete against the dict. -/
def adApply (d : Dict K V) : ADOp K V → Dict K V
  | .add k v => (dictAdd d k v).2
  | .del k => (dictDelete d k).2

/-- Run the whole sequence against the dict. -/
def adRun (d : Dict K V) (ops : List (ADOp K V)) : Dict K V :=
  ops.foldl adApply d

/-- Modelled from the spec's words (the C1 comparison model): the
association-list effect of one operation — an add records the key/value
pair, a delete erases the pair holding the key. -/
def specApply (m : List (K × V)) : ADOp K V → List (K × V)
  | .add k v => (k, v) :: m
  | .del k => m.eraseP (fun p => p.1 == k)

/-- Modelled from the spec's words: the association-list effect of the
whole sequence. -/
def specRun (m : List (K × V)) (ops : List (ADOp K V)) : List (K × V) :=
  ops.foldl specApply m

/-- "No duplicate adds": every add's key is absent at the time of the
add. -/
def adValid : List (K × V) → List (ADOp K V) → Bool
  | _, [] => true
  | m, op :: rest =>
    (match op with
     | .add k _ => (m.find? (fun p => p.1 == k)).isNone
     | .del _ => true) && adValid (specApply m op) rest

/-- View a recorded pair as the stored entry it corresponds to. -/
def entryOfPair (p : K × V) : DEntry K V := ⟨p.1, some p.2⟩

theorem eraseP_map_erase {m : List (K × V)}
    (hnd : (m.map Prod.fst).Nodup) {p : K × V}
    (hfind : m.find? (fun q => q.1 == p.1) = some p) :
    (m.eraseP (fun q => q.1 == p.1)).map (entryOfPair (V := V))
      = (m.map entryOfPair).erase (entryOfPair p) := by
  induction m with
  | nil => simp at hfind
  | cons a m ih =>
    by_cases ha : a.1 = p.1
    · have hpa : a = p := by
        rw [List.find?_cons_of_pos] at hfind
        · exact Option.some_injective _ hfind
        · simp [ha]
      have herase : ((a :: m).map (entryOfPair (V := V))).erase (entryOfPair p)
          = m.map entryOfPair := by
        rw [List.map_cons, hpa, List.erase_cons_head]
      rw [herase]
      have heP : (a :: m).eraseP (fun q => q.1 == p.1) = m := by
        rw [List.eraseP_cons_of_pos]
        simp [ha]
      rw [heP]
    · have hfind' : m.find? (fun q => q.1 == p.1) = some p := by
        rw [List.find?_cons_of_neg] at hfind
        · exact hfind
        · simp [ha]
      have hne : entryOfPair (V := V) a ≠ entryOfPair p := by
        intro hh
        exact ha (congrArg DEntry.key hh)
      have heP : (a :: m).eraseP (fun q => q.1 == p.1)
          = a :: m.eraseP (fun q => q.1 == p.1) := by
        rw [List.eraseP_cons_of_neg]
        simp [ha]
      rw [heP, List.map_cons, List.map_cons,
        List.erase_cons_tail, ih (List.nodup_cons.mp hnd).2 hfind']
      simp [hne]
  
end Roundtrip

section RoundtripInv

variable {K V : Type} [DecidableEq K] [DecidableEq V]

theorem adRun_inv {t : DictType K V} (hkc : t.keyCompare = none)
    (hkd : t.keyDup = none) (hvd : t.valDup = none) :
    ∀ (ops : List (ADOp K V)) (d : Dict K V) (m : List (K × V)),
      d.type = t → DictOk d → KeysNodup d →
      (entriesOf d).Perm (m.map entryOfPair) →
      (m.map Prod.fst).Nodup →
      adValid m ops = true →
      (adRun d ops).type = t ∧ DictOk (adRun d ops) ∧
      KeysNodup (adRun d ops) ∧
      (entriesOf (adRun d ops)).Perm ((specRun m ops).map entryOfPair) ∧
      ((specRun m ops).map Prod.fst).Nodup := by
  intro ops
  induction ops with
  | nil =>
    intro d m htype hok hnd hperm hmnd _
    exact ⟨htype, hok, hnd, hperm, hmnd⟩
  | cons op rest ih =>
    intro d m htype hok hnd hperm hmnd hv
    have hkc' : d.type.keyCompare = none := by rw [htype]; exact hkc
    have hkd' : d.type.keyDup = none := by rw [htype]; exact hkd
    cases op with
    | add k v =>
      have hv' : ((m.find? (fun p => p.1 == k)).isNone
          && adValid ((k, v) :: m) rest) = true := hv
      rw [Bool.and_eq_true] at hv'
      obtain ⟨hv1, hv2⟩ := hv'
      have hknotin : ∀ q ∈ m, ¬((q.1 == k) = true) :=
        List.find?_eq_none.mp (Option.isNone_iff_eq_none.mp hv1)
      have hknotinD : ∀ e ∈ entriesOf d, e.key ≠ k := by
        intro e he hek
        have hmm : e ∈ m.map (entryOfPair (V := V)) := hperm.mem_iff.mp he
        obtain ⟨q, hq, hqe⟩ := List.mem_map.mp hmm
        apply hknotin q hq
        rw [beq_iff_eq]
        rw [← hqe] at hek
        exact hek
      obtain ⟨htypeC, hokC, hndC, hfoundC, hcreatedC, hiffC⟩ :=
        dictAddCore_ok hok hnd hkc' hkd' k (some (dictDupVal d.type v))
      cases hres : dictAddCore d k (some (dictDupVal d.type v)) with
      | mk res d' =>
        rw [hres] at htypeC hokC hndC hfoundC hcreatedC hiffC
        cases res with
        | found e =>
          exfalso
          obtain ⟨e', he', hke'⟩ := hiffC.mp ⟨e, rfl⟩
          exact hknotinD e' he' hke'
        | created e =>
          obtain ⟨_, hpermC, _⟩ := hcreatedC e rfl
          have hstep : adApply d (ADOp.add k v) = d' := by
            simp [adApply, dictAdd, hres]
          have hval : dictDupVal d.type v = v := by
            simp [dictDupVal, htype, hvd]
          have hperm' : (entriesOf d').Perm
              (((k, v) :: m).map (entryOfPair (V := V))) := by
            refine hpermC.trans ?_
            rw [hval, List.map_cons]
            exact hperm.cons _
          have hmnd' : (((k, v) :: m).map Prod.fst).Nodup := by
            rw [List.map_cons]
            refine List.nodup_cons.mpr ⟨?_, hmnd⟩
            intro hkm
            obtain ⟨q, hq, hqk⟩ := List.mem_map.mp hkm
            exact hknotin q hq (beq_iff_eq.mpr hqk)
          have hrun : adRun d (ADOp.add k v :: rest) = adRun d' rest := by
            simp only [adRun, List.foldl_cons]
            rw [hstep]
          have hspec : specRun m (ADOp.add k v :: rest)
              = specRun ((k, v) :: m) rest := rfl
          rw [hrun, hspec]
          exact ih d' ((k, v) :: m) (htypeC.trans htype) hokC hndC
            hperm' hmnd' hv2
    | del k =>
      have hv' : (true && adValid (m.eraseP (fun p => p.1 == k)) rest)
          = true := hv
      rw [Bool.true_and] at hv'
      obtain ⟨htypeD, hokD, hndD, htrue, hfalse⟩ := dictDelete_ok hok hnd hkc' k
      have hstep : adApply d (ADOp.del k) = (dictDelete d k).2 := rfl
      have hrun : adRun d (ADOp.del k :: rest)
          = adRun (dictDelete d k).2 rest := rfl
      have hspec : specRun m (ADOp.del k :: rest)
          = specRun (m.eraseP (fun p => p.1 == k)) rest := rfl
      rw [hrun, hspec]
      cases hfind : m.find? (fun q => q.1 == k) with
      | none =>
        have hnok : ∀ q ∈ m, ¬((q.1 == k) = true) :=
          List.find?_eq_none.mp hfind
        have hnoD : ∀ e ∈ entriesOf d, e.key ≠ k := by
          intro e he hek
          have hmm : e ∈ m.map (entryOfPair (V := V)) := hperm.mem_iff.mp he
          obtain ⟨q, hq, hqe⟩ := List.mem_map.mp hmm
          apply hnok q hq
          rw [beq_iff_eq]
          rw [← hqe] at hek
          exact hek
        cases hb : (dictDelete d k).1 with
        | true =>
          exfalso
          obtain ⟨er, hker, hermem, _⟩ := htrue hb
          exact hnoD er hermem hker
        | false =>
          obtain ⟨hpermF, _⟩ := hfalse hb
          have heP : m.eraseP (fun p => p.1 == k) = m :=
            List.eraseP_of_forall_not hnok
          rw [heP]
          rw [heP] at hv'
          exact ih (dictDelete d k).2 m (htypeD.trans htype) hokD hndD
            (hpermF.trans hperm) hmnd hv'
      | some p =>
        have hp1 : p.1 = k := by
          have hs := List.find?_some hfind
          simpa using hs
        have hpmem : p ∈ m := List.mem_of_find?_eq_some hfind
        have hfdmem : entryOfPair (V := V) p ∈ entriesOf d :=
          hperm.mem_iff.mpr (List.mem_map_of_mem _ hpmem)
        cases hb : (dictDelete d k).1 with
        | false =>
          exfalso
          have hek : (entryOfPair (V := V) p).key = k := hp1
          exact (hfalse hb).2 _ hfdmem hek
        | true =>
          obtain ⟨er, hker, hermem, hpermT⟩ := htrue hb
          have hermm : er ∈ m.map (entryOfPair (V := V)) :=
            hperm.mem_iff.mp hermem
          obtain ⟨q, hq, hqe⟩ := List.mem_map.mp hermm
          have hq1 : q.1 = p.1 := by
            rw [hp1]
            rw [← hker, ← hqe]
            rfl
          have hqp : q = p := List.inj_on_of_nodup_map hmnd hq hpmem hq1
          have herp : er = entryOfPair p := by rw [← hqe, hqp]
          have hpermE : (entriesOf (dictDelete d k).2).Perm
              ((m.eraseP (fun q => q.1 == k)).map (entryOfPair (V := V))) := by
            have h1 : ((er :: entriesOf (dictDelete d k).2).erase er).Perm
                ((entriesOf d).erase er) := (hpermT.erase er).symm
            rw [List.erase_cons_head] at h1
            refine h1.trans ?_
            refine (hperm.erase er).trans ?_
            rw [herp]
            rw [show (fun q : K × V => q.1 == k) = (fun q => q.1 == p.1) by
              rw [hp1]]
            rw [eraseP_map_erase hmnd]
            rw [← hp1] at hfind
            exact hfind
          have hmnd' : ((m.eraseP (fun q => q.1 == k)).map Prod.fst).Nodup :=
            ((List.eraseP_sublist m).map Prod.fst).nodup hmnd
          exact ih (dictDelete d k).2 (m.eraseP (fun q => q.1 == k))
            (htypeD.trans htype) hokD hndD hpermE hmnd' hv'

end RoundtripInv

section RoundtripMain

variable {K V : Type} [DecidableEq K] [DecidableEq V]

theorem dictOk_create (t : DictType K V) : DictOk (dictCreate t) := by
  refine ⟨htOk_empty t, htOk_empty t, Or.inl rfl, fun _ => rfl, ?_⟩
  intro i hi
  have hi' : i < ((-1 : Int)).toNat := hi
  rw [show ((-1 : Int)).toNat = 0 from rfl] at hi'
  exact absurd hi' (Nat.not_lt_zero i)

/-- C1: starting from `dictCreate`, after any sequence of add and delete
operations with no duplicate adds (each add's key absent at the time), a
`dictFind` on any key returns exactly the entry holding the last value
written for that key when it is still present, and a miss for every key
that was removed or never added — stated as agreement with the
association-list model `specRun`, whose `find?` is precisely that
last-written value. -/
theorem dict_roundtrip {t : DictType K V} (hkc : t.keyCompare = none)
    (hkd : t.keyDup = none) (hvd : t.valDup = none)
    (ops : List (ADOp K V)) (hv : adValid [] ops = true) (k : K) :
    (dictFind (adRun (dictCreate t) ops) k).1
      = ((specRun [] ops).find? (fun p => p.1 == k)).map entryOfPair := by
  obtain ⟨htypeF, hokF, hndF, hpermF, hmndF⟩ :=
    adRun_inv hkc hkd hvd ops (dictCreate t) [] rfl (dictOk_create t)
      (by simp [KeysNodup, entriesOf, htEntries, dictCreate, emptyHt])
      (by simp [entriesOf, htEntries, dictCreate, emptyHt])
      (by simp) hv
  by_cases hsz : dictSize (adRun (dictCreate t) ops) = 0
  · have hres : dictFind (adRun (dictCreate t) ops) k
        = (none, adRun (dictCreate t) ops) := by
      unfold dictFind
      rw [if_pos hsz]
    rw [hres]
    have hlen := dictSize_eq_length hokF.1 hokF.2.1
    rw [hsz] at hlen
    have hnil : entriesOf (adRun (dictCreate t) ops) = [] :=
      List.eq_nil_of_length_eq_zero hlen.symm
    rw [hnil] at hpermF
    have hmap : (specRun [] ops).map (entryOfPair (V := V)) = [] :=
      hpermF.symm.eq_nil
    have hmnil : specRun ([] : List (K × V)) ops = [] :=
      List.map_eq_nil_iff.mp hmap
    rw [hmnil]
    rfl
  · have hres : dictFind (adRun (dictCreate t) ops) k
        = (dictFindPure (dictRehashStepChecked (adRun (dictCreate t) ops)) k,
           dictRehashStepChecked (adRun (dictCreate t) ops)) := by
      unfold dictFind
      rw [if_neg hsz]
    rw [hres]
    obtain ⟨hok1, hperm1, htype1⟩ := dictRehashStepChecked_ok hokF
    have hkc1 : (dictRehashStepChecked
        (adRun (dictCreate t) ops)).type.keyCompare = none := by
      rw [htype1, htypeF]
      exact hkc
    have hnd1 : KeysNodup (dictRehashStepChecked (adRun (dictCreate t) ops)) :=
      keysNodup_of_perm hperm1 hndF
    have hpermAll : (entriesOf (dictRehashStepChecked
        (adRun (dictCreate t) ops))).Perm
        ((specRun [] ops).map (entryOfPair (V := V))) := hperm1.trans hpermF
    cases hfind : (specRun ([] : List (K × V)) ops).find?
        (fun p => p.1 == k) with
    | none =>
      have hno : ∀ e ∈ entriesOf (dictRehashStepChecked
          (adRun (dictCreate t) ops)), e.key ≠ k := by
        intro e he hek
        have hmm : e ∈ (specRun ([] : List (K × V)) ops).map
            (entryOfPair (V := V)) := hpermAll.mem_iff.mp he
        obtain ⟨q, hq, hqe⟩ := List.mem_map.mp hmm
        apply List.find?_eq_none.mp hfind q hq
        rw [beq_iff_eq]
        rw [← hqe] at hek
        exact hek
      have hnotsome : ¬ (dictFindPure (dictRehashStepChecked
          (adRun (dictCreate t) ops)) k).isSome = true := by
        intro hs
        obtain ⟨e, he, hek⟩ :=
          (dictFindPure_isSome_iff hok1 hkc1 hnd1 k).mp hs
        exact hno e he hek
      rw [Option.not_isSome_iff_eq_none.mp hnotsome]
      rfl
    | some p =>
      have hp1 : p.1 = k := by
        have hs := List.find?_some hfind
        simpa using hs
      have hpmem : p ∈ specRun ([] : List (K × V)) ops :=
        List.mem_of_find?_eq_some hfind
      have hfdmem : entryOfPair (V := V) p ∈ entriesOf
          (dictRehashStepChecked (adRun (dictCreate t) ops)) :=
        hpermAll.mem_iff.mpr (List.mem_map_of_mem _ hpmem)
      have hs : (dictFindPure (dictRehashStepChecked
          (adRun (dictCreate t) ops)) k).isSome = true :=
        (dictFindPure_isSome_iff hok1 hkc1 hnd1 k).mpr
          ⟨entryOfPair p, hfdmem, hp1⟩
      obtain ⟨e, he⟩ := Option.isSome_iff_exists.mp hs
      obtain ⟨hmem, hcp⟩ := dictFindPure_some he
      have hek : e.key = k := by
        simp only [dictCompareKeys, hkc1] at hcp
        exact (beq_iff_eq.mp hcp).symm
      have hnd1' : ((entriesOf (dictRehashStepChecked
          (adRun (dictCreate t) ops))).map (fun e => e.key)).Nodup := hnd1
      have hep : e = entryOfPair p :=
        entries_key_unique hnd1' hmem hfdmem
          (by simp [entryOfPair, hek, hp1])
      rw [he, hep]
      rfl

/-- Witness for C1 at a concrete input: after adding keys 1 and 2 and
deleting key 1, find misses key 1 exactly as the association-list model
predicts. -/
theorem dict_roundtrip_witness :
    (dictFind (adRun (dictCreate natDictType)
        [ADOp.add 1 10, ADOp.add 2 20, ADOp.del 1]) 1).1
      = ((specRun [] [ADOp.add 1 10, ADOp.add 2 20, ADOp.del 1]).find?
          (fun p => p.1 == 1)).map entryOfPair :=
  dict_roundtrip rfl rfl rfl _ (by decide) 1

end RoundtripMain

section PauseDefs

variable {K V : Type} [DecidableEq K] [DecidableEq V]

/-- The rehash cursor never advances: it either stays put or is freshly
initialised from the idle value by a growth trigger. -/
def cursorPause (d d' : Dict K V) : Prop :=
  d'.rehashidx = d.rehashidx ∨ (d.rehashidx = -1 ∧ d'.rehashidx = 0)

/-- Every bucket keeps all its entries (new ones may be linked). -/
def bucketGrow (d d' : Dict K V) : Prop :=
  ∀ i, (∀ e ∈ htBucket d.ht0 i, e ∈ htBucket d'.ht0 i) ∧
       (∀ e ∈ htBucket d.ht1 i, e ∈ htBucket d'.ht1 i)

/-- Every key stored in a given table and bucket is, as long as it remains
stored at all, still stored in that same table and bucket. -/
def BucketStable (d d' : Dict K V) : Prop :=
  (∀ i kk, (∃ e ∈ htBucket d.ht0 i, e.key = kk) →
    (∃ e ∈ entriesOf d', e.key = kk) →
    ∃ e ∈ htBucket d'.ht0 i, e.key = kk) ∧
  (∀ i kk, (∃ e ∈ htBucket d.ht1 i, e.key = kk) →
    (∃ e ∈ entriesOf d', e.key = kk) →
    ∃ e ∈ htBucket d'.ht1 i, e.key = kk)

theorem cursorPause_refl (d : Dict K V) : cursorPause d d := Or.inl rfl

theorem cursorPause_trans {a b c : Dict K V} (h1 : cursorPause a b)
    (h2 : cursorPause b c) : cursorPause a c := by
  rcases h1 with h1 | ⟨h1a, h1b⟩ <;> rcases h2 with h2 | ⟨h2a, h2b⟩
  · exact Or.inl (h2.trans h1)
  · refine Or.inr ⟨?_, h2b⟩
    rw [← h1]
    exact h2a
  · exact Or.inr ⟨h1a, h2.trans h1b⟩
  · rw [h1b] at h2a
    exact absurd h2a (by decide)

theorem bucketGrow_refl (d : Dict K V) : bucketGrow d d :=
  fun _ => ⟨fun _ he => he, fun _ he => he⟩

theorem bucketGrow_trans {a b c : Dict K V} (h1 : bucketGrow a b)
    (h2 : bucketGrow b c) : bucketGrow a c :=
  fun i => ⟨fun e he => (h2 i).1 e ((h1 i).1 e he),
            fun e he => (h2 i).2 e ((h1 i).2 e he)⟩

theorem bucketStable_of_grow {d d' : Dict K V} (h : bucketGrow d d') :
    BucketStable d d' := by
  constructor
  · intro i kk hex _
    obtain ⟨e, he, hk⟩ := hex
    exact ⟨e, (h i).1 e he, hk⟩
  · intro i kk hex _
    obtain ⟨e, he, hk⟩ := hex
    exact ⟨e, (h i).2 e he, hk⟩

theorem bucketStable_comp {a b c : Dict K V} (h1 : bucketGrow a b)
    (h2 : BucketStable b c) : BucketStable a c := by
  constructor
  · intro i kk hex hpres
    obtain ⟨e, he, hk⟩ := hex
    exact h2.1 i kk ⟨e, (h1 i).1 e he, hk⟩ hpres
  · intro i kk hex hpres
    obtain ⟨e, he, hk⟩ := hex
    exact h2.2 i kk ⟨e, (h1 i).2 e he, hk⟩ hpres

theorem stepChecked_skip {d : Dict K V} (hit : 0 < d.iterators) :
    dictRehashStepChecked d = d := by
  unfold dictRehashStepChecked
  rw [if_neg (by omega)]

theorem htBucket_of_table_nil {ht : Dictht K V} (h : ht.table = [])
    (i : Nat) : htBucket ht i = [] := by
  simp [htBucket, h]

theorem dictExpand_pause {d : Dict K V}
    (hlen0 : d.ht0.table.length = d.ht0.size)
    (hht1 : d.rehashidx = -1 → d.ht1.table = []) (n : Nat) :
    cursorPause d (dictExpand d n).2 ∧ bucketGrow d (dictExpand d n).2 := by
  simp only [dictExpand]
  split_ifs with h1 h2 h3
  · exact ⟨cursorPause_refl d, bucketGrow_refl d⟩
  · exact ⟨cursorPause_refl d, bucketGrow_refl d⟩
  · refine ⟨Or.inl rfl, ?_⟩
    intro i
    constructor
    · intro e he
      exfalso
      have htab : d.ht0.table = [] := by
        apply List.eq_nil_of_length_eq_zero
        rw [hlen0, h3]
      rw [htBucket_of_table_nil htab] at he
      exact absurd he (List.not_mem_nil e)
    · intro e he
      exact he
  · have hnr : d.rehashidx = -1 := by
      have hb : dictIsRehashing d = false := by
        cases hb : dictIsRehashing d
        · rfl
        · exact absurd (Or.inl hb) h1
      unfold dictIsRehashing at hb
      simpa using hb
    refine ⟨Or.inr ⟨hnr, rfl⟩, ?_⟩
    intro i
    constructor
    · intro e he
      exact he
    · intro e he
      exfalso
      rw [htBucket_of_table_nil (hht1 hnr)] at he
      exact absurd he (List.not_mem_nil e)

theorem dictExpandIfNeeded_pause {d : Dict K V}
    (hlen0 : d.ht0.table.length = d.ht0.size)
    (hht1 : d.rehashidx = -1 → d.ht1.table = []) :
    cursorPause d (dictExpandIfNeeded d) ∧
    bucketGrow d (dictExpandIfNeeded d) := by
  unfold dictExpandIfNeeded
  split_ifs with h1 h2
  · exact ⟨cursorPause_refl d, bucketGrow_refl d⟩
  · exact dictExpand_pause hlen0 hht1 _
  · exact ⟨cursorPause_refl d, bucketGrow_refl d⟩

theorem dictEnsureAllocated_pause {d : Dict K V}
    (hlen0 : d.ht0.table.length = d.ht0.size)
    (hht1 : d.rehashidx = -1 → d.ht1.table = []) :
    cursorPause d (dictEnsureAllocated d) ∧
    bucketGrow d (dictEnsureAllocated d) := by
  unfold dictEnsureAllocated
  split_ifs with h1
  · exact dictExpand_pause hlen0 hht1 _
  · exact ⟨cursorPause_refl d, bucketGrow_refl d⟩

theorem dictOk_table_facts {d : Dict K V} (hok : DictOk d) :
    d.ht0.table.length = d.ht0.size ∧
    (d.rehashidx = -1 → d.ht1.table = []) := by
  refine ⟨hok.1.1, ?_⟩
  intro hr
  apply List.eq_nil_of_length_eq_zero
  rw [hok.2.1.1, hok.2.2.2.1 hr]

theorem htAddEntry_grow (t : DictType K V) (ht : Dictht K V) (k : K)
    (e : DEntry K V) :
    ∀ i, ∀ x ∈ htBucket ht i, x ∈ htBucket (htAddEntry t ht k e) i := by
  intro i x hx
  by_cases hij : t.hashFunction k &&& ht.sizemask = i
  · by_cases hlt : i < ht.table.length
    · have hb : htBucket (htAddEntry t ht k e) i
          = e :: htBucket ht i := by
        simp only [htAddEntry, htBucket]
        rw [← hij] at hlt ⊢
        exact getD_set_self _ hlt _ _
      rw [hb]
      exact List.mem_cons_of_mem _ hx
    · exfalso
      exact hlt (htBucket_mem_lt hx)
  · have hb : htBucket (htAddEntry t ht k e) i = htBucket ht i := by
      simp only [htAddEntry, htBucket]
      exact getD_set_ne _ hij _ _
    rw [hb]
    exact hx

end PauseDefs

section PauseCore

variable {K V : Type} [DecidableEq K] [DecidableEq V]

theorem chainRemove_split {t : DictType K V} {k : K} :
    ∀ {chain : List (DEntry K V)} {er : DEntry K V}
      {g : List (DEntry K V)},
      chainRemove t k chain = some (er, g) →
      ∃ pre suf, chain = pre ++ er :: suf ∧ g = pre ++ suf := by
  intro chain
  induction chain with
  | nil =>
    intro er g h
    simp [chainRemove] at h
  | cons a rest ih =>
    intro er g h
    by_cases hc : dictCompareKeys t k a.key
    · rw [chainRemove, if_pos hc] at h
      simp only [Option.some.injEq, Prod.mk.injEq] at h
      obtain ⟨h1, h2⟩ := h
      refine ⟨[], rest, ?_, ?_⟩
      · rw [← h1]
        rfl
      · rw [← h2]
        rfl
    · have hcf : dictCompareKeys t k a.key = false := by simpa using hc
      rw [chainRemove, if_neg (by simp [hcf])] at h
      cases hr : chainRemove t k rest with
      | none =>
        rw [hr] at h
        simp at h
      | some p =>
        obtain ⟨e2, rest2⟩ := p
        rw [hr] at h
        simp only [Option.some.injEq, Prod.mk.injEq] at h
        obtain ⟨h1, h2⟩ := h
        obtain ⟨pre, suf, hch, hgg⟩ := ih hr
        refine ⟨a :: pre, suf, ?_, ?_⟩
        · rw [List.cons_append, hch, h1]
        · rw [← h2, hgg, List.cons_append]
  
theorem chainSetVal_split (t : DictType K V) (k : K) (v : V) :
    ∀ chain : List (DEntry K V),
      chainSetVal t k v chain = chain ∨
      ∃ pre er suf, chain = pre ++ er :: suf ∧
        chainSetVal t k v chain = pre ++ dictSetVal t er v :: suf := by
  intro chain
  induction chain with
  | nil => exact Or.inl rfl
  | cons a rest ih =>
    by_cases hc : dictCompareKeys t k a.key
    · refine Or.inr ⟨[], a, rest, rfl, ?_⟩
      rw [chainSetVal, if_pos hc]
      rfl
    · rcases ih with hsame | ⟨pre, er, suf, hch, heq⟩
      · refine Or.inl ?_
        rw [chainSetVal, if_neg hc, hsame]
      · refine Or.inr ⟨a :: pre, er, suf, ?_, ?_⟩
        · rw [List.cons_append, ← hch]
        · rw [chainSetVal, if_neg hc, heq]
          rfl

theorem dictSetValAt_cursor (d : Dict K V) (k : K) (v : V) :
    (dictSetValAt d k v).rehashidx = d.rehashidx := by
  simp only [dictSetValAt]
  split_ifs <;> rfl

theorem setVal_bucket_keeps (t : DictType K V) (k : K) (v : V)
    (ht : Dictht K V) (j i : Nat) (kk : K)
    (hex : ∃ e ∈ htBucket ht i, e.key = kk) :
    ∃ e ∈ htBucket
      (⟨ht.table.set j (chainSetVal t k v (htBucket ht j)),
        ht.size, ht.sizemask, ht.used⟩ : Dictht K V) i, e.key = kk := by
  obtain ⟨e, he, hk⟩ := hex
  by_cases hij : j = i
  · subst hij
    have hlt : j < ht.table.length := htBucket_mem_lt he
    have hb : htBucket
        (⟨ht.table.set j (chainSetVal t k v (htBucket ht j)),
          ht.size, ht.sizemask, ht.used⟩ : Dictht K V) j
        = chainSetVal t k v (htBucket ht j) := by
      show (ht.table.set j _).getD j [] = _
      exact getD_set_self _ hlt _ _
    rw [hb]
    rcases chainSetVal_split t k v (htBucket ht j) with hsame |
      ⟨pre, er, suf, hch, heq⟩
    · rw [hsame]
      exact ⟨e, he, hk⟩
    · rw [heq]
      rw [hch] at he
      rcases List.mem_append.mp he with hpre | hrest
      · exact ⟨e, List.mem_append_left _ hpre, hk⟩
      · rcases List.mem_cons.mp hrest with herq | hsuf
        · refine ⟨dictSetVal t er v, ?_, ?_⟩
          · exact List.mem_append_right _ (List.mem_cons_self _ _)
          · show er.key = kk
            rw [← hk, herq]
        · exact ⟨e, List.mem_append_right _
            (List.mem_cons_of_mem _ hsuf), hk⟩
  · have hb : htBucket
        (⟨ht.table.set j (chainSetVal t k v (htBucket ht j)),
          ht.size, ht.sizemask, ht.used⟩ : Dictht K V) i
        = htBucket ht i := by
      show (ht.table.set j _).getD i [] = _
      exact getD_set_ne _ hij _ _
    rw [hb]
    exact ⟨e, he, hk⟩

theorem dictSetValAt_stable (d : Dict K V) (k : K) (v : V) :
    BucketStable d (dictSetValAt d k v) := by
  simp only [dictSetValAt]
  split_ifs with h1 h2
  · constructor
    · intro i kk hex _
      exact setVal_bucket_keeps d.type k v d.ht0 _ i kk hex
    · intro i kk hex _
      exact hex
  · constructor
    · intro i kk hex _
      exact hex
    · intro i kk hex _
      exact setVal_bucket_keeps d.type k v d.ht1 _ i kk hex
  · exact bucketStable_of_grow (bucketGrow_refl d)

end PauseCore

section PauseOps

variable {K V : Type} [DecidableEq K] [DecidableEq V]

theorem dictAddCore_pause {d : Dict K V} (hok : DictOk d)
    (hit : 0 < d.iterators) (k : K) (v0 : Option V) :
    cursorPause d (dictAddCore d k v0).2 ∧
    bucketGrow d (dictAddCore d k v0).2 := by
  obtain ⟨hlen0, hht1⟩ := dictOk_table_facts hok
  obtain ⟨hcp1, hbg1⟩ := dictEnsureAllocated_pause hlen0 hht1
  obtain ⟨hok1, _, _⟩ := dictEnsureAllocated_ok hok
  have hstep := stepChecked_skip hit
  simp only [dictAddCore]
  rw [hstep]
  cases hf : dictFindPure (dictEnsureAllocated d) k with
  | some e0 =>
    exact ⟨hcp1, hbg1⟩
  | none =>
    by_cases hreh : dictIsRehashing (dictEnsureAllocated d) = true
    · rw [if_pos hreh]
      have hreh2 : dictIsRehashing
          { dictEnsureAllocated d with
            ht1 := htAddEntry (dictEnsureAllocated d).type
              (dictEnsureAllocated d).ht1 k
              ⟨dictDupKey (dictEnsureAllocated d).type k, v0⟩ } = true := hreh
      rw [dictExpandIfNeeded_rehashing hreh2]
      constructor
      · exact hcp1
      · refine bucketGrow_trans hbg1 ?_
        intro i
        constructor
        · intro e he
          exact he
        · intro e he
          exact htAddEntry_grow _ _ _ _ i e he
    · rw [if_neg hreh]
      have hcp2 : cursorPause (dictEnsureAllocated d)
          { dictEnsureAllocated d with
            ht0 := htAddEntry (dictEnsureAllocated d).type
              (dictEnsureAllocated d).ht0 k
              ⟨dictDupKey (dictEnsureAllocated d).type k, v0⟩ } :=
        Or.inl rfl
      have hbg2 : bucketGrow (dictEnsureAllocated d)
          { dictEnsureAllocated d with
            ht0 := htAddEntry (dictEnsureAllocated d).type
              (dictEnsureAllocated d).ht0 k
              ⟨dictDupKey (dictEnsureAllocated d).type k, v0⟩ } := by
        intro i
        constructor
        · intro e he
          exact htAddEntry_grow _ _ _ _ i e he
        · intro e he
          exact he
      have hlen2 : (htAddEntry (dictEnsureAllocated d).type
          (dictEnsureAllocated d).ht0 k
          ⟨dictDupKey (dictEnsureAllocated d).type k, v0⟩).table.length
          = (htAddEntry (dictEnsureAllocated d).type
            (dictEnsureAllocated d).ht0 k
            ⟨dictDupKey (dictEnsureAllocated d).type k, v0⟩).size := by
        show ((dictEnsureAllocated d).ht0.table.set _ _).length
          = (dictEnsureAllocated d).ht0.size
        rw [List.length_set]
        exact hok1.1.1
      have hht12 : (dictEnsureAllocated d).rehashidx = -1 →
          (dictEnsureAllocated d).ht1.table = [] :=
        (dictOk_table_facts hok1).2
      obtain ⟨hcp3, hbg3⟩ := dictExpandIfNeeded_pause
        (d := { dictEnsureAllocated d with
          ht0 := htAddEntry (dictEnsureAllocated d).type
            (dictEnsureAllocated d).ht0 k
            ⟨dictDupKey (dictEnsureAllocated d).type k, v0⟩ })
        hlen2 hht12
      exact ⟨cursorPause_trans hcp1 (cursorPause_trans hcp2 hcp3),
        bucketGrow_trans hbg1 (bucketGrow_trans hbg2 hbg3)⟩

end PauseOps

section PauseDelete

variable {K V : Type} [DecidableEq K] [DecidableEq V]

theorem keys_disjoint_tables {d : Dict K V} (hnd : KeysNodup d) (kk : K)
    (h0 : kk ∈ (htEntries d.ht0).map (fun x => x.key))
    (h1 : kk ∈ (htEntries d.ht1).map (fun x => x.key)) : False := by
  have hh : ((htEntries d.ht0 ++ htEntries d.ht1).map
      (fun x => x.key)).Nodup := hnd
  rw [List.map_append] at hh
  exact (List.nodup_append.mp hh).2.2 h0 h1

theorem remove_bucket_keeps0 {d : Dict K V} (hok : DictOk d)
    (hnd : KeysNodup d) {k : K} {r : DEntry K V × List (DEntry K V)}
    (hr : chainRemove d.type k
      (htBucket d.ht0 (keyIndex d.type d.ht0 k)) = some r) :
    BucketStable d
      { d with ht0 := htRemoveAt d.ht0 (keyIndex d.type d.ht0 k) r.2 } := by
  obtain ⟨pre, suf, hch, hg⟩ := chainRemove_split hr
  constructor
  · intro i kk hex hpres
    obtain ⟨e, he0, hk⟩ := hex
    by_cases hii0 : keyIndex d.type d.ht0 k = i
    · have hlt : i < d.ht0.table.length := htBucket_mem_lt he0
      have hbnew : htBucket (htRemoveAt d.ht0
          (keyIndex d.type d.ht0 k) r.2) i = r.2 := by
        show (d.ht0.table.set _ _).getD i [] = _
        rw [hii0]
        exact getD_set_self _ hlt _ _
      suffices hgoal : ∃ x ∈ r.2, x.key = kk by
        obtain ⟨x, hx1, hx2⟩ := hgoal
        refine ⟨x, ?_, hx2⟩
        have hb2 : htBucket ({ d with
            ht0 := htRemoveAt d.ht0 (keyIndex d.type d.ht0 k) r.2 }).ht0 i
            = r.2 := hbnew
        rw [hb2]
        exact hx1
      have he1 := he0
      rw [hii0] at hch
      rw [hch] at he1
      rcases List.mem_append.mp he1 with hpe | hrest
      · refine ⟨e, ?_, hk⟩
        rw [hg]
        exact List.mem_append_left _ hpe
      · rcases List.mem_cons.mp hrest with herq | hsf
        · obtain ⟨e', he', hk'⟩ := hpres
          rcases List.mem_append.mp he' with hin0 | hin1
          · obtain ⟨j, hj⟩ := htEntries_mem.mp hin0
            by_cases hji : j = i
            · subst hji
              rw [hbnew] at hj
              exact ⟨e', hj, hk'⟩
            · exfalso
              have hbj : htBucket (htRemoveAt d.ht0
                  (keyIndex d.type d.ht0 k) r.2) j = htBucket d.ht0 j := by
                show (d.ht0.table.set _ _).getD j [] = _
                rw [hii0]
                exact getD_set_ne _ (fun hh => hji hh.symm) _ _
              rw [hbj] at hj
              have hpl' := hok.1.2.2.2 j (htBucket_mem_lt hj) e' hj
              have hpl := hok.1.2.2.2 i hlt e he0
              rw [hk'] at hpl'
              rw [hk] at hpl
              exact hji (hpl'.symm.trans hpl)
          · exfalso
            refine keys_disjoint_tables hnd kk ?_ ?_
            · exact List.mem_map.mpr ⟨e, htEntries_mem.mpr ⟨i, he0⟩, hk⟩
            · exact List.mem_map.mpr ⟨e', hin1, hk'⟩
        · refine ⟨e, ?_, hk⟩
          rw [hg]
          exact List.mem_append_right _ hsf
    · refine ⟨e, ?_, hk⟩
      have hb2 : htBucket ({ d with
          ht0 := htRemoveAt d.ht0 (keyIndex d.type d.ht0 k) r.2 }).ht0 i
          = htBucket d.ht0 i := getD_set_ne _ hii0 _ _
      rw [hb2]
      exact he0
  · intro i kk hex _
    exact hex

theorem remove_bucket_keeps1 {d : Dict K V} (hok : DictOk d)
    (hnd : KeysNodup d) {k : K} {r : DEntry K V × List (DEntry K V)}
    (hr : chainRemove d.type k
      (htBucket d.ht1 (keyIndex d.type d.ht1 k)) = some r) :
    BucketStable d
      { d with ht1 := htRemoveAt d.ht1 (keyIndex d.type d.ht1 k) r.2 } := by
  obtain ⟨pre, suf, hch, hg⟩ := chainRemove_split hr
  constructor
  · intro i kk hex _
    exact hex
  · intro i kk hex hpres
    obtain ⟨e, he0, hk⟩ := hex
    by_cases hii0 : keyIndex d.type d.ht1 k = i
    · have hlt : i < d.ht1.table.length := htBucket_mem_lt he0
      have hbnew : htBucket (htRemoveAt d.ht1
          (keyIndex d.type d.ht1 k) r.2) i = r.2 := by
        show (d.ht1.table.set _ _).getD i [] = _
        rw [hii0]
        exact getD_set_self _ hlt _ _
      suffices hgoal : ∃ x ∈ r.2, x.key = kk by
        obtain ⟨x, hx1, hx2⟩ := hgoal
        refine ⟨x, ?_, hx2⟩
        have hb2 : htBucket ({ d with
            ht1 := htRemoveAt d.ht1 (keyIndex d.type d.ht1 k) r.2 }).ht1 i
            = r.2 := hbnew
        rw [hb2]
        exact hx1
      have he1 := he0
      rw [hii0] at hch
      rw [hch] at he1
      rcases List.mem_append.mp he1 with hpe | hrest
      · refine ⟨e, ?_, hk⟩
        rw [hg]
        exact List.mem_append_left _ hpe
      · rcases List.mem_cons.mp hrest with herq | hsf
        · obtain ⟨e', he', hk'⟩ := hpres
          rcases List.mem_append.mp he' with hin0 | hin1
          · exfalso
            refine keys_disjoint_tables hnd kk ?_ ?_
            · exact List.mem_map.mpr ⟨e', hin0, hk'⟩
            · exact List.mem_map.mpr ⟨e, htEntries_mem.mpr ⟨i, he0⟩, hk⟩
          · obtain ⟨j, hj⟩ := htEntries_mem.mp hin1
            by_cases hji : j = i
            · subst hji
              rw [hbnew] at hj
              exact ⟨e', hj, hk'⟩
            · exfalso
              have hbj : htBucket (htRemoveAt d.ht1
                  (keyIndex d.type d.ht1 k) r.2) j = htBucket d.ht1 j := by
                show (d.ht1.table.set _ _).getD j [] = _
                rw [hii0]
                exact getD_set_ne _ (fun hh => hji hh.symm) _ _
              rw [hbj] at hj
              have hpl' := hok.2.1.2.2.2 j (htBucket_mem_lt hj) e' hj
              have hpl := hok.2.1.2.2.2 i hlt e he0
              rw [hk'] at hpl'
              rw [hk] at hpl
              exact hji (hpl'.symm.trans hpl)
        · refine ⟨e, ?_, hk⟩
          rw [hg]
          exact List.mem_append_right _ hsf
    · refine ⟨e, ?_, hk⟩
      have hb2 : htBucket ({ d with
          ht1 := htRemoveAt d.ht1 (keyIndex d.type d.ht1 k) r.2 }).ht1 i
          = htBucket d.ht1 i := getD_set_ne _ hii0 _ _
      rw [hb2]
      exact he0

theorem dictDelete_pause {d : Dict K V} (hok : DictOk d) (hnd : KeysNodup d)
    (hit : 0 < d.iterators) (k : K) :
    (dictDelete d k).2.rehashidx = d.rehashidx ∧
    BucketStable d (dictDelete d k).2 := by
  by_cases hsz : dictSize d = 0
  · have hres : dictDelete d k = (false, d) := by
      simp only [dictDelete]
      rw [if_pos hsz]
    rw [hres]
    exact ⟨rfl, bucketStable_of_grow (bucketGrow_refl d)⟩
  · simp only [dictDelete]
    rw [if_neg hsz, stepChecked_skip hit]
    cases hr0 : chainRemove d.type k
        (htBucket d.ht0 (keyIndex d.type d.ht0 k)) with
    | some r =>
      exact ⟨rfl, remove_bucket_keeps0 hok hnd hr0⟩
    | none =>
      by_cases hreh : dictIsRehashing d = true
      · rw [if_pos hreh]
        cases hr1 : chainRemove d.type k
            (htBucket d.ht1 (keyIndex d.type d.ht1 k)) with
        | some r =>
          exact ⟨rfl, remove_bucket_keeps1 hok hnd hr1⟩
        | none =>
          exact ⟨rfl, bucketStable_of_grow (bucketGrow_refl d)⟩
      · rw [if_neg hreh]
        exact ⟨rfl, bucketStable_of_grow (bucketGrow_refl d)⟩

end PauseDelete

section PauseMain

variable {K V : Type} [DecidableEq K] [DecidableEq V]

/-- C4 (amended): while safe iterators are live (`iterators > 0`), no
operation performs a rehash migration step: every key keeps its table and
bucket for as long as it stays stored (`BucketStable`), and the rehash
cursor never advances — though, unlike the claim's wording, an insertion
may still *initialise* a rehash (cursor `-1` to `0`) by triggering growth
(`cursorPause`). -/
theorem dict_iterator_pause {d : Dict K V} (hok : DictOk d)
    (hnd : KeysNodup d) (op : DictOp K V) (hit : 0 < d.iterators) :
    cursorPause d (applyOp d op) ∧ BucketStable d (applyOp d op) := by
  cases op with
  | add k v =>
    have h2 : applyOp d (DictOp.add k v)
        = (dictAddCore d k (some (dictDupVal d.type v))).2 := by
      show (dictAdd d k v).2 = _
      unfold dictAdd
      cases hres : dictAddCore d k (some (dictDupVal d.type v)) with
      | mk res d2 => cases res <;> rfl
    rw [h2]
    obtain ⟨hcp, hbg⟩ := dictAddCore_pause hok hit k _
    exact ⟨hcp, bucketStable_of_grow hbg⟩
  | delete k =>
    obtain ⟨hc, hs⟩ := dictDelete_pause hok hnd hit k
    exact ⟨Or.inl hc, hs⟩
  | find k =>
    have h2 : applyOp d (DictOp.find k) = d := by
      show (dictFind d k).2 = d
      unfold dictFind
      split_ifs with h
      · rfl
      · exact stepChecked_skip hit
    rw [h2]
    exact ⟨cursorPause_refl d, bucketStable_of_grow (bucketGrow_refl d)⟩
  | addOrFind k =>
    have h2 : applyOp d (DictOp.addOrFind k)
        = (dictAddCore d k (none : Option V)).2 := by
      show (dictAddOrFind d k).2 = _
      unfold dictAddOrFind
      cases hres : dictAddCore d k (none : Option V) with
      | mk res d2 => cases res <;> rfl
    rw [h2]
    obtain ⟨hcp, hbg⟩ := dictAddCore_pause hok hit k _
    exact ⟨hcp, bucketStable_of_grow hbg⟩
  | replace k v =>
    obtain ⟨hcp, hbg⟩ := dictAddCore_pause hok hit k
      (some (dictDupVal d.type v))
    cases hres : dictAddCore d k (some (dictDupVal d.type v)) with
    | mk res d2 =>
      rw [hres] at hcp hbg
      cases res with
      | created e =>
        have h2 : applyOp d (DictOp.replace k v) = d2 := by
          show (dictReplace d k v).2 = d2
          simp [dictReplace, hres]
        rw [h2]
        exact ⟨hcp, bucketStable_of_grow hbg⟩
      | found e =>
        have h2 : applyOp d (DictOp.replace k v) = dictSetValAt d2 k v := by
          show (dictReplace d k v).2 = _
          simp [dictReplace, hres]
        rw [h2]
        constructor
        · exact cursorPause_trans hcp (Or.inl (dictSetValAt_cursor d2 k v))
        · exact bucketStable_comp hbg (dictSetValAt_stable d2 k v)
  | rehash n =>
    have h2 : applyOp d (DictOp.rehash n) = d := by
      show dictRehash d n = d
      unfold dictRehash
      rw [if_pos (by omega)]
    rw [h2]
    exact ⟨cursorPause_refl d, bucketStable_of_grow (bucketGrow_refl d)⟩
  | expand n =>
    obtain ⟨hlen0, hht1⟩ := dictOk_table_facts hok
    obtain ⟨hcp, hbg⟩ := dictExpand_pause hlen0 hht1 n
    exact ⟨hcp, bucketStable_of_grow hbg⟩
  | resize =>
    show cursorPause d (dictResize d).2 ∧ BucketStable d (dictResize d).2
    unfold dictResize
    split_ifs with h
    · exact ⟨cursorPause_refl d, bucketStable_of_grow (bucketGrow_refl d)⟩
    · obtain ⟨hlen0, hht1⟩ := dictOk_table_facts hok
      obtain ⟨hcp, hbg⟩ := dictExpand_pause hlen0 hht1 _
      exact ⟨hcp, bucketStable_of_grow hbg⟩
  | getSafeIterator =>
    exact ⟨Or.inl rfl, bucketStable_of_grow (bucketGrow_refl d)⟩
  | releaseIterator =>
    exact ⟨Or.inl rfl, bucketStable_of_grow (bucketGrow_refl d)⟩
  | enableResize =>
    exact ⟨Or.inl rfl, bucketStable_of_grow (bucketGrow_refl d)⟩
  | disableResize =>
    exact ⟨Or.inl rfl, bucketStable_of_grow (bucketGrow_refl d)⟩

/-- Witness for C4 at a concrete input: with one live safe iterator on a
fresh dict, an add leaves the rehash cursor paused. -/
theorem dict_iterator_pause_witness :
    cursorPause (dictGetSafeIterator (dictCreate natDictType))
      (applyOp (dictGetSafeIterator (dictCreate natDictType))
        (DictOp.add 1 1)) :=
  (dict_iterator_pause (by unfold DictOk HtOk; decide)
    (by unfold KeysNodup; decide) (DictOp.add 1 1) (by decide)).1

/-- Counterexample to C4 as stated: with a live safe iterator, an add that
trips the growth threshold still *starts* a rehash — the cursor moves from
the idle value `-1` to `0` — so "the rehash cursor ... [is] unchanged by
any operation" is false; only migration itself is paused. -/
theorem dict_iterator_pause_counterexample :
    0 < (⟨natDictType,
      ⟨[[⟨0, some 0⟩, ⟨4, some 4⟩], [⟨1, some 1⟩], [⟨2, some 2⟩],
        [⟨3, some 3⟩]], 4, 3, 5⟩,
      emptyHt Nat Nat, -1, 1, true⟩ : Dict Nat Nat).iterators ∧
    (applyOp (⟨natDictType,
      ⟨[[⟨0, some 0⟩, ⟨4, some 4⟩], [⟨1, some 1⟩], [⟨2, some 2⟩],
        [⟨3, some 3⟩]], 4, 3, 5⟩,
      emptyHt Nat Nat, -1, 1, true⟩ : Dict Nat Nat)
        (DictOp.add 5 5)).rehashidx
      ≠ (⟨natDictType,
      ⟨[[⟨0, some 0⟩, ⟨4, some 4⟩], [⟨1, some 1⟩], [⟨2, some 2⟩],
        [⟨3, some 3⟩]], 4, 3, 5⟩,
      emptyHt Nat Nat, -1, 1, true⟩ : Dict Nat Nat).rehashidx := by
  decide

end PauseMain

section ScanDefs

variable {K V : Type} [DecidableEq K] [DecidableEq V]

/-- Reverse the low `u` bits of `v` (the reverse-binary view of the scan
cursor, spec §4.5). -/
def bitRev : Nat → Nat → Nat
  | 0, _ => 0
  | u + 1, v => v % 2 * 2 ^ u + bitRev u (v / 2)

/-- Modelled from the spec (§4.5): advance the cursor by reversing its
bits over the table's bit width, incrementing the reversed value, and
reversing again (overflow of the reversed value wraps the cursor to 0,
ending the scan). -/
def scanNext (u v : Nat) : Nat :=
  bitRev u ((bitRev u (v % 2 ^ u) + 1) % 2 ^ u)

/-- Fueled binary logarithm (positions of the single set bit of a
power-of-two table size). -/
def log2Go : Nat → Nat → Nat
  | 0, _ => 0
  | fuel + 1, n => if n ≤ 1 then 0 else log2Go fuel (n / 2) + 1

/-- Bit width of a power-of-two table size. -/
def sizeBits (n : Nat) : Nat := log2Go n n

/-- Modelled from the spec (§4.5): one `dictScan` call — visit the
bucket(s) at the cursor masked into each active table (both while
rehashing), and return the advanced cursor (0 signals completion). -/
def dictScan (d : Dict K V) (v : Nat) : List (DEntry K V) × Nat :=
  if dictSize d = 0 then ([], 0)
  else if dictIsRehashing d then
    (htBucket d.ht0 (v &&& d.ht0.sizemask) ++
      htBucket d.ht1 (v &&& d.ht1.sizemask),
     scanNext (sizeBits (max d.ht0.size d.ht1.size)) v)
  else
    (htBucket d.ht0 (v &&& d.ht0.sizemask),
     scanNext (sizeBits d.ht0.size) v)

/-- The cursor left after running one `dictScan` call against each
snapshot in turn. -/
def scanRun : List (Dict K V) → Nat → Nat
  | [], v => v
  | d :: rest, v => scanRun rest (dictScan d v).2

/-- Whether some call of the scan passes an entry with key `k` to the
callback. -/
def scanSees : List (Dict K V) → Nat → K → Bool
  | [], _, _ => false
  | d :: rest, v, k =>
    ((dictScan d v).1.any (fun e => e.key == k)) ||
      scanSees rest (dictScan d v).2 k

theorem bitRev_zero (u : Nat) : bitRev u 0 = 0 := by
  induction u with
  | zero => rfl
  | succ u ih => simp [bitRev, ih]

theorem bitRev_lt (u : Nat) (v : Nat) : bitRev u v < 2 ^ u := by
  induction u generalizing v with
  | zero => simp [bitRev]
  | succ u ih =>
    show v % 2 * 2 ^ u + bitRev u (v / 2) < 2 ^ (u + 1)
    have h1 : v % 2 ≤ 1 := by omega
    have h2 : bitRev u (v / 2) < 2 ^ u := ih (v / 2)
    have h3 : v % 2 * 2 ^ u ≤ 2 ^ u := by
      calc v % 2 * 2 ^ u ≤ 1 * 2 ^ u := Nat.mul_le_mul_right _ h1
        _ = 2 ^ u := Nat.one_mul _
    have h4 : 2 ^ (u + 1) = 2 ^ u + 2 ^ u := by
      rw [Nat.pow_succ]
      omega
    omega

theorem bitRev_mod (u : Nat) (v : Nat) : bitRev u (v % 2 ^ u) = bitRev u v := by
  induction u generalizing v with
  | zero => rfl
  | succ u ih =>
    show v % 2 ^ (u + 1) % 2 * 2 ^ u + bitRev u (v % 2 ^ (u + 1) / 2)
      = v % 2 * 2 ^ u + bitRev u (v / 2)
    have h1 : v % 2 ^ (u + 1) % 2 = v % 2 :=
      Nat.mod_mod_of_dvd v ⟨2 ^ u, by
        rw [Nat.pow_succ]; exact Nat.mul_comm _ _⟩
    have h2 : v % 2 ^ (u + 1) / 2 = v / 2 % 2 ^ u := by
      rw [show (2 : Nat) ^ (u + 1) = 2 * 2 ^ u from by
        rw [Nat.pow_succ]; exact Nat.mul_comm _ _]
      exact Nat.mod_mul_right_div_self v 2 (2 ^ u)
    rw [h1, h2, ih]

theorem bitRev_dual (u : Nat) (v : Nat) :
    bitRev (u + 1) v = 2 * bitRev u v + v / 2 ^ u % 2 := by
  induction u generalizing v with
  | zero =>
    show v % 2 * 2 ^ 0 + bitRev 0 (v / 2) = 2 * bitRev 0 v + v / 2 ^ 0 % 2
    simp [bitRev]
  | succ u ih =>
    show v % 2 * 2 ^ (u + 1) + bitRev (u + 1) (v / 2)
      = 2 * bitRev (u + 1) v + v / 2 ^ (u + 1) % 2
    rw [ih (v / 2)]
    show v % 2 * 2 ^ (u + 1) + (2 * bitRev u (v / 2) + v / 2 / 2 ^ u % 2)
      = 2 * (v % 2 * 2 ^ u + bitRev u (v / 2)) + v / 2 ^ (u + 1) % 2
    have h1 : v / 2 / 2 ^ u = v / 2 ^ (u + 1) := by
      rw [Nat.div_div_eq_div_mul]
      congr 1
      rw [Nat.pow_succ]
      ring
    rw [h1]
    have h2 : v % 2 * 2 ^ (u + 1) = 2 * (v % 2 * 2 ^ u) := by
      rw [Nat.pow_succ]
      ring
    omega

theorem bitRev_bitRev (u : Nat) (v : Nat) :
    bitRev u (bitRev u v) = v % 2 ^ u := by
  induction u generalizing v with
  | zero => simp [bitRev, Nat.mod_one]
  | succ u ih =>
    show bitRev (u + 1) (v % 2 * 2 ^ u + bitRev u (v / 2)) = v % 2 ^ (u + 1)
    rw [bitRev_dual]
    have h1 : bitRev u (v % 2 * 2 ^ u + bitRev u (v / 2))
        = v / 2 % 2 ^ u := by
      rw [← bitRev_mod]
      have heq : (v % 2 * 2 ^ u + bitRev u (v / 2)) % 2 ^ u
          = bitRev u (v / 2) % 2 ^ u := by
        rw [Nat.add_comm]
        exact Nat.add_mul_mod_self_right _ _ _
      rw [heq, bitRev_mod, ih]
    have h2 : (v % 2 * 2 ^ u + bitRev u (v / 2)) / 2 ^ u % 2 = v % 2 := by
      have hlt : bitRev u (v / 2) < 2 ^ u := bitRev_lt u _
      have hdiv : (v % 2 * 2 ^ u + bitRev u (v / 2)) / 2 ^ u = v % 2 := by
        rw [Nat.mul_comm (v % 2) (2 ^ u)]
        rw [Nat.mul_add_div (Nat.pos_pow_of_pos u (by omega))]
        rw [Nat.div_eq_of_lt hlt]
        omega
      rw [hdiv]
      exact Nat.mod_eq_of_lt (by omega)
    rw [h1, h2]
    have h3 : v % 2 ^ (u + 1) = v % 2 + 2 * (v / 2 % 2 ^ u) := by
      rw [show (2 : Nat) ^ (u + 1) = 2 * 2 ^ u from by
        rw [Nat.pow_succ]; exact Nat.mul_comm _ _]
      exact Nat.mod_mul
    omega

end ScanDefs

section ScanTheory

theorem bitRev_decomp (dl : Nat) : ∀ (s x : Nat),
    bitRev (s + dl) (x % 2 ^ (s + dl))
      = bitRev s (x % 2 ^ s) * 2 ^ dl
        + bitRev dl (x % 2 ^ (s + dl) / 2 ^ s) := by
  intro s
  induction s with
  | zero =>
    intro x
    simp [bitRev, Nat.mod_one, Nat.zero_add]
  | succ s ih =>
    intro x
    have hsd : s + 1 + dl = s + dl + 1 := by omega
    rw [hsd]
    have hw2 : x % 2 ^ (s + dl + 1) % 2 = x % 2 :=
      Nat.mod_mod_of_dvd x ⟨2 ^ (s + dl), by
        rw [Nat.pow_succ]; exact Nat.mul_comm _ _⟩
    have hwd : x % 2 ^ (s + dl + 1) / 2 = x / 2 % 2 ^ (s + dl) := by
      rw [show (2 : Nat) ^ (s + dl + 1) = 2 * 2 ^ (s + dl) from by
        rw [Nat.pow_succ]; exact Nat.mul_comm _ _]
      exact Nat.mod_mul_right_div_self x 2 (2 ^ (s + dl))
    have hr1 : bitRev (s + 1) (x % 2 ^ (s + 1))
        = x % 2 * 2 ^ s + bitRev s (x / 2 % 2 ^ s) := by
      rw [bitRev_mod]
      show x % 2 * 2 ^ s + bitRev s (x / 2) = _
      rw [bitRev_mod]
    have hr2 : x % 2 ^ (s + dl + 1) / 2 ^ (s + 1)
        = x / 2 % 2 ^ (s + dl) / 2 ^ s := by
      rw [show (2 : Nat) ^ (s + 1) = 2 * 2 ^ s from by
        rw [Nat.pow_succ]; exact Nat.mul_comm _ _]
      rw [← Nat.div_div_eq_div_mul, hwd]
    show x % 2 ^ (s + dl + 1) % 2 * 2 ^ (s + dl)
        + bitRev (s + dl) (x % 2 ^ (s + dl + 1) / 2)
      = bitRev (s + 1) (x % 2 ^ (s + 1)) * 2 ^ dl
        + bitRev dl (x % 2 ^ (s + dl + 1) / 2 ^ (s + 1))
    rw [hw2, hwd, ih (x / 2), hr1, hr2, pow_add]
    ring

theorem bitRev_inj {u a b : Nat} (ha : a < 2 ^ u) (hb : b < 2 ^ u)
    (h : bitRev u a = bitRev u b) : a = b := by
  have h1 := bitRev_bitRev u a
  have h2 := bitRev_bitRev u b
  rw [h] at h1
  rw [h1] at h2
  rw [Nat.mod_eq_of_lt ha, Nat.mod_eq_of_lt hb] at h2
  exact h2

theorem bitRev_le_transfer {u : Nat} {w hv : Nat} (hw : w < 2 ^ u)
    (hle : bitRev u w ≤ bitRev u (hv % 2 ^ u)) (w2 : Nat) :
    bitRev w2 (w % 2 ^ w2) ≤ bitRev w2 (hv % 2 ^ w2) := by
  rcases Nat.le_total w2 u with hcase | hcase
  · obtain ⟨dl, rfl⟩ := Nat.exists_eq_add_of_le hcase
    have h1 := bitRev_decomp dl w2 w
    have h2 := bitRev_decomp dl w2 hv
    rw [Nat.mod_eq_of_lt hw] at h1
    rw [h1, h2] at hle
    have ha : bitRev dl (w / 2 ^ w2) < 2 ^ dl := bitRev_lt dl _
    have hb : bitRev dl (hv % 2 ^ (w2 + dl) / 2 ^ w2) < 2 ^ dl :=
      bitRev_lt dl _
    by_contra hAB
    push_neg at hAB
    have hstep : (bitRev w2 (hv % 2 ^ w2) + 1) * 2 ^ dl
        ≤ bitRev w2 (w % 2 ^ w2) * 2 ^ dl :=
      Nat.mul_le_mul_right _ hAB
    rw [Nat.add_mul, Nat.one_mul] at hstep
    omega
  · obtain ⟨dl, rfl⟩ := Nat.exists_eq_add_of_le hcase
    have h2 := bitRev_decomp dl u hv
    have h1 := bitRev_decomp dl u w
    have hwbig : w < 2 ^ (u + dl) :=
      lt_of_lt_of_le hw (Nat.pow_le_pow_right (by omega) (by omega))
    rw [Nat.mod_eq_of_lt hwbig, Nat.mod_eq_of_lt hw,
      Nat.div_eq_of_lt hw, bitRev_zero] at h1
    rw [Nat.mod_eq_of_lt hwbig, h1, h2]
    have hmul : bitRev u w * 2 ^ dl
        ≤ bitRev u (hv % 2 ^ u) * 2 ^ dl :=
      Nat.mul_le_mul_right _ hle
    omega

theorem log2Go_pow : ∀ (fuel u : Nat), 2 ^ u ≤ fuel →
    log2Go fuel (2 ^ u) = u := by
  intro fuel
  induction fuel with
  | zero =>
    intro u h
    exact absurd h (by
      have := Nat.pos_pow_of_pos u (show 0 < 2 by omega)
      omega)
  | succ fuel ih =>
    intro u h
    cases u with
    | zero =>
      show log2Go (fuel + 1) 1 = 0
      rw [log2Go, if_pos (by omega)]
    | succ s =>
      have h2 : ¬ (2 ^ (s + 1) ≤ 1) := by
        have : (2 : Nat) ^ s ≥ 1 := Nat.pos_pow_of_pos s (by omega)
        rw [Nat.pow_succ]
        omega
      show log2Go (fuel + 1) (2 ^ (s + 1)) = s + 1
      rw [log2Go, if_neg h2]
      have hdiv : 2 ^ (s + 1) / 2 = 2 ^ s := by
        rw [Nat.pow_succ]
        exact Nat.mul_div_cancel _ (by omega)
      rw [hdiv]
      have hfuel : 2 ^ s ≤ fuel := by
        have hlt : (2 : Nat) ^ s < 2 ^ (s + 1) :=
          Nat.pow_lt_pow_right (by omega) (by omega)
        omega
      rw [ih s hfuel]

theorem sizeBits_pow (u : Nat) : sizeBits (2 ^ u) = u :=
  log2Go_pow (2 ^ u) u le_rfl

end ScanTheory

section ScanMain

variable {K V : Type} [DecidableEq K] [DecidableEq V]

theorem scan_cover_aux (t : DictType K V) (k : K) :
    ∀ (ds : List (Dict K V)) (v : Nat),
      (∀ d ∈ ds, d.type = t ∧ DictOk d ∧ dictIsRehashing d = false ∧
        (∃ u, d.ht0.size = 2 ^ u) ∧ (∃ e ∈ entriesOf d, e.key = k)) →
      scanRun ds v = 0 →
      (∀ d1 rest1, ds = d1 :: rest1 →
        bitRev (sizeBits d1.ht0.size) (v % 2 ^ sizeBits d1.ht0.size)
          ≤ bitRev (sizeBits d1.ht0.size)
            (t.hashFunction k % 2 ^ sizeBits d1.ht0.size)) →
      ds ≠ [] →
      scanSees ds v k = true := by
  intro ds
  induction ds with
  | nil =>
    intro v _ _ _ hne
    exact absurd rfl hne
  | cons d rest ih =>
    intro v hconds hrun hinv _
    obtain ⟨htype, hok, hreh, ⟨u0, hsz⟩, ⟨e, hemem, hekey⟩⟩ :=
      hconds d (List.mem_cons_self d rest)
    have hpow : (0 : Nat) < 2 ^ u0 := Nat.pos_pow_of_pos u0 (by omega)
    have hlen := dictSize_eq_length hok.1 hok.2.1
    have hdsz : dictSize d ≠ 0 := by
      rw [hlen]
      intro h0
      have hnil : entriesOf d = [] := List.eq_nil_of_length_eq_zero h0
      rw [hnil] at hemem
      exact absurd hemem (List.not_mem_nil e)
    have hscan : dictScan d v = (htBucket d.ht0 (v &&& d.ht0.sizemask),
        scanNext (sizeBits d.ht0.size) v) := by
      unfold dictScan
      rw [if_neg hdsz, if_neg (by rw [hreh]; exact Bool.false_ne_true)]
    have hu : sizeBits d.ht0.size = u0 := by
      rw [hsz]
      exact sizeBits_pow u0
    have hmask : d.ht0.sizemask = 2 ^ u0 - 1 := by
      rw [hok.1.2.1, hsz]
    have hRH := hinv d rest rfl
    rw [hu] at hRH
    by_cases heq : bitRev u0 (v % 2 ^ u0)
        = bitRev u0 (t.hashFunction k % 2 ^ u0)
    · have hvh : v % 2 ^ u0 = t.hashFunction k % 2 ^ u0 :=
        bitRev_inj (Nat.mod_lt _ hpow) (Nat.mod_lt _ hpow) heq
      have hr : d.rehashidx = -1 := by
        unfold dictIsRehashing at hreh
        simpa using hreh
      have hht1 : htEntries d.ht1 = [] := by
        have hs1 : d.ht1.size = 0 := hok.2.2.2.1 hr
        have hlen1 : d.ht1.table.length = 0 := by rw [hok.2.1.1, hs1]
        have htab : d.ht1.table = [] := List.eq_nil_of_length_eq_zero hlen1
        unfold htEntries
        rw [htab]
        rfl
      have he0 : e ∈ htEntries d.ht0 := by
        rcases List.mem_append.mp hemem with h0 | h1
        · exact h0
        · rw [hht1] at h1
          exact absurd h1 (List.not_mem_nil e)
      obtain ⟨i, hi⟩ := htEntries_mem.mp he0
      have hplace := hok.1.2.2.2 i (htBucket_mem_lt hi) e hi
      rw [htype, hekey, hmask, Nat.and_pow_two_sub_one_eq_mod] at hplace
      have hieq : v &&& d.ht0.sizemask = i := by
        rw [hmask, Nat.and_pow_two_sub_one_eq_mod, hvh, hplace]
      show ((dictScan d v).1.any (fun e => e.key == k)
          || scanSees rest (dictScan d v).2 k) = true
      rw [hscan]
      rw [Bool.or_eq_true]
      refine Or.inl (List.any_eq_true.mpr ⟨e, ?_, ?_⟩)
      · rw [hieq]
        exact hi
      · exact beq_iff_eq.mpr hekey
    · have hlt : bitRev u0 (v % 2 ^ u0)
          < bitRev u0 (t.hashFunction k % 2 ^ u0) :=
        lt_of_le_of_ne hRH heq
      have hHlt : bitRev u0 (t.hashFunction k % 2 ^ u0) < 2 ^ u0 :=
        bitRev_lt u0 _
      have hR1 : bitRev u0 (v % 2 ^ u0) + 1 < 2 ^ u0 := by omega
      have hv2 : (dictScan d v).2
          = bitRev u0 (bitRev u0 (v % 2 ^ u0) + 1) := by
        rw [hscan]
        show scanNext (sizeBits d.ht0.size) v = _
        rw [hu]
        unfold scanNext
        rw [Nat.mod_eq_of_lt hR1]
      have hv2lt : (dictScan d v).2 < 2 ^ u0 := by
        rw [hv2]
        exact bitRev_lt u0 _
      have hrev2 : bitRev u0 ((dictScan d v).2)
          = bitRev u0 (v % 2 ^ u0) + 1 := by
        rw [hv2, bitRev_bitRev, Nat.mod_eq_of_lt hR1]
      cases rest with
      | nil =>
        exfalso
        have h0 : (dictScan d v).2 = 0 := hrun
        rw [h0, bitRev_zero] at hrev2
        omega
      | cons d2 rest2 =>
        have hsees : scanSees (d2 :: rest2) (dictScan d v).2 k = true := by
          apply ih
          · intro d3 hd3
            exact hconds d3 (List.mem_cons_of_mem _ hd3)
          · exact hrun
          · intro d1 rest1 hcons
            have hd1 : d1 = d2 := by
              injection hcons with hh1 hh2
              exact hh1.symm
            subst hd1
            have hle2 : bitRev u0 ((dictScan d v).2)
                ≤ bitRev u0 (t.hashFunction k % 2 ^ u0) := by
              rw [hrev2]
              omega
            exact bitRev_le_transfer hv2lt hle2 _
          · exact List.cons_ne_nil d2 rest2
        show ((dictScan d v).1.any (fun e => e.key == k)
            || scanSees (d2 :: rest2) (dictScan d v).2 k) = true
        rw [hsees, Bool.or_true]

/-- C5: completeness of the cursor scan under power-of-two resizes.  For a
complete scan — successive `dictScan` calls from cursor 0 against the
snapshots `ds` seen at each call, the last call returning cursor 0 — over
well-formed non-rehashing snapshots of power-of-two size sharing the
behavior table `t`: any key stored in every snapshot (present continuously
from the first to the last call) is passed to the callback at least
once. -/
theorem dict_scan_coverage {t : DictType K V} (k : K)
    (ds : List (Dict K V)) (hne : ds ≠ [])
    (hconds : ∀ d ∈ ds, d.type = t ∧ DictOk d ∧
      dictIsRehashing d = false ∧
      (∃ u, d.ht0.size = 2 ^ u) ∧ (∃ e ∈ entriesOf d, e.key = k))
    (hrun : scanRun ds 0 = 0) :
    scanSees ds 0 k = true := by
  apply scan_cover_aux t k ds 0 hconds hrun ?_ hne
  intro d1 rest1 hcons
  rw [Nat.zero_mod, bitRev_zero]
  exact Nat.zero_le _

end ScanMain

/-- Witness for C5 at a concrete input: four scan calls over a size-4
table holding key 0 complete the cursor cycle (0, 2, 1, 3, back to 0) and
pass key 0 to the callback. -/
theorem dict_scan_coverage_witness :
    scanSees
      [(⟨natDictType, ⟨[[⟨0, some 0⟩], [], [], []], 4, 3, 1⟩,
          emptyHt Nat Nat, -1, 0, true⟩ : Dict Nat Nat),
        ⟨natDictType, ⟨[[⟨0, some 0⟩], [], [], []], 4, 3, 1⟩,
          emptyHt Nat Nat, -1, 0, true⟩,
        ⟨natDictType, ⟨[[⟨0, some 0⟩], [], [], []], 4, 3, 1⟩,
          emptyHt Nat Nat, -1, 0, true⟩,
        ⟨natDictType, ⟨[[⟨0, some 0⟩], [], [], []], 4, 3, 1⟩,
          emptyHt Nat Nat, -1, 0, true⟩] 0 0 = true := by
  apply dict_scan_coverage (t := natDictType) 0 _
    (List.cons_ne_nil _ _) ?_ (by decide)
  intro d hd
  simp only [List.mem_cons, List.not_mem_nil, or_false] at hd
  rcases hd with h | h | h | h <;>
    (subst h
     exact ⟨rfl, by unfold DictOk HtOk; decide, rfl, ⟨2, rfl⟩,
       ⟨⟨0, some 0⟩, by decide, rfl⟩⟩)
